import Mathlib

/-!
# LSH forest and flat LSH index: a shallow embedding of `forest.go` and `basic.go`

Modelling conventions.

* Go `int` values (ids, hash values, `count`, `maxLevel`, `k`, `m`) are `Int`; the only
  arithmetic in the code is `count++` and the level counters, so no wrap-around is reachable
  short of 2^63 insertions.
* A Go `map[K]V` is an association list with the entries in insertion order. A `nil` map is
  `none`: it reads as empty and a write into it fails. Go leaves the iteration order of
  `range` over a map unspecified; the model iterates in list order, and the statements below
  are about membership, multiplicity and counts, which do not depend on that order.
* A run-time failure (index out of range, assignment to an entry of a nil map) is `none`.
* `lshParams`, `Point`, `hashTableKey` and `hashTableBucket` are declared outside the two
  source files; `Point` is a type parameter, the hash function is a field of `lshParams`,
  and the two slice types are lists of `Int`.
* `Insert` starts one goroutine per table/tree and joins them. On tables and trees as
  values the model performs the updates from left to right. That the goroutines touch
  disjoint memory is shown on a second model, in which the maps and the tree nodes lie in
  a store and are reached through references (`flatMem`, `forestMem`); there a goroutine is
  one step on the shared store, and the steps are taken in any order.
* `Query`/`QueryKnn` write ids to a channel; the model returns the list of ids written, in
  the order written.
* `recursiveAdd` is given twice: by recursion on the part of the key still to be consumed
  (`recursiveAddFrom`), and with the level counter of the source, the kind of failure and
  the number of recursive calls (`recursiveAddLevel`); `recursiveAddLevel_eq` relates them.
* The hash values rendered by `%.16x` are Go `int`s; where the rendering must be injective
  they are assumed to lie in the 64-bit range (`isInt64`).
-/

namespace Lsh

/-- Table key of one group: the Go type `hashTableKey`, a slice of `int`. -/
abbrev hashTableKey := List Int

/-- Bucket of ids of the flat index: the Go type `hashTableBucket`, a slice of `int`. -/
abbrev hashTableBucket := List Int

/-- Parameters shared by the indexes (`lshParams` in Go): the number of groups `l`, the
number of hash values per key `m`, and the hash function giving one table key per group. -/
structure lshParams (Point : Type) where
  l : Nat
  m : Int
  hash : Point → List hashTableKey

/-! ## Go maps as association lists -/

/-- Map write `m[k] = v` on a non-nil map: replaces the value of an existing key in place,
adds a new entry otherwise. -/
def mapSet {κ β : Type} [DecidableEq κ] : List (κ × β) → κ → β → List (κ × β)
  | [], k, v => [(k, v)]
  | (k', v') :: rest, k, v =>
    if k' = k then (k, v) :: rest else (k', v') :: mapSet rest k v

/-- Map read `v, ok := m[k]`. -/
def mapGet {κ β : Type} [DecidableEq κ] : List (κ × β) → κ → Option β
  | [], _ => none
  | (k', v') :: rest, k => if k' = k then some v' else mapGet rest k

/-! ## forest.go -/

/-- Node of a prefix tree (`treeNode`): the hash key that led to it, the ids stored at it
and the children map (`none` is the nil map). -/
inductive treeNode where
  | mk (hashKey : Int) (indices : List Int) (children : Option (List (Int × treeNode)))

namespace treeNode

/-- Field `hashKey`. -/
def hashKey : treeNode → Int
  | mk h _ _ => h

/-- Field `indices`. -/
def indices : treeNode → List Int
  | mk _ i _ => i

/-- Field `children`. -/
def children : treeNode → Option (List (Int × treeNode))
  | mk _ _ c => c

/-- Entries visited by `range node.children`; a nil map has none. -/
def childList (node : treeNode) : List (Int × treeNode) :=
  node.children.getD []

/-- Read `next, ok := node.children[k]`; a nil map has no key. -/
def getChild (node : treeNode) (k : Int) : Option treeNode :=
  mapGet node.childList k

mutual
/-- Number of nodes of the subtree rooted at a node. -/
def size : treeNode → Nat
  | mk _ _ none => 1
  | mk _ _ (some cs) => 1 + sizeList cs
/-- Number of nodes below the entries of a children map. -/
def sizeList : List (Int × treeNode) → Nat
  | [] => 0
  | (_, c) :: rest => size c + sizeList rest
end

mutual
/-- All ids stored in the subtree rooted at a node (the node first, then its children
from left to right, depth first). -/
def ids : treeNode → List Int
  | mk _ i none => i
  | mk _ i (some cs) => i ++ idsList cs
/-- All ids stored below the entries of a children map. -/
def idsList : List (Int × treeNode) → List Int
  | [] => []
  | (_, c) :: rest => ids c ++ idsList rest
end

mutual
/-- No node of the subtree has a nil children map. -/
def made : treeNode → Prop
  | mk _ _ none => False
  | mk _ _ (some cs) => madeList cs
/-- No node below the entries of a children map has a nil children map. -/
def madeList : List (Int × treeNode) → Prop
  | [] => True
  | (_, c) :: rest => made c ∧ madeList rest
end

/-- Node created by `&treeNode{hashKey: k, indices: make([]int, 0),
children: make(map[int]*treeNode)}`. -/
def fresh (k : Int) : treeNode :=
  mk k [] (some [])

/-- Body of `recursiveAdd` on the part of the table key that is still to be consumed,
`tableKey[level:]`. When that part is empty (`level == len(tableKey)`) the id is appended
to the node. Otherwise the child for `tableKey[level]` is looked up, created and stored in
the children map when absent (which fails when the map is nil), and the recursion goes on
in that child at `level+1`. The result is the updated node together with the returned
flag. -/
def recursiveAddFrom (id : Int) : List Int → treeNode → Option (treeNode × Bool)
  | [], mk hk idx cs => some (mk hk (idx ++ [id]) cs, false)
  | _ :: _, mk _ _ none => none
  | h :: rest, mk hk idx (some cs) =>
    let next : treeNode := (mapGet cs h).getD (fresh h)
    let hasNewHash : Bool := (mapGet cs h).isNone
    match recursiveAddFrom id rest next with
    | none => none
    | some (next', recursive) =>
      some (mk hk idx (some (mapSet cs h next')), hasNewHash || recursive)

/-- The method `recursiveAdd(level, id, tableKey)`. A level beyond the end of the key
indexes the key out of range. -/
def recursiveAdd (node : treeNode) (level : Nat) (id : Int) (tableKey : hashTableKey) :
    Option (treeNode × Bool) :=
  if level ≤ tableKey.length then recursiveAddFrom id (tableKey.drop level) node else none

/-- First loop of `lookup`: `for level := 0; level < len(tableKey) && level < maxLevel;
level++`, on the current level and the part `tableKey[level:]` of the key. The result is
`none` when a child is missing (the early `return indices`), the node reached otherwise. -/
def descend (maxLevel : Int) : Nat → List Int → treeNode → Option treeNode
  | _, [], currentNode => some currentNode
  | level, h :: rest, currentNode =>
    if (level : Int) < maxLevel then
      match currentNode.getChild h with
      | none => none
      | some next => descend maxLevel (level + 1) rest next
    else some currentNode

/-- Second loop of `lookup`: `for len(queue) > 0`, with one unit of fuel per iteration.
Each iteration appends the ids of the head to `indices`, appends the children of the head
to the queue and drops the head. -/
def bfs : Nat → List treeNode → List Int → List Int
  | 0, _, indices => indices
  | _ + 1, [], indices => indices
  | fuel + 1, head :: queue, indices =>
    bfs fuel (queue ++ head.childList.map Prod.snd) (indices ++ head.indices)

/-- Follows a path of hash values from a node, one child per value. -/
def walk : treeNode → List Int → Option treeNode
  | node, [] => some node
  | node, h :: rest =>
    match node.getChild h with
    | none => none
    | some next => walk next rest

/-- Ids stored in the subtree reached by a path; none when the path is absent. -/
def idsAt (node : treeNode) (path : List Int) : List Int :=
  match node.walk path with
  | none => []
  | some n => n.ids

/-- Nodes of a tree with their depth: `atDepth root d n` says that `n` is reached from
`root` through `d` child links. -/
inductive atDepth : treeNode → Nat → treeNode → Prop where
  | root (r : treeNode) : atDepth r 0 r
  | child (r c n : treeNode) (k : Int) (d : Nat) :
      (k, c) ∈ r.childList → atDepth c d n → atDepth r (d + 1) n

/-- Shape of a subtree whose root has `r` key components left to consume: no node lies
deeper than `r` links below the root, and the nodes less than `r` links below it store no
id. -/
def shapeWithin (r : Nat) (n : treeNode) : Prop :=
  ∀ d x, atDepth n d x → d ≤ r ∧ (d < r → x.indices = [])

end treeNode

namespace treeNode

mutual
/-- The method `recursiveDelete`. The loop over the children deletes the children that have
children of their own and clears `node.indices` when a child still holds ids; after the
loop the node loses its ids and its children map becomes nil, so the children are no
longer reachable from it. -/
def recursiveDelete : treeNode → treeNode
  | mk hk _ none => mk hk [] none
  | mk hk idx (some cs) =>
    match deleteLoop idx cs with
    | (_, _) => mk hk [] none
/-- Loop `for _, child := range node.children` of `recursiveDelete`, on the ids of the node
and the entries still to visit: the ids of the node and the children after the loop. -/
def deleteLoop : List Int → List (Int × treeNode) → List Int × List (Int × treeNode)
  | idx, [] => (idx, [])
  | idx, (k, child) :: rest =>
    let child' : treeNode := if child.childList.length > 0 then recursiveDelete child else child
    let idx' : List Int := if child'.indices.length > 0 then [] else idx
    match deleteLoop idx' rest with
    | (idx'', rest') => (idx'', (k, child') :: rest')
end

/-- Ways in which `recursiveAdd` can stop without returning: an index beyond the end of the
table key, a write into a nil children map, and, in the model only, the end of the fuel. -/
inductive Fault where
  | indexOutOfRange
  | nilMapWrite
  | outOfFuel
  deriving DecidableEq

/-- The method `recursiveAdd(level, id, tableKey)` with the level counter of the source, the
key indexed as `tableKey[level]`, and one unit of fuel per recursive call. The result
carries the number of recursive calls that were made. -/
def recursiveAddLevel (id : Int) (tableKey : hashTableKey) :
    Nat → Nat → treeNode → Except Fault (treeNode × Bool × Nat)
  | 0, level, mk hk idx cs =>
    if level = tableKey.length then .ok (mk hk (idx ++ [id]) cs, false, 0)
    else .error .outOfFuel
  | fuel + 1, level, mk hk idx cs =>
    if level = tableKey.length then .ok (mk hk (idx ++ [id]) cs, false, 0)
    else
      match tableKey[level]? with
      | none => .error .indexOutOfRange
      | some h =>
        match cs with
        | none => .error .nilMapWrite
        | some cs =>
          match recursiveAddLevel id tableKey fuel (level + 1) ((mapGet cs h).getD (fresh h)) with
          | .error e => .error e
          | .ok (next', recursive, steps) =>
            .ok (mk hk idx (some (mapSet cs h next')), (mapGet cs h).isNone || recursive,
              steps + 1)

/-- Ids stored at the node reached by a path; none when the path is absent. -/
def indicesAt (node : treeNode) (path : List Int) : List Int :=
  match node.walk path with
  | none => []
  | some n => n.indices

end treeNode

/-- The Go struct `prefixTree`: the counter and the root node. -/
structure prefixTree where
  count : Int
  root : treeNode

namespace prefixTree

/-- Tree as initialised by `NewLshForest`: count 0 and a root with an empty id list and an
empty, non-nil children map. -/
def empty : prefixTree :=
  ⟨0, treeNode.fresh 0⟩

/-- The method `insertIntoTree(id, tableKey)`: `recursiveAdd` from level 0, and `count++`
when it returns true. -/
def insertIntoTree (tree : prefixTree) (id : Int) (tableKey : hashTableKey) :
    Option prefixTree :=
  match tree.root.recursiveAdd 0 id tableKey with
  | none => none
  | some (root', true) => some ⟨tree.count + 1, root'⟩
  | some (root', false) => some ⟨tree.count, root'⟩

/-- The method `lookup(maxLevel, tableKey)`. The queue loop gets as much fuel as the subtree
of the node reached has nodes, which is the number of iterations it makes
(see `treeNode.bfs_fuel_enough`). -/
def lookup (tree : prefixTree) (maxLevel : Int) (tableKey : hashTableKey) : List Int :=
  match treeNode.descend maxLevel 0 tableKey tree.root with
  | none => []
  | some currentNode => treeNode.bfs currentNode.size [currentNode] []

/-- Number of key components that `lookup(maxLevel, tableKey)` follows. -/
def depthUsed (maxLevel : Int) (tableKey : hashTableKey) : Nat :=
  min maxLevel.toNat tableKey.length

/-- Ids of the logged insertions whose key extends a path. -/
def idsUnder (p : List Int) (log : List (Int × hashTableKey)) : List Int :=
  (log.filter (fun e => decide (p <+: e.2))).map Prod.fst

/-- Successive `insertIntoTree` calls, one per pair `(id, tableKey)`. -/
def insertMany : prefixTree → List (Int × hashTableKey) → Option prefixTree
  | tree, [] => some tree
  | tree, (id, key) :: rest =>
    match tree.insertIntoTree id key with
    | none => none
    | some tree' => insertMany tree' rest

end prefixTree

/-- Inner loop shared by `queryHelper` and `BasicLsh.Query`: every candidate that is not yet
in the `seens` set is added to it and emitted. The state is `(seens, emitted)`. -/
def emitUnseen : List Int × List Int → List Int → List Int × List Int
  | st, [] => st
  | (seens, out), candidate :: rest =>
    if candidate ∈ seens then emitUnseen (seens, out) rest
    else emitUnseen (candidate :: seens, out ++ [candidate]) rest

/-- State of the seen-set loop in which the set holds exactly the ids emitted so far and
no id was emitted twice. -/
def emitInv (st : List Int × List Int) : Prop :=
  (∀ x, x ∈ st.1 ↔ x ∈ st.2) ∧ st.2.Nodup

/-- The Go struct `LshForest`: the embedded parameters and the trees. -/
structure LshForest (Point : Type) where
  params : lshParams Point
  trees : List prefixTree

/-- Insertions seen by tree `i`: each id with the key of group `i` of its point. -/
def logAt {Point : Type} (hash : Point → List hashTableKey) (i : Nat)
    (ins : List (Point × Int)) : List (Int × hashTableKey) :=
  ins.map (fun e => (e.2, (hash e.1)[i]?.getD []))

/-- Constructor `NewLshForest`: `l` trees, each with count 0 and a fresh root. The
parameters stand for the result of `newLshParams(dim, l, m, w)`. -/
def NewLshForest {Point : Type} (params : lshParams Point) : LshForest Point :=
  ⟨params, List.replicate params.l prefixTree.empty⟩

/-- Loop of `LshForest.Insert`: `for i := range index.trees` with `hv := hvs[i]`, on the
trees from `i` on and the keys from `i` on. A missing key is an index out of range. -/
def insertTrees (id : Int) : List prefixTree → List hashTableKey → Option (List prefixTree)
  | [], _ => some []
  | _ :: _, [] => none
  | tree :: trees, hv :: hvs =>
    match tree.insertIntoTree id hv with
    | none => none
    | some tree' =>
      match insertTrees id trees hvs with
      | none => none
      | some trees' => some (tree' :: trees')

/-- Loop of `queryHelper`: `for i, tree := range index.trees` with `tableKeys[i]`, on the
trees and keys from `i` on, threading `(seens, indices)`. -/
def queryTrees (maxLevel : Int) :
    List prefixTree → List hashTableKey → List Int × List Int → Option (List Int)
  | [], _, st => some st.2
  | _ :: _, [], _ => none
  | tree :: trees, key :: keys, st =>
    queryTrees maxLevel trees keys (emitUnseen st (tree.lookup maxLevel key))

namespace LshForest

variable {Point : Type}

/-- The method `Insert(point, id)`. -/
def Insert (index : LshForest Point) (point : Point) (id : Int) : Option (LshForest Point) :=
  match insertTrees id index.trees (index.params.hash point) with
  | none => none
  | some trees' => some ⟨index.params, trees'⟩

/-- The method `queryHelper(maxLevel, tableKeys)`. -/
def queryHelper (index : LshForest Point) (maxLevel : Int) (tableKeys : List hashTableKey) :
    Option (List Int) :=
  queryTrees maxLevel index.trees tableKeys ([], [])

/-- The method `Query(q, out)`: the ids written to `out`, in order. -/
def Query (index : LshForest Point) (q : Point) : Option (List Int) :=
  index.queryHelper index.params.m (index.params.hash q)

/-- Loop of `QueryKnn`: `for maxLevels := m; maxLevels >= 0; maxLevels--`, entered with
`maxLevels` non-negative; the result is the last value of `candidates`. -/
def knnLoop (index : LshForest Point) (k : Int) (hvs : List hashTableKey) :
    Nat → Option (List Int)
  | 0 => index.queryHelper 0 hvs
  | maxLevels + 1 =>
    match index.queryHelper ((maxLevels + 1 : Nat) : Int) hvs with
    | none => none
    | some candidates =>
      if (candidates.length : Int) ≥ k then some candidates
      else knnLoop index k hvs maxLevels

/-- The method `QueryKnn(q, k, out)`: the ids written to `out`, in order. With a negative
`m` the loop body never runs and `candidates` stays empty. -/
def QueryKnn (index : LshForest Point) (q : Point) (k : Int) : Option (List Int) :=
  if index.params.m < 0 then some []
  else knnLoop index k (index.params.hash q) index.params.m.toNat

/-- Successive `Insert` calls, one per pair `(point, id)`. -/
def insertAll : LshForest Point → List (Point × Int) → Option (LshForest Point)
  | index, [] => some index
  | index, (p, id) :: rest =>
    match index.Insert p id with
    | none => none
    | some index' => insertAll index' rest

/-- All ids stored in the forest, tree by tree. -/
def storedIds (index : LshForest Point) : List Int :=
  index.trees.flatMap (fun tree => tree.root.ids)

end LshForest

/-! ## basic.go -/

/-- Key of a bucket of the flat index: the Go type `basicHashTableKey`, a string. -/
abbrev basicHashTableKey := String

/-- The Go type `hashTable`: a map from bucket keys to buckets. -/
abbrev hashTable := List (basicHashTableKey × hashTableBucket)

/-- Rendering of `fmt.Sprintf("%.16x", hashVal)` for an `int`: a minus sign for a negative
value, then the magnitude in lower-case hexadecimal, padded with zeros on the left to at
least 16 digits. -/
def fmtHex16 (hashVal : Int) : String :=
  let digits := Nat.toDigits 16 hashVal.natAbs
  let padded := List.replicate (16 - digits.length) '0' ++ digits
  String.mk (if hashVal < 0 then '-' :: padded else padded)

/-- Inner loop of `toBasicHashTableKeys`: the concatenation of the rendered hash values. -/
def renderKey (key : hashTableKey) : basicHashTableKey :=
  key.foldl (fun s hashVal => s ++ fmtHex16 hashVal) ""

/-- Outer loop of `toBasicHashTableKeys`: `basicKeys[i] = ...` for the keys from `i` on; a
key beyond the length of `basicKeys` is an index out of range. -/
def fillKeys : Nat → List hashTableKey → List basicHashTableKey →
    Option (List basicHashTableKey)
  | _, [], basicKeys => some basicKeys
  | i, key :: keys, basicKeys =>
    if i < basicKeys.length then fillKeys (i + 1) keys (basicKeys.set i (renderKey key))
    else none

/-- Table update done by one goroutine of `BasicLsh.Insert`: the bucket is created when
absent, then the id is appended to it. -/
def tableInsert (table : hashTable) (hv : basicHashTableKey) (id : Int) : hashTable :=
  match mapGet table hv with
  | none => mapSet table hv [id]
  | some bucket => mapSet table hv (bucket ++ [id])

/-- Loop of `BasicLsh.Insert`: `for i := range index.tables` with `hv := hvs[i]`. -/
def insertTables (id : Int) : List hashTable → List basicHashTableKey → Option (List hashTable)
  | [], _ => some []
  | _ :: _, [] => none
  | table :: tables, hv :: hvs =>
    match insertTables id tables hvs with
    | none => none
    | some tables' => some (tableInsert table hv id :: tables')

/-- Loop of `BasicLsh.Query`: `for i, table := range index.tables` with `hvs[i]`, threading
`(seens, ids written to out)`. -/
def queryTables : List hashTable → List basicHashTableKey → List Int × List Int →
    Option (List Int)
  | [], _, st => some st.2
  | _ :: _, [], _ => none
  | table :: tables, hv :: hvs, st =>
    match mapGet table hv with
    | some candidates => queryTables tables hvs (emitUnseen st candidates)
    | none => queryTables tables hvs st

/-- The Go struct `BasicLsh`: the embedded parameters and the hash tables. -/
structure BasicLsh (Point : Type) where
  params : lshParams Point
  tables : List hashTable

/-- Constructor `NewBasicLsh`: `l` empty hash tables. The parameters stand for the result
of `newLshParams(dim, l, m, w)`. -/
def NewBasicLsh {Point : Type} (params : lshParams Point) : BasicLsh Point :=
  ⟨params, List.replicate params.l []⟩

namespace BasicLsh

variable {Point : Type}

/-- The method `toBasicHashTableKeys(keys)`: a slice of `index.l` strings, the first ones
overwritten by the rendered keys. -/
def toBasicHashTableKeys (index : BasicLsh Point) (keys : List hashTableKey) :
    Option (List basicHashTableKey) :=
  fillKeys 0 keys (List.replicate index.params.l "")

/-- State of the flat index in which the bucket of table `i` for the `i`-th bucket key of
point `p` holds `id`, for every table. -/
def holds (index : BasicLsh Point) (p : Point) (id : Int) : Prop :=
  ∀ hvs, index.toBasicHashTableKeys (index.params.hash p) = some hvs →
    ∀ (i : Nat) (t : hashTable), index.tables[i]? = some t →
      ∃ hv b, hvs[i]? = some hv ∧ mapGet t hv = some b ∧ id ∈ b

/-- The method `Insert(point, id)`. -/
def Insert (index : BasicLsh Point) (point : Point) (id : Int) : Option (BasicLsh Point) :=
  match index.toBasicHashTableKeys (index.params.hash point) with
  | none => none
  | some hvs =>
    match insertTables id index.tables hvs with
    | none => none
    | some tables' => some ⟨index.params, tables'⟩

/-- The method `Query(q, out)`: the ids written to `out`, in order. -/
def Query (index : BasicLsh Point) (q : Point) : Option (List Int) :=
  match index.toBasicHashTableKeys (index.params.hash q) with
  | none => none
  | some hvs => queryTables index.tables hvs ([], [])

/-- Successive `Insert` calls, one per pair `(point, id)`. -/
def insertAll : BasicLsh Point → List (Point × Int) → Option (BasicLsh Point)
  | index, [] => some index
  | index, (p, id) :: rest =>
    match index.Insert p id with
    | none => none
    | some index' => insertAll index' rest

end BasicLsh

/-! ## Group updates, teardown, rendering -/

/-- Update of element `i` of a slice by the goroutine of group `i`: the per-group update
`f i` applied to that element, every other element left as it is. An index beyond the
slice or a failing update fails. -/
def updateAt {α : Type} (f : Nat → α → Option α) (i : Nat) (xs : List α) : Option (List α) :=
  match xs[i]? with
  | none => none
  | some x =>
    match f i x with
    | none => none
    | some x' => some (xs.set i x')

/-- The group updates performed one after the other in a given order of the groups. -/
def runGroups {α : Type} (f : Nat → α → Option α) : List Nat → List α → Option (List α)
  | [], xs => some xs
  | i :: rest, xs =>
    match updateAt f i xs with
    | none => none
    | some xs' => runGroups f rest xs'

/-- Work of group `i` in `LshForest.Insert`: `hv := hvs[i]`, then `insertIntoTree(id, hv)` on
tree `i`. -/
def treeStep (id : Int) (hvs : List hashTableKey) (i : Nat) (tree : prefixTree) :
    Option prefixTree :=
  match hvs[i]? with
  | none => none
  | some hv => tree.insertIntoTree id hv

/-- Work of group `i` in `BasicLsh.Insert`: `hv := hvs[i]`, then the bucket update on
table `i`. -/
def tableStep (id : Int) (hvs : List basicHashTableKey) (i : Nat) (table : hashTable) :
    Option hashTable :=
  match hvs[i]? with
  | none => none
  | some hv => some (tableInsert table hv id)

/-- Range of a Go `int` on a 64-bit platform. -/
def isInt64 (v : Int) : Prop :=
  -2 ^ 63 ≤ v ∧ v < 2 ^ 63

/-- Value of a hexadecimal digit character, 0 for any other character. -/
def hexDigitVal (c : Char) : Nat :=
  if c = '0' then 0 else if c = '1' then 1 else if c = '2' then 2 else if c = '3' then 3
  else if c = '4' then 4 else if c = '5' then 5 else if c = '6' then 6 else if c = '7' then 7
  else if c = '8' then 8 else if c = '9' then 9 else if c = 'a' then 10
  else if c = 'b' then 11 else if c = 'c' then 12 else if c = 'd' then 13
  else if c = 'e' then 14 else if c = 'f' then 15 else 0

/-- Number read from a list of hexadecimal digits, most significant first, continuing from
an accumulated value. -/
def hexValue (acc : Nat) (cs : List Char) : Nat :=
  cs.foldl (fun a c => a * 16 + hexDigitVal c) acc

namespace LshForest

/-- The method `Delete()`: `recursiveDelete` on the root of every tree. The loop variable is
a copy of the tree struct that shares the root node, so the roots change and the counts
stay. -/
def Delete {Point : Type} (index : LshForest Point) : LshForest Point :=
  ⟨index.params, index.trees.map (fun tree => ⟨tree.count, tree.root.recursiveDelete⟩)⟩

end LshForest

/-- The group updates performed from left to right on the elements from group `j` on, each
on its own element. -/
def seqGroups {α : Type} (f : Nat → α → Option α) : Nat → List α → Option (List α)
  | _, [] => some []
  | j, x :: rest =>
    match f j x with
    | none => none
    | some x' =>
      match seqGroups f (j + 1) rest with
      | none => none
      | some rest' => some (x' :: rest')

/-! ## Example data -/

/-- Example hash function on integer points: two groups, keys of length two. -/
def exHash (p : Int) : List hashTableKey :=
  [[p, 0], [p / 2, p % 2]]

/-- Example parameters: `l = 2`, `m = 2`. -/
def exParams : lshParams Int :=
  ⟨2, 2, exHash⟩

/-- Example insertions: ids 10, 11, 12 for the points 4, 5, 4, and id 10 once more for the
point 4. -/
def exInserts : List (Int × Int) :=
  [(4, 10), (5, 11), (4, 12), (4, 10)]

/-- Example insertions into one tree: the insertions `exInserts` as seen by the tree of
group 0. -/
def exLog : List (Int × hashTableKey) :=
  [(10, [4, 0]), (11, [5, 0]), (12, [4, 0]), (10, [4, 0])]

/-- Tree of group 0 after the insertions `exInserts`: id 10 is stored twice in one node. -/
def exTree0 : prefixTree :=
  ⟨2, .mk 0 [] (some [
    (4, .mk 4 [] (some [(0, .mk 0 [10, 12, 10] (some []))])),
    (5, .mk 5 [] (some [(0, .mk 0 [11] (some []))]))])⟩

/-- Tree of group 1 after the insertions `exInserts`. -/
def exTree1 : prefixTree :=
  ⟨2, .mk 0 [] (some [
    (2, .mk 2 [] (some [(0, .mk 0 [10, 12, 10] (some [])), (1, .mk 1 [11] (some []))]))])⟩

/-- Forest after the insertions `exInserts`: every id is stored in both trees. -/
def exForest : LshForest Int :=
  ⟨exParams, [exTree0, exTree1]⟩

/-- Flat index after the insertions `exInserts`: the bucket of point 4 holds id 10 twice in
both tables. -/
def exBasic : BasicLsh Int :=
  ⟨exParams, [
    [(renderKey [4, 0], [10, 12, 10]), (renderKey [5, 0], [11])],
    [(renderKey [2, 0], [10, 12, 10]), (renderKey [2, 1], [11])]]⟩

instance (v : Int) : Decidable (isInt64 v) :=
  inferInstanceAs (Decidable (-2 ^ 63 ≤ v ∧ v < 2 ^ 63))

/-- Example hash function on eight points: `exHash` on the number of the point, so that
every hash value is small. -/
def exHashFin (p : Fin 8) : List hashTableKey :=
  exHash (p.val : Int)

/-- Example parameters on eight points: `l = 2`, `m = 2`. -/
def exParamsFin : lshParams (Fin 8) :=
  ⟨2, 2, exHashFin⟩

/-- Example insertions on eight points: the insertions `exInserts`. -/
def exInsertsFin : List (Fin 8 × Int) :=
  [(4, 10), (5, 11), (4, 12), (4, 10)]

/-! ## Tables and trees behind pointers

The definitions above treat a table and a tree as a value. Here the maps of the flat index
and the nodes of the forest lie in a store and are reached through addresses, as the Go
values are reached through map references and node pointers, so that two tables or two
trees can share memory and the goroutines of `Insert` can be seen to touch disjoint
parts of it. -/

/-- Performs `f` on every element from left to right; fails when `f` fails. -/
def traverse {α β : Type} (f : α → Option β) : List α → Option (List β)
  | [] => some []
  | x :: xs =>
    match f x with
    | none => none
    | some y =>
      match traverse f xs with
      | none => none
      | some ys => some (y :: ys)

/-- Steps of the groups performed one after the other on a shared state, in a given order
of the groups. -/
def runSteps {σ : Type} (step : Nat → σ → Option σ) : List Nat → σ → Option σ
  | [], s => some s
  | i :: rest, s =>
    match step i s with
    | none => none
    | some s' => runSteps step rest s'

/-- Memory of a `BasicLsh`: the maps made so far, a map reference being the position of
the map, and the slice `index.tables` of map references. -/
structure flatMem where
  maps : List hashTable
  tables : List Nat

/-- Loop `for i := range tables { tables[i] = make(hashTable) }` of `NewBasicLsh`, for the
slots still to fill: every `make` adds a new empty map to the store. -/
def allocTables : Nat → List hashTable → List hashTable × List Nat
  | 0, maps => (maps, [])
  | n + 1, maps =>
    match allocTables n (maps ++ [[]]) with
    | (maps', refs) => (maps', maps.length :: refs)

/-- Memory after `NewBasicLsh` with `l` tables. -/
def newFlatMem (l : Nat) : flatMem :=
  match allocTables l [] with
  | (maps, refs) => ⟨maps, refs⟩

/-- Goroutine of group `i` in `BasicLsh.Insert`, on the memory: `hv := hvs[i]`,
`table := index.tables[i]`, then the bucket update through the map reference `table`. -/
def tableGroupRef (id : Int) (hvs : List basicHashTableKey) (i : Nat) (mem : flatMem) :
    Option flatMem :=
  match hvs[i]? with
  | none => none
  | some hv =>
    match mem.tables[i]? with
    | none => none
    | some a =>
      match mem.maps[a]? with
      | none => none
      | some table => some ⟨mem.maps.set a (tableInsert table hv id), mem.tables⟩

namespace flatMem

/-- The tables as values: for every slot of `index.tables` the map it refers to. -/
def read (mem : flatMem) : Option (List hashTable) :=
  traverse (fun a => mem.maps[a]?) mem.tables

/-- The method `BasicLsh.Insert` on the memory, the groups taken from left to right. -/
def Insert {Point : Type} (params : lshParams Point) (mem : flatMem) (point : Point)
    (id : Int) : Option flatMem :=
  match fillKeys 0 (params.hash point) (List.replicate params.l "") with
  | none => none
  | some hvs => runSteps (tableGroupRef id hvs) (List.range mem.tables.length) mem

/-- Successive `Insert` calls on the memory. -/
def insertAll {Point : Type} (params : lshParams Point) :
    flatMem → List (Point × Int) → Option flatMem
  | mem, [] => some mem
  | mem, (p, id) :: rest =>
    match mem.Insert params p id with
    | none => none
    | some mem' => insertAll params mem' rest

end flatMem

/-- A `treeNode` as it lies in memory: the children map holds node pointers, here
addresses in the node store. The map itself is kept in the cell of its node: every node
gets a map of its own from `make`, and no map reference is ever copied to another node. -/
structure nodeCell where
  hashKey : Int
  indices : List Int
  children : Option (List (Int × Nat))

/-- Node store: the nodes allocated so far; `&treeNode{...}` appends a node and yields its
position. -/
abbrev nodeStore := List nodeCell

/-- The method `recursiveAdd` on the node store, for the node at address `a` and the part
of the table key still to be consumed. A missing child is allocated at the end of the
store and its address written into the children map of the node. -/
def recursiveAddRef (id : Int) : List Int → Nat → nodeStore → Option (nodeStore × Bool)
  | [], a, st =>
    match st[a]? with
    | none => none
    | some cell => some (st.set a ⟨cell.hashKey, cell.indices ++ [id], cell.children⟩, false)
  | h :: rest, a, st =>
    match st[a]? with
    | none => none
    | some cell =>
      match cell.children with
      | none => none
      | some cs =>
        match mapGet cs h with
        | some next =>
          match recursiveAddRef id rest next st with
          | none => none
          | some (st', recursive) => some (st', false || recursive)
        | none =>
          match recursiveAddRef id rest st.length
              ((st ++ [(⟨h, [], some []⟩ : nodeCell)]).set a
                ⟨cell.hashKey, cell.indices, some (mapSet cs h st.length)⟩) with
          | none => none
          | some (st', recursive) => some (st', true || recursive)

/-- A `prefixTree` struct as it lies in the slice `index.trees`: the count and the pointer
to the root node. -/
structure treeSlot where
  count : Int
  root : Nat

/-- Memory of an `LshForest`: the node store and the slice `index.trees`. -/
structure forestMem where
  nodes : nodeStore
  trees : List treeSlot

/-- Loop `for i := range trees` of `NewLshForest`, for the slots still to fill: every slot
gets count 0 and a newly allocated root. -/
def allocRoots : Nat → nodeStore → nodeStore × List treeSlot
  | 0, st => (st, [])
  | n + 1, st =>
    match allocRoots n (st ++ [(⟨0, [], some []⟩ : nodeCell)]) with
    | (st', slots) => (st', ⟨0, st.length⟩ :: slots)

/-- Memory after `NewLshForest` with `l` trees. -/
def newForestMem (l : Nat) : forestMem :=
  match allocRoots l [] with
  | (st, slots) => ⟨st, slots⟩

/-- Goroutine of group `i` in `LshForest.Insert`, on the memory: `hv := hvs[i]`,
`tree := &(index.trees[i])`, then `tree.insertIntoTree(id, hv)`, which runs `recursiveAdd`
from the root of that tree and increments the count of that slot. -/
def treeGroupRef (id : Int) (hvs : List hashTableKey) (i : Nat) (mem : forestMem) :
    Option forestMem :=
  match hvs[i]? with
  | none => none
  | some hv =>
    match mem.trees[i]? with
    | none => none
    | some slot =>
      match recursiveAddRef id hv slot.root mem.nodes with
      | none => none
      | some (nodes', true) => some ⟨nodes', mem.trees.set i ⟨slot.count + 1, slot.root⟩⟩
      | some (nodes', false) => some ⟨nodes', mem.trees⟩

/-- The tree below a node pointer as a value, with one unit of fuel per level. -/
def readTree : Nat → nodeStore → Nat → Option treeNode
  | 0, _, _ => none
  | fuel + 1, st, a =>
    match st[a]? with
    | none => none
    | some cell =>
      match cell.children with
      | none => some (.mk cell.hashKey cell.indices none)
      | some cs =>
        match traverse (fun e => (readTree fuel st e.2).map (fun t => (e.1, t))) cs with
        | none => none
        | some cs' => some (.mk cell.hashKey cell.indices (some cs'))

namespace forestMem

/-- The trees as values: for every slot of `index.trees` its count and the tree below its
root pointer. A tree without shared nodes has at most as many levels as the store has
nodes, which is the fuel given. -/
def read (mem : forestMem) : Option (List prefixTree) :=
  traverse (fun slot => (readTree mem.nodes.length mem.nodes slot.root).map
    (fun t => (⟨slot.count, t⟩ : prefixTree))) mem.trees

/-- The method `LshForest.Insert` on the memory, the groups taken from left to right. -/
def Insert {Point : Type} (params : lshParams Point) (mem : forestMem) (point : Point)
    (id : Int) : Option forestMem :=
  runSteps (treeGroupRef id (params.hash point)) (List.range mem.trees.length) mem

/-- Successive `Insert` calls on the memory. -/
def insertAll {Point : Type} (params : lshParams Point) :
    forestMem → List (Point × Int) → Option forestMem
  | mem, [] => some mem
  | mem, (p, id) :: rest =>
    match mem.Insert params p id with
    | none => none
    | some mem' => insertAll params mem' rest

end forestMem

/-- A tree with the address of every node written on it: what a node pointer leads to in a
store without shared nodes. -/
inductive refTree where
  | mk (addr : Nat) (hashKey : Int) (indices : List Int)
      (children : Option (List (Int × refTree)))

namespace refTree

/-- Address of the root. -/
def addr : refTree → Nat
  | mk a _ _ _ => a

/-- Field `hashKey` of the root. -/
def hashKey : refTree → Int
  | mk _ h _ _ => h

/-- Field `indices` of the root. -/
def indices : refTree → List Int
  | mk _ _ i _ => i

/-- Field `children` of the root. -/
def children : refTree → Option (List (Int × refTree))
  | mk _ _ _ c => c

mutual
/-- The tree as a value, the addresses forgotten. -/
def value : refTree → treeNode
  | mk _ hk idx none => .mk hk idx none
  | mk _ hk idx (some cs) => .mk hk idx (some (valueList cs))
/-- The entries of a children map as values. -/
def valueList : List (Int × refTree) → List (Int × treeNode)
  | [] => []
  | (k, c) :: rest => (k, value c) :: valueList rest
end

mutual
/-- All nodes of the tree, each with its subtree. -/
def nodes : refTree → List refTree
  | mk a hk idx none => [mk a hk idx none]
  | mk a hk idx (some cs) => mk a hk idx (some cs) :: nodesList cs
/-- All nodes below the entries of a children map. -/
def nodesList : List (Int × refTree) → List refTree
  | [] => []
  | (_, c) :: rest => nodes c ++ nodesList rest
end

/-- The memory cell of the root: the children map holds the addresses of the children. -/
def cell (rt : refTree) : nodeCell :=
  ⟨rt.hashKey, rt.indices, rt.children.map (fun cs => cs.map (fun e => (e.1, e.2.addr)))⟩

/-- Addresses of all nodes of the tree. -/
def addrs (rt : refTree) : List Nat :=
  rt.nodes.map addr

/-- The store holds the tree: every node lies at its address. -/
def storedIn (st : nodeStore) (rt : refTree) : Prop :=
  ∀ n ∈ rt.nodes, st[n.addr]? = some n.cell

end refTree

/-- The memory of a forest holds the trees `rts`, slot by slot, and no node belongs to two
of them or twice to one. -/
def forestHolds (mem : forestMem) (rts : List refTree) : Prop :=
  mem.trees.map treeSlot.root = rts.map refTree.addr ∧
    (∀ rt ∈ rts, rt.storedIn mem.nodes) ∧ (rts.flatMap refTree.addrs).Nodup

/-- The memory of a flat index is sound: the slots refer to different maps of the store. -/
def flatSound (mem : flatMem) : Prop :=
  mem.tables.Nodup ∧ ∀ a ∈ mem.tables, a < mem.maps.length


/-- The trees as values that a memory with the slots `slots` holds when the trees `rts`
lie below the root pointers. -/
def treesOf (slots : List treeSlot) (rts : List refTree) : List prefixTree :=
  List.zipWith (fun slot rt => (⟨slot.count, rt.value⟩ : prefixTree)) slots rts

/-! ## Association lists -/

section MapLemmas

variable {κ β : Type} [DecidableEq κ]

theorem mapGet_mapSet_self (cs : List (κ × β)) (k : κ) (v : β) :
    mapGet (mapSet cs k v) k = some v := by
  induction cs with
  | nil => simp [mapSet, mapGet]
  | cons e rest ih =>
    obtain ⟨k', v'⟩ := e
    by_cases h : k' = k
    · simp [mapSet, mapGet, h]
    · simp [mapSet, mapGet, h, ih]

theorem mapGet_mapSet_ne (cs : List (κ × β)) {k k' : κ} (v : β) (hne : k' ≠ k) :
    mapGet (mapSet cs k v) k' = mapGet cs k' := by
  induction cs with
  | nil => simp [mapSet, mapGet, Ne.symm hne]
  | cons e rest ih =>
    obtain ⟨k₀, v₀⟩ := e
    by_cases h : k₀ = k
    · subst h
      simp [mapSet, mapGet, Ne.symm hne]
    · by_cases h2 : k₀ = k'
      · subst h2
        simp [mapSet, mapGet, h]
      · simp [mapSet, mapGet, h, h2, ih]

theorem mem_of_mapGet {cs : List (κ × β)} {k : κ} {v : β} (h : mapGet cs k = some v) :
    (k, v) ∈ cs := by
  induction cs with
  | nil => simp [mapGet] at h
  | cons e rest ih =>
    obtain ⟨k₀, v₀⟩ := e
    by_cases hk : k₀ = k
    · simp [mapGet, hk] at h
      simp [hk, h]
    · simp [mapGet, hk] at h
      exact List.mem_cons_of_mem _ (ih h)

end MapLemmas

/-! ## Subtrees: ids, size, paths -/

namespace treeNode

theorem ids_eq (n : treeNode) : n.ids = n.indices ++ idsList n.childList := by
  obtain ⟨hk, idx, cs⟩ := n
  cases cs <;> simp [ids, indices, childList, children, idsList]

theorem size_eq (n : treeNode) : n.size = 1 + sizeList n.childList := by
  obtain ⟨hk, idx, cs⟩ := n
  cases cs <;> simp [size, childList, children, sizeList]

theorem idsList_eq_flatMap (cs : List (Int × treeNode)) :
    idsList cs = (cs.map Prod.snd).flatMap ids := by
  induction cs with
  | nil => simp [idsList]
  | cons e rest ih =>
    obtain ⟨k, c⟩ := e
    simp [idsList, ih]

theorem sizeList_eq_sum (cs : List (Int × treeNode)) :
    sizeList cs = ((cs.map Prod.snd).map size).sum := by
  induction cs with
  | nil => simp [sizeList]
  | cons e rest ih =>
    obtain ⟨k, c⟩ := e
    simp [sizeList, ih]

theorem size_pos (n : treeNode) : 0 < n.size := by
  rw [size_eq]; omega

theorem idsList_mapSet_none {cs : List (Int × treeNode)} {k : Int} (c : treeNode)
    (h : mapGet cs k = none) : idsList (mapSet cs k c) = idsList cs ++ ids c := by
  induction cs with
  | nil => simp [mapSet, idsList]
  | cons e rest ih =>
    obtain ⟨k₀, c₀⟩ := e
    by_cases hk : k₀ = k
    · simp [mapGet, hk] at h
    · simp [mapGet, hk] at h
      simp [mapSet, hk, idsList, ih h]

theorem idsList_mapSet_some {cs : List (Int × treeNode)} {k : Int} {c c' : treeNode}
    {extra : List Int} (h : mapGet cs k = some c) (hc : (ids c').Perm (ids c ++ extra)) :
    (idsList (mapSet cs k c')).Perm (idsList cs ++ extra) := by
  induction cs with
  | nil => simp [mapGet] at h
  | cons e rest ih =>
    obtain ⟨k₀, c₀⟩ := e
    by_cases hk : k₀ = k
    · simp [mapGet, hk] at h
      subst h
      simp only [mapSet, hk, if_true, idsList]
      calc ids c' ++ idsList rest
          _ |>.Perm ((ids c₀ ++ extra) ++ idsList rest) := List.Perm.append_right _ hc
          _ |>.Perm (ids c₀ ++ idsList rest ++ extra) := by
            rw [List.append_assoc, List.append_assoc]
            exact List.Perm.append_left _ List.perm_append_comm
    · simp [mapGet, hk] at h
      simp only [mapSet, hk, if_false, idsList, List.append_assoc]
      exact List.Perm.append_left _ (ih h)

/-- The queue loop with enough fuel returns, up to order, the ids it started with followed
by all ids stored in the subtrees of the queued nodes. -/
theorem bfs_perm (fuel : Nat) (queue : List treeNode) (acc : List Int)
    (h : (queue.map size).sum ≤ fuel) :
    (bfs fuel queue acc).Perm (acc ++ queue.flatMap ids) := by
  induction fuel generalizing queue acc with
  | zero =>
    cases queue with
    | nil => simp [bfs]
    | cons head rest =>
      have := size_pos head
      simp at h
      omega
  | succ fuel ih =>
    cases queue with
    | nil => simp [bfs]
    | cons head rest =>
      simp only [bfs]
      have hsz : ((rest ++ head.childList.map Prod.snd).map size).sum ≤ fuel := by
        have h1 := size_eq head
        have h2 := sizeList_eq_sum head.childList
        simp only [List.map_cons, List.sum_cons] at h
        simp only [List.map_append, List.sum_append]
        omega
      refine (ih _ _ hsz).trans ?_
      simp only [List.flatMap_append, List.flatMap_cons, ← idsList_eq_flatMap, ids_eq head,
        List.append_assoc]
      refine List.Perm.append_left _ (List.Perm.append_left _ ?_)
      exact List.perm_append_comm

/-- Fuel beyond the number of queued nodes is never used: the queue loop has emptied the
queue by then. -/
theorem bfs_fuel_enough (fuel fuel' : Nat) (queue : List treeNode) (acc : List Int)
    (h : (queue.map size).sum ≤ fuel) (h' : (queue.map size).sum ≤ fuel') :
    bfs fuel queue acc = bfs fuel' queue acc := by
  induction fuel generalizing fuel' queue acc with
  | zero =>
    cases queue with
    | nil => cases fuel' <;> simp [bfs]
    | cons head rest =>
      have := size_pos head
      simp at h
      omega
  | succ fuel ih =>
    cases queue with
    | nil => cases fuel' <;> simp [bfs]
    | cons head rest =>
      have hsz : ((rest ++ head.childList.map Prod.snd).map size).sum + 1 =
          ((head :: rest).map size).sum := by
        have h1 := size_eq head
        have h2 := sizeList_eq_sum head.childList
        simp only [List.map_cons, List.sum_cons, List.map_append, List.sum_append]
        omega
      cases fuel' with
      | zero => omega
      | succ fuel' =>
        simp only [bfs]
        exact ih _ _ _ (by omega) (by omega)

end treeNode

/-! ## Paths and `recursiveAdd` -/

namespace treeNode

@[simp] theorem getChild_mk_some (hk : Int) (idx : List Int) (cs : List (Int × treeNode))
    (k : Int) : (mk hk idx (some cs)).getChild k = mapGet cs k := rfl

@[simp] theorem getChild_mk_none (hk : Int) (idx : List Int) (k : Int) :
    (mk hk idx none).getChild k = none := rfl

@[simp] theorem walk_nil (n : treeNode) : n.walk [] = some n := by
  cases n; rfl

theorem walk_cons (n : treeNode) (h : Int) (t : List Int) :
    n.walk (h :: t) = (n.getChild h).bind (fun c => c.walk t) := by
  cases hg : n.getChild h <;> simp [walk, hg]

@[simp] theorem idsAt_nil (n : treeNode) : n.idsAt [] = n.ids := by
  simp [idsAt]

theorem idsAt_cons (n : treeNode) (h : Int) (t : List Int) :
    n.idsAt (h :: t) = match n.getChild h with
      | none => []
      | some c => c.idsAt t := by
  cases hg : n.getChild h <;> simp [idsAt, walk_cons, hg]

@[simp] theorem ids_fresh (k : Int) : (fresh k).ids = [] := by
  simp [fresh, ids, idsList]

@[simp] theorem idsAt_fresh (k : Int) (p : List Int) : (fresh k).idsAt p = [] := by
  cases p with
  | nil => simp
  | cons h t => simp [idsAt_cons, fresh, mapGet]

theorem walk_fresh_cons (k h : Int) (t : List Int) : (fresh k).walk (h :: t) = none := by
  simp [walk_cons, fresh, mapGet]

theorem recursiveAddFrom_cons_some (id h : Int) (rest : List Int) (hk : Int) (idx : List Int)
    (cs : List (Int × treeNode)) :
    recursiveAddFrom id (h :: rest) (mk hk idx (some cs)) =
      match recursiveAddFrom id rest ((mapGet cs h).getD (fresh h)) with
      | none => none
      | some (next', recursive) =>
        some (mk hk idx (some (mapSet cs h next')), (mapGet cs h).isNone || recursive) := by
  simp only [recursiveAddFrom]

/-- One insertion adds the id to the ids below every prefix of its key and changes the ids
below no other path. -/
theorem recursiveAddFrom_idsAt (id : Int) (key : List Int) (n n' : treeNode) (b : Bool)
    (h : recursiveAddFrom id key n = some (n', b)) (p : List Int) :
    (n'.idsAt p).Perm (n.idsAt p ++ if p <+: key then [id] else []) := by
  induction key generalizing n n' b p with
  | nil =>
    obtain ⟨hk, idx, cs⟩ := n
    simp only [recursiveAddFrom, Option.some.injEq, Prod.mk.injEq] at h
    obtain ⟨rfl, -⟩ := h
    cases p with
    | nil =>
      simp only [idsAt_nil, ids_eq, indices, childList, children, List.prefix_rfl, if_true,
        List.append_assoc]
      exact List.Perm.append_left _ List.perm_append_comm
    | cons h' t =>
      cases cs <;> simp [idsAt_cons, getChild, childList, children]
  | cons k₁ rest ih =>
    obtain ⟨hk, idx, cs⟩ := n
    cases cs with
    | none => simp [recursiveAddFrom] at h
    | some cs =>
      rw [recursiveAddFrom_cons_some] at h
      cases hrec : recursiveAddFrom id rest ((mapGet cs k₁).getD (fresh k₁)) with
      | none => simp [hrec] at h
      | some res =>
        obtain ⟨next', r⟩ := res
        simp only [hrec, Option.some.injEq, Prod.mk.injEq] at h
        obtain ⟨rfl, -⟩ := h
        have ih' := ih _ _ _ hrec
        cases p with
        | nil =>
          have h0 := ih' []
          simp only [idsAt_nil, List.nil_prefix, if_true] at h0
          simp only [idsAt_nil, ids_eq, indices, childList, children, Option.getD_some,
            List.nil_prefix, if_true, List.append_assoc]
          refine List.Perm.append_left _ ?_
          cases hg : mapGet cs k₁ with
          | none =>
            rw [idsList_mapSet_none _ hg]
            simp only [hg, Option.getD_none, ids_fresh, List.nil_append] at h0
            exact List.Perm.append_left _ h0
          | some c =>
            simp only [hg, Option.getD_some] at h0
            exact idsList_mapSet_some hg h0
        | cons h' t =>
          by_cases hh : h' = k₁
          · subst hh
            have ht := ih' t
            simp only [idsAt_cons, getChild_mk_some, mapGet_mapSet_self, List.cons_prefix_cons,
              true_and]
            cases hg : mapGet cs h' with
            | none => simpa [hg] using ht
            | some c => simpa [hg] using ht
          · simp [idsAt_cons, mapGet_mapSet_ne _ _ hh, List.cons_prefix_cons, hh]

theorem madeList_of_mapGet {cs : List (Int × treeNode)} {k : Int} {c : treeNode}
    (hm : madeList cs) (h : mapGet cs k = some c) : made c := by
  induction cs with
  | nil => simp [mapGet] at h
  | cons e rest ih =>
    obtain ⟨k₀, c₀⟩ := e
    simp only [madeList] at hm
    by_cases hk : k₀ = k
    · simp [mapGet, hk] at h
      exact h ▸ hm.1
    · simp [mapGet, hk] at h
      exact ih hm.2 h

theorem madeList_mapSet {cs : List (Int × treeNode)} (k : Int) {c : treeNode}
    (hm : madeList cs) (hc : made c) : madeList (mapSet cs k c) := by
  induction cs with
  | nil => simp [mapSet, madeList, hc]
  | cons e rest ih =>
    obtain ⟨k₀, c₀⟩ := e
    simp only [madeList] at hm
    by_cases hk : k₀ = k
    · simp [mapSet, hk, madeList, hc, hm.2]
    · simp [mapSet, hk, madeList, hm.1, ih hm.2]

theorem made_fresh (k : Int) : made (fresh k) := by
  simp [fresh, made, madeList]

/-- In a tree without nil children maps `recursiveAdd` succeeds and leaves such a tree. -/
theorem recursiveAddFrom_made (id : Int) (key : List Int) (n : treeNode) (hm : made n) :
    ∃ n' b, recursiveAddFrom id key n = some (n', b) ∧ made n' := by
  induction key generalizing n with
  | nil =>
    obtain ⟨hk, idx, cs⟩ := n
    refine ⟨_, _, rfl, ?_⟩
    cases cs
    · simp [made] at hm
    · simpa [made] using hm
  | cons h rest ih =>
    obtain ⟨hk, idx, cs⟩ := n
    cases cs with
    | none => simp [made] at hm
    | some cs =>
      simp only [made] at hm
      have hnext : made ((mapGet cs h).getD (fresh h)) := by
        cases hg : mapGet cs h with
        | none => simpa using made_fresh h
        | some c => simpa using madeList_of_mapGet hm hg
      obtain ⟨next', r, hrec, hmade⟩ := ih _ hnext
      refine ⟨_, _, by rw [recursiveAddFrom_cons_some, hrec], ?_⟩
      simp only [made]
      exact madeList_mapSet h hm hmade

/-- The flag returned by `recursiveAdd` tells whether the full path of the key was absent. -/
theorem recursiveAddFrom_flag (id : Int) (key : List Int) (n n' : treeNode) (b : Bool)
    (h : recursiveAddFrom id key n = some (n', b)) : b = (n.walk key).isNone := by
  induction key generalizing n n' b with
  | nil =>
    obtain ⟨hk, idx, cs⟩ := n
    simp only [recursiveAddFrom, Option.some.injEq, Prod.mk.injEq] at h
    simp [← h.2]
  | cons h' rest ih =>
    obtain ⟨hk, idx, cs⟩ := n
    cases cs with
    | none => simp [recursiveAddFrom] at h
    | some cs =>
      rw [recursiveAddFrom_cons_some] at h
      cases hrec : recursiveAddFrom id rest ((mapGet cs h').getD (fresh h')) with
      | none => simp [hrec] at h
      | some res =>
        obtain ⟨next', r⟩ := res
        simp only [hrec, Option.some.injEq, Prod.mk.injEq] at h
        obtain ⟨-, rfl⟩ := h
        have hr := ih _ _ _ hrec
        cases hg : mapGet cs h' with
        | none => simp [walk_cons, hg]
        | some c => simpa [walk_cons, hg] using hr

/-- After one insertion the paths present are the old ones and the prefixes of the key. -/
theorem recursiveAddFrom_walk (id : Int) (key : List Int) (n n' : treeNode) (b : Bool)
    (h : recursiveAddFrom id key n = some (n', b)) (p : List Int) :
    (n'.walk p).isSome = ((n.walk p).isSome || decide (p <+: key)) := by
  induction key generalizing n n' b p with
  | nil =>
    obtain ⟨hk, idx, cs⟩ := n
    simp only [recursiveAddFrom, Option.some.injEq, Prod.mk.injEq] at h
    obtain ⟨rfl, -⟩ := h
    cases p with
    | nil => simp
    | cons h' t => cases cs <;> simp [walk_cons, getChild, childList, children]
  | cons h' rest ih =>
    obtain ⟨hk, idx, cs⟩ := n
    cases cs with
    | none => simp [recursiveAddFrom] at h
    | some cs =>
      rw [recursiveAddFrom_cons_some] at h
      cases hrec : recursiveAddFrom id rest ((mapGet cs h').getD (fresh h')) with
      | none => simp [hrec] at h
      | some res =>
        obtain ⟨next', r⟩ := res
        simp only [hrec, Option.some.injEq, Prod.mk.injEq] at h
        obtain ⟨rfl, -⟩ := h
        have ih' := ih _ _ _ hrec
        cases p with
        | nil => simp
        | cons h₂ t =>
          by_cases hh : h₂ = h'
          · subst hh
            have ht := ih' t
            simp only [walk_cons, getChild_mk_some, mapGet_mapSet_self, Option.some_bind,
              List.cons_prefix_cons, true_and]
            cases hg : mapGet cs h₂ with
            | none =>
              simp only [hg, Option.getD_none] at ht
              cases t with
              | nil => simp
              | cons a t' => simpa [walk_fresh_cons] using ht
            | some c => simpa [hg] using ht
          · simp [walk_cons, mapGet_mapSet_ne _ _ hh, List.cons_prefix_cons, hh]

end treeNode

/-! ## `lookup` -/

namespace treeNode

/-- The descent loop of `lookup` follows the first `maxLevel - level` remaining components
of the key. -/
theorem descend_eq_walk (maxLevel : Int) (level : Nat) (key : List Int) (n : treeNode) :
    descend maxLevel level key n = n.walk (key.take (maxLevel - level).toNat) := by
  induction key generalizing level n with
  | nil => simp [descend]
  | cons h rest ih =>
    by_cases hl : (level : Int) < maxLevel
    · have hstep : (maxLevel - level).toNat = (maxLevel - ((level + 1 : Nat) : Int)).toNat + 1 := by
        omega
      rw [hstep, List.take_succ_cons, walk_cons]
      simp only [descend, hl, if_true]
      cases hg : n.getChild h with
      | none => simp
      | some next => simpa using ih (level + 1) next
    · have hz : (maxLevel - level).toNat = 0 := by omega
      simp [descend, hl, hz]

end treeNode

namespace prefixTree

theorem lookup_perm_idsAt (tree : prefixTree) (maxLevel : Int) (key : hashTableKey) :
    (tree.lookup maxLevel key).Perm (tree.root.idsAt (key.take (depthUsed maxLevel key))) := by
  have htake : key.take (depthUsed maxLevel key) = key.take maxLevel.toNat := by
    rw [depthUsed, List.take_eq_take]
    simp
  rw [htake]
  unfold lookup
  rw [treeNode.descend_eq_walk]
  simp only [Nat.cast_zero, sub_zero, treeNode.idsAt]
  cases hw : tree.root.walk (key.take maxLevel.toNat) with
  | none => simp
  | some cur =>
    simpa using treeNode.bfs_perm cur.size [cur] [] (by simp)

theorem insertIntoTree_eq (tree : prefixTree) (id : Int) (key : hashTableKey) :
    tree.insertIntoTree id key =
      (treeNode.recursiveAddFrom id key tree.root).map
        (fun r => ⟨if r.2 then tree.count + 1 else tree.count, r.1⟩) := by
  unfold insertIntoTree treeNode.recursiveAdd
  simp only [Nat.zero_le, if_true, List.drop_zero]
  cases hrec : treeNode.recursiveAddFrom id key tree.root with
  | none => rfl
  | some r =>
    obtain ⟨n', b⟩ := r
    cases b <;> rfl

theorem insertIntoTree_made (tree : prefixTree) (id : Int) (key : hashTableKey)
    (hm : tree.root.made) :
    ∃ tree', tree.insertIntoTree id key = some tree' ∧ tree'.root.made := by
  obtain ⟨n', b, hrec, hmade⟩ := treeNode.recursiveAddFrom_made id key tree.root hm
  exact ⟨_, by rw [insertIntoTree_eq, hrec]; rfl, hmade⟩

theorem insertIntoTree_idsAt {tree tree' : prefixTree} {id : Int} {key : hashTableKey}
    (h : tree.insertIntoTree id key = some tree') (p : List Int) :
    (tree'.root.idsAt p).Perm (tree.root.idsAt p ++ if p <+: key then [id] else []) := by
  rw [insertIntoTree_eq] at h
  cases hrec : treeNode.recursiveAddFrom id key tree.root with
  | none => simp [hrec] at h
  | some r =>
    obtain ⟨n', b⟩ := r
    simp only [hrec, Option.map_some', Option.some.injEq] at h
    subst h
    exact treeNode.recursiveAddFrom_idsAt id key _ _ _ hrec p

theorem idsUnder_cons (p : List Int) (e : Int × hashTableKey) (log : List (Int × hashTableKey)) :
    idsUnder p (e :: log) = (if p <+: e.2 then [e.1] else []) ++ idsUnder p log := by
  by_cases h : p <+: e.2 <;> simp [idsUnder, List.filter_cons, h]

theorem insertMany_made (tree : prefixTree) (log : List (Int × hashTableKey))
    (hm : tree.root.made) :
    ∃ tree', tree.insertMany log = some tree' ∧ tree'.root.made := by
  induction log generalizing tree with
  | nil => exact ⟨tree, rfl, hm⟩
  | cons e rest ih =>
    obtain ⟨id, key⟩ := e
    obtain ⟨t1, h1, hm1⟩ := insertIntoTree_made tree id key hm
    obtain ⟨t2, h2, hm2⟩ := ih t1 hm1
    exact ⟨t2, by simp [insertMany, h1, h2], hm2⟩

/-- After a sequence of insertions the ids below a path are the old ones and the ids
inserted under a key that extends the path. -/
theorem insertMany_idsAt {tree tree' : prefixTree} {log : List (Int × hashTableKey)}
    (h : tree.insertMany log = some tree') (p : List Int) :
    (tree'.root.idsAt p).Perm (tree.root.idsAt p ++ idsUnder p log) := by
  induction log generalizing tree with
  | nil =>
    simp only [insertMany, Option.some.injEq] at h
    subst h
    simp [idsUnder]
  | cons e rest ih =>
    obtain ⟨id, key⟩ := e
    simp only [insertMany] at h
    cases h1 : tree.insertIntoTree id key with
    | none => simp [h1] at h
    | some t1 =>
      simp only [h1] at h
      refine (ih h).trans ?_
      rw [idsUnder_cons, ← List.append_assoc]
      exact List.Perm.append_right _ (insertIntoTree_idsAt h1 p)

end prefixTree

/-! ## The seen-set loop -/

theorem emitInv_start : emitInv ([], []) := by
  simp [emitInv]

theorem emitUnseen_spec (st : List Int × List Int) (cands : List Int) (hst : emitInv st) :
    emitInv (emitUnseen st cands) ∧
      ∀ x, x ∈ (emitUnseen st cands).2 ↔ x ∈ st.2 ∨ x ∈ cands := by
  induction cands generalizing st with
  | nil =>
    obtain ⟨seens, out⟩ := st
    simpa [emitUnseen] using hst
  | cons c rest ih =>
    obtain ⟨seens, out⟩ := st
    by_cases hc : c ∈ seens
    · simp only [emitUnseen, hc, if_true]
      obtain ⟨h1, h2⟩ := ih _ hst
      refine ⟨h1, fun x => ?_⟩
      rw [h2 x]
      have : c ∈ out := (hst.1 c).1 hc
      constructor
      · rintro (h | h)
        · exact Or.inl h
        · exact Or.inr (List.mem_cons_of_mem _ h)
      · rintro (h | h)
        · exact Or.inl h
        · rcases List.mem_cons.1 h with rfl | h
          · exact Or.inl this
          · exact Or.inr h
    · simp only [emitUnseen, hc, if_false]
      have hout : c ∉ out := fun h => hc ((hst.1 c).2 h)
      have hst' : emitInv (c :: seens, out ++ [c]) := by
        refine ⟨fun x => ?_, ?_⟩
        · have := hst.1 x
          simp only at this
          simp only [List.mem_cons, List.mem_append, List.mem_singleton, this]
          tauto
        · have := hst.2
          simp only at this
          rw [List.nodup_append]
          refine ⟨this, List.nodup_singleton c, ?_⟩
          intro a ha hb
          simp only [List.mem_singleton] at hb
          exact hout (hb ▸ ha)
      obtain ⟨h1, h2⟩ := ih _ hst'
      refine ⟨h1, fun x => ?_⟩
      rw [h2 x]
      simp only [List.mem_append, List.mem_singleton, List.mem_cons]
      tauto

/-! ## `queryHelper` -/

/-- Result of the tree loop of `queryHelper`: it fails only for a missing key, emits no id
twice, and emits exactly the ids returned by the lookups together with those emitted
before. -/
theorem queryTrees_spec (maxLevel : Int) (trees : List prefixTree) (keys : List hashTableKey)
    (st : List Int × List Int) (hst : emitInv st) (hlen : trees.length ≤ keys.length) :
    ∃ out, queryTrees maxLevel trees keys st = some out ∧ out.Nodup ∧
      ∀ x, x ∈ out ↔ x ∈ st.2 ∨ ∃ tk ∈ trees.zip keys, x ∈ tk.1.lookup maxLevel tk.2 := by
  induction trees generalizing keys st with
  | nil => exact ⟨st.2, by simp [queryTrees], hst.2, by simp⟩
  | cons tree rest ih =>
    cases keys with
    | nil => simp at hlen
    | cons key keys =>
      obtain ⟨h1, h2⟩ := emitUnseen_spec st (tree.lookup maxLevel key) hst
      obtain ⟨out, ho, hnd, hmem⟩ := ih keys _ h1 (by simpa using hlen)
      refine ⟨out, by simpa [queryTrees] using ho, hnd, fun x => ?_⟩
      rw [hmem x, h2 x]
      simp only [List.zip_cons_cons, List.mem_cons, exists_eq_or_imp]
      tauto

theorem queryTrees_nodup (maxLevel : Int) (trees : List prefixTree) (keys : List hashTableKey)
    (st : List Int × List Int) (hst : emitInv st) (out : List Int)
    (h : queryTrees maxLevel trees keys st = some out) : out.Nodup := by
  induction trees generalizing keys st with
  | nil =>
    simp only [queryTrees, Option.some.injEq] at h
    exact h ▸ hst.2
  | cons tree rest ih =>
    cases keys with
    | nil => simp [queryTrees] at h
    | cons key keys =>
      exact ih keys _ (emitUnseen_spec st _ hst).1 (by simpa [queryTrees] using h)

/-! ## Relaxing a path -/

namespace treeNode

theorem ids_sublist_idsList {cs : List (Int × treeNode)} {k : Int} {c : treeNode}
    (h : (k, c) ∈ cs) : (ids c).Sublist (idsList cs) := by
  induction cs with
  | nil => simp at h
  | cons e rest ih =>
    obtain ⟨k₀, c₀⟩ := e
    simp only [idsList]
    rcases List.mem_cons.1 h with heq | hmem
    · simp only [Prod.mk.injEq] at heq
      rw [heq.2]
      exact List.sublist_append_left _ _
    · exact (ih hmem).trans (List.sublist_append_right _ _)

theorem ids_child_sublist {n c : treeNode} {k : Int} (h : n.getChild k = some c) :
    (ids c).Sublist (ids n) := by
  rw [ids_eq n]
  exact (ids_sublist_idsList (mem_of_mapGet h)).trans (List.sublist_append_right _ _)

theorem idsAt_subperm_ids (n : treeNode) (s : List Int) : (n.idsAt s).Subperm n.ids := by
  induction s generalizing n with
  | nil => simpa using List.Subperm.refl _
  | cons h t ih =>
    rw [idsAt_cons]
    cases hg : n.getChild h with
    | none => exact List.nil_subperm
    | some c => exact (ih c).trans (ids_child_sublist hg).subperm

/-- Following a longer path can only lose ids. -/
theorem idsAt_append_subperm (n : treeNode) (p s : List Int) :
    (n.idsAt (p ++ s)).Subperm (n.idsAt p) := by
  induction p generalizing n with
  | nil => simpa using idsAt_subperm_ids n s
  | cons h t ih =>
    simp only [List.cons_append, idsAt_cons]
    cases hg : n.getChild h with
    | none => exact List.Subperm.refl _
    | some c => exact ih c

/-! ## Shape -/

theorem mem_mapSet {cs : List (Int × treeNode)} {k k' : Int} {c c' : treeNode}
    (h : (k', c') ∈ mapSet cs k c) : (k', c') ∈ cs ∨ c' = c := by
  induction cs with
  | nil =>
    simp only [mapSet, List.mem_singleton, Prod.mk.injEq] at h
    exact Or.inr h.2
  | cons e rest ih =>
    obtain ⟨k₀, c₀⟩ := e
    by_cases hk : k₀ = k
    · simp only [mapSet, hk, if_true, List.mem_cons, Prod.mk.injEq] at h
      rcases h with h | h
      · exact Or.inr h.2
      · exact Or.inl (List.mem_cons_of_mem _ h)
    · simp only [mapSet, hk, if_false, List.mem_cons] at h
      rcases h with h | h
      · exact Or.inl (by simp [h])
      · rcases ih h with h' | h'
        · exact Or.inl (List.mem_cons_of_mem _ h')
        · exact Or.inr h'

theorem shapeWithin_child {r : Nat} {n c : treeNode} {k : Int} (hn : shapeWithin (r + 1) n)
    (hc : (k, c) ∈ n.childList) : shapeWithin r c := by
  intro d x hx
  have := hn (d + 1) x (atDepth.child n c x k d hc hx)
  constructor
  · omega
  · intro hd
    exact this.2 (by omega)

theorem shapeWithin_fresh (k : Int) (m : Nat) : shapeWithin m (fresh k) := by
  intro d x hx
  cases hx with
  | root => exact ⟨Nat.zero_le _, fun _ => rfl⟩
  | child _ c _ k' d' hc hx' => simp [fresh, childList, children] at hc

/-- An insertion of a key into a subtree shaped for the length of the key keeps the shape. -/
theorem recursiveAddFrom_shape (id : Int) (key : List Int) (n n' : treeNode) (b : Bool)
    (h : recursiveAddFrom id key n = some (n', b)) (hs : shapeWithin key.length n) :
    shapeWithin key.length n' := by
  induction key generalizing n n' b with
  | nil =>
    obtain ⟨hk, idx, cs⟩ := n
    simp only [recursiveAddFrom, Option.some.injEq, Prod.mk.injEq] at h
    obtain ⟨rfl, -⟩ := h
    intro d x hx
    cases hx with
    | root => simp
    | child _ c _ k' d' hc hx' =>
      have := hs (d' + 1) x (atDepth.child _ c x k' d' hc hx')
      simp at this
  | cons k₁ rest ih =>
    obtain ⟨hk, idx, cs⟩ := n
    cases cs with
    | none => simp [recursiveAddFrom] at h
    | some cs =>
      rw [recursiveAddFrom_cons_some] at h
      cases hrec : recursiveAddFrom id rest ((mapGet cs k₁).getD (fresh k₁)) with
      | none => simp [hrec] at h
      | some res =>
        obtain ⟨next', r⟩ := res
        simp only [hrec, Option.some.injEq, Prod.mk.injEq] at h
        obtain ⟨rfl, -⟩ := h
        have hnext : shapeWithin rest.length ((mapGet cs k₁).getD (fresh k₁)) := by
          cases hg : mapGet cs k₁ with
          | none => simpa using shapeWithin_fresh k₁ rest.length
          | some c => simpa using shapeWithin_child hs (mem_of_mapGet hg)
        have hnext' := ih _ _ _ hrec hnext
        intro d x hx
        cases hx with
        | root =>
          have := hs 0 _ (atDepth.root _)
          simpa [indices] using this
        | child _ c _ k' d' hc hx' =>
          simp only [childList, children, Option.getD_some] at hc
          have hcs : shapeWithin rest.length c := by
            rcases mem_mapSet hc with hold | hnew
            · exact shapeWithin_child hs hold
            · exact hnew ▸ hnext'
          have := hcs d' x hx'
          simp only [List.length_cons]
          constructor
          · omega
          · intro hd
            exact this.2 (by omega)

end treeNode

namespace prefixTree

theorem insertMany_shape {m : Nat} {tree tree' : prefixTree} {log : List (Int × hashTableKey)}
    (h : tree.insertMany log = some tree') (hlog : ∀ e ∈ log, e.2.length = m)
    (hs : treeNode.shapeWithin m tree.root) : treeNode.shapeWithin m tree'.root := by
  induction log generalizing tree with
  | nil =>
    simp only [insertMany, Option.some.injEq] at h
    exact h ▸ hs
  | cons e rest ih =>
    obtain ⟨id, key⟩ := e
    simp only [insertMany] at h
    cases h1 : tree.insertIntoTree id key with
    | none => simp [h1] at h
    | some t1 =>
      simp only [h1] at h
      refine ih h (fun e he => hlog e (List.mem_cons_of_mem _ he)) ?_
      rw [insertIntoTree_eq] at h1
      cases hrec : treeNode.recursiveAddFrom id key tree.root with
      | none => simp [hrec] at h1
      | some r =>
        obtain ⟨n', b⟩ := r
        simp only [hrec, Option.map_some', Option.some.injEq] at h1
        subst h1
        have hk : key.length = m := hlog (id, key) (List.mem_cons_self _ _)
        subst hk
        exact treeNode.recursiveAddFrom_shape id key _ _ _ hrec hs

end prefixTree

/-! ## The forest built by insertions -/

theorem insertTrees_spec {id : Int} {trees trees' : List prefixTree} {hvs : List hashTableKey}
    (h : insertTrees id trees hvs = some trees') :
    trees'.length = trees.length ∧
      ∀ (i : Nat) (t : prefixTree), trees[i]? = some t →
        ∃ t', trees'[i]? = some t' ∧ t.insertIntoTree id (hvs[i]?.getD []) = some t' := by
  induction trees generalizing trees' hvs with
  | nil =>
    simp only [insertTrees, Option.some.injEq] at h
    subst h
    simp
  | cons tree rest ih =>
    cases hvs with
    | nil => simp [insertTrees] at h
    | cons hv hvs =>
      simp only [insertTrees] at h
      cases h1 : tree.insertIntoTree id hv with
      | none => simp [h1] at h
      | some t1 =>
        cases h2 : insertTrees id rest hvs with
        | none => simp [h1, h2] at h
        | some rest' =>
          simp only [h1, h2, Option.some.injEq] at h
          subst h
          obtain ⟨hl, hi⟩ := ih h2
          refine ⟨by simp [hl], fun i t ht => ?_⟩
          cases i with
          | zero =>
            simp only [List.getElem?_cons_zero, Option.some.injEq] at ht
            subst ht
            exact ⟨t1, by simp, by simpa using h1⟩
          | succ j =>
            simp only [List.getElem?_cons_succ] at ht
            simpa using hi j t ht

theorem insertTrees_made (id : Int) {trees : List prefixTree} {hvs : List hashTableKey}
    (hm : ∀ t ∈ trees, t.root.made) (hlen : trees.length ≤ hvs.length) :
    ∃ trees', insertTrees id trees hvs = some trees' ∧ ∀ t ∈ trees', t.root.made := by
  induction trees generalizing hvs with
  | nil => exact ⟨[], rfl, by simp⟩
  | cons tree rest ih =>
    cases hvs with
    | nil => simp at hlen
    | cons hv hvs =>
      obtain ⟨t1, h1, hm1⟩ :=
        prefixTree.insertIntoTree_made tree id hv (hm tree (List.mem_cons_self _ _))
      obtain ⟨rest', h2, hm2⟩ :=
        ih (fun t ht => hm t (List.mem_cons_of_mem _ ht)) (by simpa using hlen)
      refine ⟨t1 :: rest', by simp [insertTrees, h1, h2], ?_⟩
      intro t ht
      rcases List.mem_cons.1 ht with rfl | ht
      · exact hm1
      · exact hm2 t ht

namespace LshForest

variable {Point : Type}

theorem insertAll_spec {index index' : LshForest Point} {ins : List (Point × Int)}
    (h : index.insertAll ins = some index') :
    index'.params = index.params ∧ index'.trees.length = index.trees.length ∧
      ∀ (i : Nat) (t : prefixTree), index.trees[i]? = some t →
        ∃ t', index'.trees[i]? = some t' ∧
          t.insertMany (logAt index.params.hash i ins) = some t' := by
  induction ins generalizing index with
  | nil =>
    simp only [insertAll, Option.some.injEq] at h
    subst h
    simp [logAt, prefixTree.insertMany]
  | cons e rest ih =>
    obtain ⟨p, id⟩ := e
    simp only [insertAll] at h
    cases h1 : index.Insert p id with
    | none => simp [h1] at h
    | some index₁ =>
      simp only [h1] at h
      obtain ⟨hp, hl, hi⟩ := ih h
      unfold Insert at h1
      cases hts : insertTrees id index.trees (index.params.hash p) with
      | none => simp [hts] at h1
      | some trees₁ =>
        simp only [hts, Option.some.injEq] at h1
        subst h1
        obtain ⟨hl₁, hi₁⟩ := insertTrees_spec hts
        refine ⟨hp, by rw [hl]; exact hl₁, fun i t ht => ?_⟩
        obtain ⟨t₁, ht₁, hins₁⟩ := hi₁ i t ht
        obtain ⟨t', ht', hins'⟩ := hi i t₁ ht₁
        refine ⟨t', ht', ?_⟩
        simp only [logAt, List.map_cons, prefixTree.insertMany, hins₁]
        exact hins'

theorem insertAll_made (index : LshForest Point) (ins : List (Point × Int))
    (hm : ∀ t ∈ index.trees, t.root.made)
    (hlen : ∀ e ∈ ins, index.trees.length ≤ (index.params.hash e.1).length) :
    ∃ index', index.insertAll ins = some index' := by
  induction ins generalizing index with
  | nil => exact ⟨index, rfl⟩
  | cons e rest ih =>
    obtain ⟨p, id⟩ := e
    obtain ⟨trees₁, h1, hm1⟩ := insertTrees_made id hm (hlen (p, id) (List.mem_cons_self _ _))
    have hl₁ := (insertTrees_spec h1).1
    obtain ⟨index', h'⟩ := ih ⟨index.params, trees₁⟩ hm1
      (fun e he => by simpa [hl₁] using hlen e (List.mem_cons_of_mem _ he))
    exact ⟨index', by simp [insertAll, Insert, h1, h']⟩

/-- The forest obtained from `NewLshForest` by a sequence of `Insert` calls, when the hash
function returns at least `l` keys for the inserted points: the calls succeed, there are
`l` trees, and tree `i` is the fresh tree after the insertions of the ids under the keys of
group `i`. -/
theorem built_spec (params : lshParams Point) (ins : List (Point × Int))
    (hlen : ∀ e ∈ ins, params.l ≤ (params.hash e.1).length) :
    ∃ index, (NewLshForest params).insertAll ins = some index ∧ index.params = params ∧
      index.trees.length = params.l ∧
      ∀ i, i < params.l → ∃ t, index.trees[i]? = some t ∧
        prefixTree.empty.insertMany (logAt params.hash i ins) = some t := by
  have hm : ∀ t ∈ (NewLshForest params).trees, t.root.made := by
    intro t ht
    simp only [NewLshForest, List.mem_replicate] at ht
    rw [ht.2]
    exact treeNode.made_fresh 0
  obtain ⟨index, h⟩ := insertAll_made (NewLshForest params) ins hm
    (by simpa [NewLshForest] using hlen)
  obtain ⟨hp, hl, hi⟩ := insertAll_spec h
  refine ⟨index, h, hp, by simpa [NewLshForest] using hl, fun i hi' => ?_⟩
  exact hi i prefixTree.empty (by simp [NewLshForest, hi'])

end LshForest

/-! ## Queries on the forest -/

namespace prefixTree

/-- Lookup in a tree built from the fresh tree: up to order, the ids inserted under a key
that extends the part of the query key that is followed. -/
theorem lookup_perm_built {tree : prefixTree} {log : List (Int × hashTableKey)}
    (h : prefixTree.empty.insertMany log = some tree) (maxLevel : Int) (key : hashTableKey) :
    (tree.lookup maxLevel key).Perm (idsUnder (key.take (depthUsed maxLevel key)) log) := by
  refine (lookup_perm_idsAt tree maxLevel key).trans ?_
  simpa [prefixTree.empty] using insertMany_idsAt h (key.take (depthUsed maxLevel key))

theorem lookup_zero_perm (tree : prefixTree) (maxLevel : Int) (hle : maxLevel ≤ 0)
    (key : hashTableKey) : (tree.lookup maxLevel key).Perm tree.root.ids := by
  have hd : depthUsed maxLevel key = 0 := by
    have : maxLevel.toNat = 0 := by omega
    simp [depthUsed, this]
  simpa [hd] using lookup_perm_idsAt tree maxLevel key

end prefixTree

theorem mem_zip_of_getElem? {α β : Type} {l₁ : List α} {l₂ : List β} {i : Nat} {a : α} {b : β}
    (h₁ : l₁[i]? = some a) (h₂ : l₂[i]? = some b) : (a, b) ∈ l₁.zip l₂ := by
  have hz : (l₁.zip l₂)[i]? = some (a, b) := List.getElem?_zip_eq_some.2 ⟨h₁, h₂⟩
  exact List.getElem?_mem hz

namespace LshForest

variable {Point : Type}

theorem queryHelper_spec (index : LshForest Point) (maxLevel : Int) (keys : List hashTableKey)
    (hlen : index.trees.length ≤ keys.length) :
    ∃ out, index.queryHelper maxLevel keys = some out ∧ out.Nodup ∧
      ∀ x, x ∈ out ↔ ∃ tk ∈ index.trees.zip keys, x ∈ tk.1.lookup maxLevel tk.2 := by
  obtain ⟨out, h, hnd, hmem⟩ := queryTrees_spec maxLevel index.trees keys ([], []) emitInv_start hlen
  exact ⟨out, h, hnd, by simpa using hmem⟩

theorem queryHelper_nodup (index : LshForest Point) (maxLevel : Int) (keys : List hashTableKey)
    (out : List Int) (h : index.queryHelper maxLevel keys = some out) : out.Nodup :=
  queryTrees_nodup maxLevel index.trees keys ([], []) emitInv_start out h

/-- Result of the loop of `QueryKnn`: the candidates of some level `L` between 0 and the
starting level, which is the first level from the top with at least `k` candidates, or 0. -/
theorem knnLoop_spec (index : LshForest Point) (k : Int) (hvs : List hashTableKey)
    (hlen : index.trees.length ≤ hvs.length) (n : Nat) :
    ∃ (out : List Int) (L : Nat), knnLoop index k hvs n = some out ∧ L ≤ n ∧
      index.queryHelper (L : Int) hvs = some out ∧ (k ≤ (out.length : Int) ∨ L = 0) ∧
      ∀ L' : Nat, L < L' → L' ≤ n → ∀ c, index.queryHelper (L' : Int) hvs = some c →
        (c.length : Int) < k := by
  induction n with
  | zero =>
    obtain ⟨out, h, -, -⟩ := queryHelper_spec index 0 hvs hlen
    refine ⟨out, 0, by simpa [knnLoop] using h, le_refl _, by simpa using h, Or.inr rfl, ?_⟩
    intro L' h1 h2
    omega
  | succ n ih =>
    obtain ⟨c, hc, -, -⟩ := queryHelper_spec index ((n + 1 : Nat) : Int) hvs hlen
    by_cases hk : (c.length : Int) ≥ k
    · refine ⟨c, n + 1, by simp only [knnLoop, hc, hk, if_true], le_refl _, hc, Or.inl hk, ?_⟩
      intro L' h1 h2
      omega
    · obtain ⟨out, L, h, hL, hq, hor, hrest⟩ := ih
      refine ⟨out, L, by simp only [knnLoop, hc, hk, if_false, h], by omega, hq, hor, ?_⟩
      intro L' h1 h2 c' hc'
      by_cases hL' : L' = n + 1
      · subst hL'
        rw [hc] at hc'
        simp only [Option.some.injEq] at hc'
        subst hc'
        omega
      · exact hrest L' h1 (by omega) c' hc'

theorem knnLoop_nodup (index : LshForest Point) (k : Int) (hvs : List hashTableKey) (n : Nat)
    (out : List Int) (h : knnLoop index k hvs n = some out) : out.Nodup := by
  induction n with
  | zero => exact queryHelper_nodup index 0 hvs out (by simpa [knnLoop] using h)
  | succ n ih =>
    cases hc : index.queryHelper ((n + 1 : Nat) : Int) hvs with
    | none =>
      simp only [knnLoop, hc] at h
      cases h
    | some c =>
      simp only [knnLoop, hc] at h
      by_cases hk : (c.length : Int) ≥ k
      · simp only [hk, if_true, Option.some.injEq] at h
        exact h ▸ queryHelper_nodup index _ hvs c hc
      · simp only [hk, if_false] at h
        exact ih h

/-- An inserted id is among the candidates of its own point at every level. -/
theorem self_recall_level (params : lshParams Point) (hl : 1 ≤ params.l)
    (hlen : ∀ p, (params.hash p).length = params.l) (ins : List (Point × Int))
    (p : Point) (id : Int) (hmem : (p, id) ∈ ins) :
    ∃ index, (NewLshForest params).insertAll ins = some index ∧ index.params = params ∧
      index.trees.length = params.l ∧
      ∀ maxLevel : Int, ∃ out, index.queryHelper maxLevel (params.hash p) = some out ∧
        id ∈ out := by
  obtain ⟨index, hins, hpar, hlen', htrees⟩ := built_spec params ins (fun e _ => (hlen e.1).ge)
  refine ⟨index, hins, hpar, hlen', fun maxLevel => ?_⟩
  obtain ⟨out, hq, -, hout⟩ :=
    queryHelper_spec index maxLevel (params.hash p) (by rw [hlen', hlen p])
  refine ⟨out, hq, (hout id).2 ?_⟩
  obtain ⟨t, ht, hbuilt⟩ := htrees 0 (by omega)
  have hk : 0 < (params.hash p).length := by rw [hlen p]; omega
  have hkey : (params.hash p)[0]? = some ((params.hash p)[0]) := List.getElem?_eq_getElem hk
  refine ⟨(t, (params.hash p)[0]), mem_zip_of_getElem? ht hkey, ?_⟩
  refine (prefixTree.lookup_perm_built hbuilt maxLevel _).mem_iff.2 ?_
  simp only [prefixTree.idsUnder, List.mem_map, List.mem_filter, decide_eq_true_eq]
  refine ⟨(id, (params.hash p)[0]), ⟨?_, List.take_prefix _ _⟩, rfl⟩
  simp only [logAt, List.mem_map]
  exact ⟨(p, id), hmem, by simp [hkey]⟩

theorem queryHelper_zero_mem (index : LshForest Point) (hvs : List hashTableKey)
    (hlen : index.trees.length ≤ hvs.length) (out : List Int)
    (h : index.queryHelper 0 hvs = some out) (x : Int) : x ∈ out ↔ x ∈ index.storedIds := by
  obtain ⟨out', h', -, hmem⟩ := queryHelper_spec index 0 hvs hlen
  rw [h] at h'
  simp only [Option.some.injEq] at h'
  subst h'
  rw [hmem x]
  simp only [storedIds, List.mem_flatMap]
  constructor
  · rintro ⟨⟨t, key⟩, hz, hx⟩
    exact ⟨t, (List.of_mem_zip hz).1, ((prefixTree.lookup_zero_perm t 0 (le_refl _) key).mem_iff).1 hx⟩
  · rintro ⟨t, ht, hx⟩
    obtain ⟨i, hi⟩ := List.mem_iff_getElem?.1 ht
    have hi' : i < index.trees.length := by
      rcases List.getElem?_eq_some.1 hi with ⟨h, -⟩
      exact h
    have hkey : hvs[i]? = some (hvs[i]) := List.getElem?_eq_getElem (by omega)
    exact ⟨(t, hvs[i]), mem_zip_of_getElem? hi hkey,
      ((prefixTree.lookup_zero_perm t 0 (le_refl _) _).mem_iff).2 hx⟩

/-- Lower bound on the candidates of `QueryKnn` in any forest: at least `min(k, N)` distinct
ids, `N` being the number of distinct ids stored in the forest. -/
theorem QueryKnn_lower_bound (index : LshForest Point) (q : Point) (k : Int)
    (hm : 0 ≤ index.params.m) (hlen : index.trees.length ≤ (index.params.hash q).length) :
    ∃ out, index.QueryKnn q k = some out ∧ out.Nodup ∧
      min k (index.storedIds.toFinset.card : Int) ≤ (out.toFinset.card : Int) := by
  obtain ⟨out, L, h, -, hq, hor, -⟩ :=
    knnLoop_spec index k (index.params.hash q) hlen index.params.m.toNat
  have hnd : out.Nodup := queryHelper_nodup index _ _ out hq
  refine ⟨out, by simp only [QueryKnn, not_lt.2 hm, if_false, h], hnd, ?_⟩
  rw [List.toFinset_card_of_nodup hnd]
  rcases hor with hk | hL
  · exact le_trans (min_le_left _ _) hk
  · subst hL
    have hset : out.toFinset = index.storedIds.toFinset := by
      ext x
      simp only [List.mem_toFinset]
      exact queryHelper_zero_mem index _ hlen out (by simpa using hq) x
    rw [← hset, List.toFinset_card_of_nodup hnd]
    exact min_le_right _ _

end LshForest

/-! ## Count and shape of a tree built by insertions -/

namespace prefixTree

theorem insertIntoTree_count_walk {tree tree' : prefixTree} {id : Int} {key : hashTableKey}
    (h : tree.insertIntoTree id key = some tree') :
    tree'.count = tree.count + (if (tree.root.walk key).isSome then 0 else 1) ∧
      ∀ p, (tree'.root.walk p).isSome = ((tree.root.walk p).isSome || decide (p <+: key)) := by
  rw [insertIntoTree_eq] at h
  cases hrec : treeNode.recursiveAddFrom id key tree.root with
  | none => simp [hrec] at h
  | some r =>
    obtain ⟨n', b⟩ := r
    simp only [hrec, Option.map_some', Option.some.injEq] at h
    subst h
    have hb := treeNode.recursiveAddFrom_flag id key _ _ _ hrec
    refine ⟨?_, treeNode.recursiveAddFrom_walk id key _ _ _ hrec⟩
    subst hb
    cases hw : tree.root.walk key <;> simp

/-- Invariant behind `count`: in a tree whose full-length paths are the keys seen so far and
whose count is the number of distinct keys seen, a sequence of insertions of keys of the
same length succeeds and keeps both facts. -/
theorem insertMany_count (m : Nat) (tree : prefixTree) (seen : List hashTableKey)
    (log : List (Int × hashTableKey))
    (hpaths : ∀ key : hashTableKey, key.length = m →
      ((tree.root.walk key).isSome ↔ key ∈ seen))
    (hcount : tree.count = (seen.toFinset.card : Int)) (hmade : tree.root.made)
    (hlog : ∀ e ∈ log, e.2.length = m) :
    ∃ tree', tree.insertMany log = some tree' ∧
      (∀ key : hashTableKey, key.length = m →
        ((tree'.root.walk key).isSome ↔ key ∈ seen ++ log.map Prod.snd)) ∧
      tree'.count = ((seen ++ log.map Prod.snd).toFinset.card : Int) ∧ tree'.root.made := by
  induction log generalizing tree seen with
  | nil => exact ⟨tree, rfl, by simpa using hpaths, by simpa using hcount, hmade⟩
  | cons e rest ih =>
    obtain ⟨id, key⟩ := e
    have hkey : key.length = m := hlog (id, key) (List.mem_cons_self _ _)
    obtain ⟨t1, h1, hm1⟩ := insertIntoTree_made tree id key hmade
    obtain ⟨hc1, hw1⟩ := insertIntoTree_count_walk h1
    have hpaths1 : ∀ key' : hashTableKey, key'.length = m →
        ((t1.root.walk key').isSome ↔ key' ∈ seen ++ [key]) := by
      intro key' hk'
      rw [hw1 key', Bool.or_eq_true, hpaths key' hk', decide_eq_true_eq, List.mem_append,
        List.mem_singleton]
      constructor
      · rintro (h | h)
        · exact Or.inl h
        · exact Or.inr (h.eq_of_length (by rw [hk', hkey]))
      · rintro (h | h)
        · exact Or.inl h
        · exact Or.inr (h ▸ List.prefix_rfl)
    have hcount1 : t1.count = ((seen ++ [key]).toFinset.card : Int) := by
      rw [hc1, hcount]
      have hset : (seen ++ [key]).toFinset = insert key seen.toFinset := by
        ext x
        simp [or_comm]
      rw [hset]
      by_cases hk : key ∈ seen
      · have : (tree.root.walk key).isSome = true := (hpaths key hkey).2 hk
        rw [Finset.card_insert_of_mem (List.mem_toFinset.2 hk)]
        simp [this]
      · have : ¬ (tree.root.walk key).isSome = true := fun h => hk ((hpaths key hkey).1 h)
        rw [Finset.card_insert_of_not_mem (fun h => hk (List.mem_toFinset.1 h))]
        simp [this]
    obtain ⟨t', h', hp', hc', hm'⟩ := ih t1 (seen ++ [key]) hpaths1 hcount1 hm1
      (fun e he => hlog e (List.mem_cons_of_mem _ he))
    refine ⟨t', by simp [insertMany, h1, h'], ?_, ?_, hm'⟩
    · simpa using hp'
    · simpa using hc'

end prefixTree

/-! ## The flat index -/

theorem fillKeys_length (i : Nat) (keys : List hashTableKey) (basicKeys : List basicHashTableKey)
    (h : i + keys.length ≤ basicKeys.length) :
    ∃ r, fillKeys i keys basicKeys = some r ∧ r.length = basicKeys.length := by
  induction keys generalizing i basicKeys with
  | nil => exact ⟨basicKeys, rfl, rfl⟩
  | cons key rest ih =>
    simp only [List.length_cons] at h
    have hi : i < basicKeys.length := by omega
    obtain ⟨r, hr, hl⟩ := ih (i + 1) (basicKeys.set i (renderKey key))
      (by simp only [List.length_set]; omega)
    exact ⟨r, by simp only [fillKeys, hi, if_true, hr], by simpa using hl⟩

theorem tableInsert_self (table : hashTable) (hv : basicHashTableKey) (id : Int) :
    ∃ b, mapGet (tableInsert table hv id) hv = some b ∧ id ∈ b := by
  unfold tableInsert
  cases hg : mapGet table hv with
  | none => exact ⟨[id], by simp [mapGet_mapSet_self], by simp⟩
  | some bucket => exact ⟨bucket ++ [id], by simp [mapGet_mapSet_self], by simp⟩

theorem tableInsert_keeps (table : hashTable) (hv hv' : basicHashTableKey) (id id' : Int)
    (h : ∃ b, mapGet table hv = some b ∧ id ∈ b) :
    ∃ b, mapGet (tableInsert table hv' id') hv = some b ∧ id ∈ b := by
  obtain ⟨b, hb, hid⟩ := h
  by_cases heq : hv = hv'
  · subst heq
    refine ⟨b ++ [id'], ?_, List.mem_append_left _ hid⟩
    simp [tableInsert, hb, mapGet_mapSet_self]
  · refine ⟨b, ?_, hid⟩
    unfold tableInsert
    cases hg : mapGet table hv' with
    | none => simpa [mapGet_mapSet_ne _ _ heq] using hb
    | some bucket => simpa [mapGet_mapSet_ne _ _ heq] using hb

theorem insertTables_spec {id : Int} {tables tables' : List hashTable}
    {hvs : List basicHashTableKey} (h : insertTables id tables hvs = some tables') :
    tables'.length = tables.length ∧
      ∀ (i : Nat) (t : hashTable), tables[i]? = some t →
        ∃ hv, hvs[i]? = some hv ∧ tables'[i]? = some (tableInsert t hv id) := by
  induction tables generalizing tables' hvs with
  | nil =>
    simp only [insertTables, Option.some.injEq] at h
    subst h
    simp
  | cons table rest ih =>
    cases hvs with
    | nil => simp [insertTables] at h
    | cons hv hvs =>
      simp only [insertTables] at h
      cases h2 : insertTables id rest hvs with
      | none => simp [h2] at h
      | some rest' =>
        simp only [h2, Option.some.injEq] at h
        subst h
        obtain ⟨hl, hi⟩ := ih h2
        refine ⟨by simp [hl], fun i t ht => ?_⟩
        cases i with
        | zero =>
          simp only [List.getElem?_cons_zero, Option.some.injEq] at ht
          subst ht
          exact ⟨hv, by simp, by simp⟩
        | succ j =>
          simp only [List.getElem?_cons_succ] at ht
          simpa using hi j t ht

theorem insertTables_isSome (id : Int) (tables : List hashTable) (hvs : List basicHashTableKey)
    (hlen : tables.length ≤ hvs.length) : ∃ tables', insertTables id tables hvs = some tables' := by
  induction tables generalizing hvs with
  | nil => exact ⟨[], rfl⟩
  | cons table rest ih =>
    cases hvs with
    | nil => simp at hlen
    | cons hv hvs =>
      obtain ⟨rest', h2⟩ := ih hvs (by simpa using hlen)
      exact ⟨tableInsert table hv id :: rest', by simp only [insertTables, h2]⟩

/-- Result of the table loop of `BasicLsh.Query`: it fails only for a missing key, emits no
id twice, and emits exactly the ids of the buckets found together with those emitted
before. -/
theorem queryTables_spec (tables : List hashTable) (hvs : List basicHashTableKey)
    (st : List Int × List Int) (hst : emitInv st) (hlen : tables.length ≤ hvs.length) :
    ∃ out, queryTables tables hvs st = some out ∧ out.Nodup ∧
      ∀ x, x ∈ out ↔ x ∈ st.2 ∨
        ∃ th ∈ tables.zip hvs, ∃ b, mapGet th.1 th.2 = some b ∧ x ∈ b := by
  induction tables generalizing hvs st with
  | nil => exact ⟨st.2, by simp [queryTables], hst.2, by simp⟩
  | cons table rest ih =>
    cases hvs with
    | nil => simp at hlen
    | cons hv hvs =>
      cases hg : mapGet table hv with
      | none =>
        obtain ⟨out, ho, hnd, hmem⟩ := ih hvs st hst (by simpa using hlen)
        refine ⟨out, by simpa [queryTables, hg] using ho, hnd, fun x => ?_⟩
        rw [hmem x]
        simp [List.zip_cons_cons, hg]
      | some cands =>
        obtain ⟨h1, h2⟩ := emitUnseen_spec st cands hst
        obtain ⟨out, ho, hnd, hmem⟩ := ih hvs _ h1 (by simpa using hlen)
        refine ⟨out, by simpa [queryTables, hg] using ho, hnd, fun x => ?_⟩
        rw [hmem x, h2 x]
        simp only [List.zip_cons_cons, List.mem_cons, exists_eq_or_imp, hg, Option.some.injEq,
          exists_eq_left']
        tauto

theorem queryTables_nodup (tables : List hashTable) (hvs : List basicHashTableKey)
    (st : List Int × List Int) (hst : emitInv st) (out : List Int)
    (h : queryTables tables hvs st = some out) : out.Nodup := by
  induction tables generalizing hvs st with
  | nil =>
    simp only [queryTables, Option.some.injEq] at h
    exact h ▸ hst.2
  | cons table rest ih =>
    cases hvs with
    | nil => simp [queryTables] at h
    | cons hv hvs =>
      simp only [queryTables] at h
      cases hg : mapGet table hv with
      | none =>
        simp only [hg] at h
        exact ih hvs st hst h
      | some cands =>
        simp only [hg] at h
        exact ih hvs _ (emitUnseen_spec st cands hst).1 h

namespace BasicLsh

variable {Point : Type}

theorem toBasicHashTableKeys_length (index : BasicLsh Point) (keys : List hashTableKey)
    (h : keys.length ≤ index.params.l) :
    ∃ hvs, index.toBasicHashTableKeys keys = some hvs ∧ hvs.length = index.params.l := by
  obtain ⟨r, hr, hl⟩ := fillKeys_length 0 keys (List.replicate index.params.l "") (by simpa using h)
  exact ⟨r, hr, by simpa using hl⟩

theorem Insert_spec (index : BasicLsh Point) (p : Point) (id : Int)
    (hl : index.tables.length = index.params.l)
    (hlen : (index.params.hash p).length = index.params.l) :
    ∃ index', index.Insert p id = some index' ∧ index'.params = index.params ∧
      index'.tables.length = index.params.l ∧ index'.holds p id ∧
      ∀ q id', index.holds q id' → index'.holds q id' := by
  obtain ⟨hvs, hhvs, hvl⟩ := index.toBasicHashTableKeys_length (index.params.hash p) hlen.le
  obtain ⟨tables', ht'⟩ := insertTables_isSome id index.tables hvs (by omega)
  obtain ⟨hl', hi'⟩ := insertTables_spec ht'
  refine ⟨⟨index.params, tables'⟩, by simp only [Insert, hhvs, ht'], rfl, by simp [hl', hl], ?_, ?_⟩
  · intro hvs₀ hh i t ht
    have hh' : hvs₀ = hvs := by
      simp only [toBasicHashTableKeys] at hh hhvs
      rw [hhvs] at hh
      exact (Option.some.inj hh).symm
    subst hh'
    have hi : i < index.tables.length := by
      have := (List.getElem?_eq_some.1 ht).1
      simp only at this
      omega
    obtain ⟨hv, hhv, hnew⟩ := hi' i _ (List.getElem?_eq_getElem hi)
    simp only at ht
    rw [hnew] at ht
    simp only [Option.some.injEq] at ht
    subst ht
    obtain ⟨b, hb, hid⟩ := tableInsert_self (index.tables[i]) hv id
    exact ⟨hv, b, hhv, hb, hid⟩
  · intro q id' hold hvs₀ hh i t ht
    have hi : i < index.tables.length := by
      have := (List.getElem?_eq_some.1 ht).1
      simp only at this
      omega
    obtain ⟨hv₀, b₀, hhv₀, hb₀, hid₀⟩ := hold hvs₀ hh i _ (List.getElem?_eq_getElem hi)
    obtain ⟨hv, -, hnew⟩ := hi' i _ (List.getElem?_eq_getElem hi)
    simp only at ht
    rw [hnew] at ht
    simp only [Option.some.injEq] at ht
    subst ht
    obtain ⟨b, hb, hid⟩ := tableInsert_keeps (index.tables[i]) hv₀ hv id' id ⟨b₀, hb₀, hid₀⟩
    exact ⟨hv₀, b, hhv₀, hb, hid⟩

theorem insertAll_holds (index : BasicLsh Point) (ins : List (Point × Int))
    (hl : index.tables.length = index.params.l)
    (hlen : ∀ p, (index.params.hash p).length = index.params.l) :
    ∃ index', index.insertAll ins = some index' ∧ index'.params = index.params ∧
      index'.tables.length = index.params.l ∧
      (∀ p id, (p, id) ∈ ins → index'.holds p id) ∧
      ∀ q id', index.holds q id' → index'.holds q id' := by
  induction ins generalizing index with
  | nil => exact ⟨index, rfl, rfl, hl, by simp, fun _ _ h => h⟩
  | cons e rest ih =>
    obtain ⟨p, id⟩ := e
    obtain ⟨i1, h1, hp1, hl1, hh1, hk1⟩ := Insert_spec index p id hl (hlen p)
    obtain ⟨i2, h2, hp2, hl2, hh2, hk2⟩ := ih i1 (by rw [hl1, hp1])
      (fun q => by rw [hp1]; exact hlen q)
    refine ⟨i2, by simp only [insertAll, h1, h2], by rw [hp2, hp1], by rw [hl2, hp1], ?_, ?_⟩
    · intro q id' hmem
      rcases List.mem_cons.1 hmem with heq | hmem
      · simp only [Prod.mk.injEq] at heq
        rw [heq.1, heq.2]
        exact hk2 _ _ hh1
      · exact hh2 q id' hmem
    · intro q id' hold
      exact hk2 _ _ (hk1 _ _ hold)

end BasicLsh

/-! ## Teardown and bare roots -/

namespace treeNode

theorem recursiveDelete_eq (n : treeNode) : n.recursiveDelete = mk n.hashKey [] none := by
  obtain ⟨hk, idx, cs⟩ := n
  cases cs with
  | none => simp [recursiveDelete, hashKey]
  | some cs => simp [recursiveDelete, hashKey]

theorem ids_of_bare {n : treeNode} (hi : n.indices = []) (hc : n.childList = []) : n.ids = [] := by
  rw [ids_eq, hi, hc]
  simp [idsList]

end treeNode

namespace prefixTree

/-- A tree whose root has no ids and no children returns nothing at any level. -/
theorem lookup_of_bare (tree : prefixTree) (hi : tree.root.indices = [])
    (hc : tree.root.childList = []) (maxLevel : Int) (key : hashTableKey) :
    tree.lookup maxLevel key = [] := by
  have h1 := lookup_perm_idsAt tree maxLevel key
  have h2 := treeNode.idsAt_subperm_ids tree.root (key.take (depthUsed maxLevel key))
  rw [treeNode.ids_of_bare hi hc] at h2
  rw [List.subperm_nil.1 h2] at h1
  exact List.Perm.eq_nil h1

end prefixTree

theorem emitUnseen_nil (st : List Int × List Int) : emitUnseen st [] = st := by
  obtain ⟨seens, out⟩ := st
  simp [emitUnseen]

theorem queryTrees_of_empty_lookups (maxLevel : Int) (trees : List prefixTree)
    (keys : List hashTableKey) (st : List Int × List Int)
    (hl : ∀ t ∈ trees, ∀ key, t.lookup maxLevel key = []) :
    (∀ out, queryTrees maxLevel trees keys st = some out → out = st.2) ∧
      (trees.length ≤ keys.length → queryTrees maxLevel trees keys st = some st.2) := by
  induction trees generalizing keys st with
  | nil => simp [queryTrees]
  | cons tree rest ih =>
    cases keys with
    | nil => simp [queryTrees]
    | cons key keys =>
      have hrest := ih keys st (fun t ht => hl t (List.mem_cons_of_mem _ ht))
      simp only [queryTrees, hl tree (List.mem_cons_self _ _) key, emitUnseen_nil,
        List.length_cons, Nat.add_le_add_iff_right]
      exact hrest

namespace LshForest

variable {Point : Type}

/-- Queries on a forest in which every lookup is empty emit nothing. -/
theorem queries_of_empty_lookups (index : LshForest Point)
    (hl : ∀ t ∈ index.trees, ∀ maxLevel key, t.lookup maxLevel key = []) (q : Point) (k : Int) :
    (∀ out, index.Query q = some out → out = []) ∧
      (∀ out, index.QueryKnn q k = some out → out = []) ∧
      (index.trees.length ≤ (index.params.hash q).length →
        index.Query q = some [] ∧ index.QueryKnn q k = some []) := by
  have hq : ∀ maxLevel : Int,
      (∀ out, index.queryHelper maxLevel (index.params.hash q) = some out → out = []) ∧
      (index.trees.length ≤ (index.params.hash q).length →
        index.queryHelper maxLevel (index.params.hash q) = some []) := fun maxLevel =>
    queryTrees_of_empty_lookups maxLevel index.trees (index.params.hash q) ([], [])
      (fun t ht key => hl t ht maxLevel key)
  have hloop1 : ∀ n out, knnLoop index k (index.params.hash q) n = some out → out = [] := by
    intro n
    induction n with
    | zero =>
      intro out h
      exact (hq 0).1 out (by simpa [knnLoop] using h)
    | succ n ih =>
      intro out h
      cases hc : index.queryHelper ((n + 1 : Nat) : Int) (index.params.hash q) with
      | none =>
        simp only [knnLoop, hc] at h
        cases h
      | some c =>
        simp only [knnLoop, hc] at h
        by_cases hk : (c.length : Int) ≥ k
        · simp only [hk, if_true, Option.some.injEq] at h
          exact h ▸ (hq _).1 c hc
        · simp only [hk, if_false] at h
          exact ih out h
  have hloop2 : index.trees.length ≤ (index.params.hash q).length →
      ∀ n, knnLoop index k (index.params.hash q) n = some [] := by
    intro hlen n
    induction n with
    | zero => simpa [knnLoop] using (hq 0).2 hlen
    | succ n ih =>
      have hc := (hq ((n + 1 : Nat) : Int)).2 hlen
      by_cases hk : (([] : List Int).length : Int) ≥ k
      · simp only [knnLoop, hc, hk, if_true]
      · simp only [knnLoop, hc, hk, if_false, ih]
  refine ⟨fun out h => (hq _).1 out h, fun out h => ?_, fun hlen => ⟨(hq _).2 hlen, ?_⟩⟩
  · unfold QueryKnn at h
    by_cases hm : index.params.m < 0
    · simp only [hm, if_true, Option.some.injEq] at h
      exact h.symm
    · simp only [hm, if_false] at h
      exact hloop1 _ out h
  · unfold QueryKnn
    by_cases hm : index.params.m < 0
    · simp only [hm, if_true]
    · simp only [hm, if_false]
      exact hloop2 hlen _

theorem Delete_trees (index : LshForest Point) :
    index.Delete.trees.length = index.trees.length ∧
      index.Delete.trees.map prefixTree.count = index.trees.map prefixTree.count ∧
      ∀ t ∈ index.Delete.trees, t.root.indices = [] ∧ t.root.children = none := by
  refine ⟨by simp [Delete], by simp [Delete, Function.comp_def], fun t ht => ?_⟩
  simp only [Delete, List.mem_map] at ht
  obtain ⟨t₀, -, rfl⟩ := ht
  simp [treeNode.recursiveDelete_eq, treeNode.indices, treeNode.children]

end LshForest

/-! ## `recursiveAdd` with its level counter -/

namespace treeNode

/-- From a level within the key and with enough fuel, the level-indexed `recursiveAdd`
agrees with the recursion on the rest of the key, makes one recursive call per remaining
component, and can only fail by a write into a nil children map. -/
theorem recursiveAddLevel_eq (id : Int) (key : hashTableKey) (fuel level : Nat)
    (node : treeNode) (hlevel : level ≤ key.length) (hfuel : key.length - level ≤ fuel) :
    recursiveAddLevel id key fuel level node =
      match recursiveAddFrom id (key.drop level) node with
      | some (n', b) => .ok (n', b, key.length - level)
      | none => .error .nilMapWrite := by
  induction fuel generalizing level node with
  | zero =>
    obtain ⟨hk, idx, cs⟩ := node
    have hl : level = key.length := by omega
    subst hl
    simp [recursiveAddLevel, recursiveAddFrom]
  | succ fuel ih =>
    obtain ⟨hk, idx, cs⟩ := node
    by_cases hl : level = key.length
    · subst hl
      simp [recursiveAddLevel, recursiveAddFrom]
    · have hlt : level < key.length := by omega
      have hdrop : key.drop level = key[level] :: key.drop (level + 1) :=
        List.drop_eq_getElem_cons hlt
      have hget : key[level]? = some key[level] := List.getElem?_eq_getElem hlt
      cases cs with
      | none =>
        rw [hdrop]
        simp [recursiveAddLevel, hl, hget, recursiveAddFrom]
      | some cs =>
        have ih' := ih (level + 1) ((mapGet cs key[level]).getD (fresh key[level]))
          (by omega) (by omega)
        rw [hdrop, recursiveAddFrom_cons_some]
        simp only [recursiveAddLevel, hl, if_false, hget, ih']
        cases hrec : recursiveAddFrom id (key.drop (level + 1))
            ((mapGet cs key[level]).getD (fresh key[level])) with
        | none => rfl
        | some r =>
          obtain ⟨n', b⟩ := r
          have : key.length - (level + 1) + 1 = key.length - level := by omega
          simp only [this]

/-- A level-indexed `recursiveAdd` that returns has made exactly one recursive call per
remaining key component, and had the fuel for it. -/
theorem recursiveAddLevel_steps (id : Int) (key : hashTableKey) (fuel level : Nat)
    (node : treeNode) (r : treeNode × Bool × Nat)
    (h : recursiveAddLevel id key fuel level node = .ok r) :
    level ≤ key.length ∧ r.2.2 = key.length - level ∧ r.2.2 ≤ fuel := by
  induction fuel generalizing level node r with
  | zero =>
    obtain ⟨hk, idx, cs⟩ := node
    by_cases hl : level = key.length
    · simp only [recursiveAddLevel, hl, if_true, Except.ok.injEq] at h
      subst h
      simp [hl]
    · simp [recursiveAddLevel, hl] at h
  | succ fuel ih =>
    obtain ⟨hk, idx, cs⟩ := node
    by_cases hl : level = key.length
    · simp only [recursiveAddLevel, hl, if_true, Except.ok.injEq] at h
      subst h
      simp [hl]
    · simp only [recursiveAddLevel, hl, if_false] at h
      cases hget : key[level]? with
      | none => simp [hget] at h
      | some hv =>
        have hlt : level < key.length := (List.getElem?_eq_some.1 hget).1
        cases cs with
        | none => simp [hget] at h
        | some cs =>
          simp only [hget] at h
          cases hrec : recursiveAddLevel id key fuel (level + 1)
              ((mapGet cs hv).getD (fresh hv)) with
          | error e => simp [hrec] at h
          | ok r' =>
            obtain ⟨n', b, steps⟩ := r'
            simp only [hrec, Except.ok.injEq] at h
            subst h
            obtain ⟨-, h2, h3⟩ := ih (level + 1) _ _ hrec
            simp only at h2 h3 ⊢
            omega

/-- Started within the key, the level-indexed `recursiveAdd` never indexes the key out of
range. -/
theorem recursiveAddLevel_in_range (id : Int) (key : hashTableKey) (fuel level : Nat)
    (node : treeNode) (hlevel : level ≤ key.length) :
    recursiveAddLevel id key fuel level node ≠ .error .indexOutOfRange := by
  induction fuel generalizing level node with
  | zero =>
    obtain ⟨hk, idx, cs⟩ := node
    by_cases hl : level = key.length <;> simp [recursiveAddLevel, hl]
  | succ fuel ih =>
    obtain ⟨hk, idx, cs⟩ := node
    by_cases hl : level = key.length
    · simp [recursiveAddLevel, hl]
    · have hlt : level < key.length := by omega
      have hget : key[level]? = some key[level] := List.getElem?_eq_getElem hlt
      cases cs with
      | none => simp [recursiveAddLevel, hl, hget]
      | some cs =>
        simp only [recursiveAddLevel, hl, if_false, hget]
        have ih' := ih (level + 1) ((mapGet cs key[level]).getD (fresh key[level])) (by omega)
        cases hrec : recursiveAddLevel id key fuel (level + 1)
            ((mapGet cs key[level]).getD (fresh key[level])) with
        | error e =>
          intro heq
          simp only [Except.error.injEq] at heq
          exact ih' (by rw [hrec, heq])
        | ok r => simp

end treeNode

namespace LshForest

variable {Point : Type}

theorem insertAll_append (index : LshForest Point) (ins₁ ins₂ : List (Point × Int)) :
    index.insertAll (ins₁ ++ ins₂) = (index.insertAll ins₁).bind (fun i => i.insertAll ins₂) := by
  induction ins₁ generalizing index with
  | nil => simp [insertAll]
  | cons e rest ih =>
    obtain ⟨p, id⟩ := e
    simp only [List.cons_append, insertAll]
    cases h1 : index.Insert p id with
    | none => simp
    | some i1 => simpa using ih i1

/-- A forest built by inserts accepts a further insert when the hash function returns
enough keys. -/
theorem built_Insert (params : lshParams Point) (ins : List (Point × Int)) (p : Point) (id : Int)
    (hlen : ∀ e ∈ ins, params.l ≤ (params.hash e.1).length)
    (hp : params.l ≤ (params.hash p).length) (index : LshForest Point)
    (h : (NewLshForest params).insertAll ins = some index) :
    ∃ index', index.Insert p id = some index' := by
  obtain ⟨index₂, h₂, -⟩ := built_spec params (ins ++ [(p, id)]) (by
    intro e he
    rcases List.mem_append.1 he with he | he
    · exact hlen e he
    · simp only [List.mem_singleton] at he
      rw [he]
      exact hp)
  rw [insertAll_append, h] at h₂
  simp only [Option.some_bind, insertAll] at h₂
  cases h1 : index.Insert p id with
  | none => simp [h1] at h₂
  | some i1 => exact ⟨i1, rfl⟩

/-- After `Delete()`, an insertion of a point with at least one key, the first one
non-empty, into a forest with at least one tree fails. -/
theorem Delete_Insert_none (index : LshForest Point) (p : Point) (id : Int)
    (hl : 0 < index.trees.length)
    (hkey : ∀ key, (index.params.hash p)[0]? = some key → key ≠ []) :
    index.Delete.Insert p id = none := by
  unfold Insert
  have ht : index.Delete.trees = index.trees.map
      (fun tree => ⟨tree.count, tree.root.recursiveDelete⟩) := rfl
  have hp : index.Delete.params = index.params := rfl
  rw [ht, hp]
  cases htrees : index.trees with
  | nil => simp [htrees] at hl
  | cons t ts =>
    cases hh : index.params.hash p with
    | nil => simp [insertTrees]
    | cons hv hvs =>
      have hne : hv ≠ [] := hkey hv (by simp [hh])
      cases hv with
      | nil => exact absurd rfl hne
      | cons a rest =>
        simp [insertTrees, prefixTree.insertIntoTree_eq, treeNode.recursiveDelete_eq,
          treeNode.recursiveAddFrom]

end LshForest

/-! ## More candidates than asked for -/

namespace LshForest

variable {Point : Type}

/-- Whatever the hash function, two different ids inserted for one point are both emitted
by `QueryKnn` for that point, for every `k`: the candidates are never cut down to `k`. -/
theorem QueryKnn_emits_both (params : lshParams Point) (hl : 1 ≤ params.l) (hm : 0 ≤ params.m)
    (hlen : ∀ p, (params.hash p).length = params.l) (p : Point) (a b : Int) (hab : a ≠ b)
    (k : Int) :
    ∃ index out, (NewLshForest params).insertAll [(p, a), (p, b)] = some index ∧
      index.QueryKnn p k = some out ∧ a ∈ out ∧ b ∈ out ∧ 2 ≤ out.length := by
  obtain ⟨index, hins, hpar, hlen', hqa⟩ :=
    self_recall_level params hl hlen [(p, a), (p, b)] p a (by simp)
  obtain ⟨index', hins', -, -, hqb⟩ :=
    self_recall_level params hl hlen [(p, a), (p, b)] p b (by simp)
  rw [hins] at hins'
  simp only [Option.some.injEq] at hins'
  subst hins'
  obtain ⟨out, L, h, -, hL, -, -⟩ :=
    knnLoop_spec index k (params.hash p) (by rw [hlen', hlen p]) params.m.toNat
  obtain ⟨outa, houta, ha⟩ := hqa (L : Int)
  obtain ⟨outb, houtb, hb⟩ := hqb (L : Int)
  rw [hL] at houta houtb
  simp only [Option.some.injEq] at houta houtb
  subst houta
  subst houtb
  refine ⟨index, out, hins, by simp only [QueryKnn, hpar, not_lt.2 hm, if_false, h], ha, hb, ?_⟩
  have hnd : ([a, b] : List Int).Nodup := by simp [hab]
  have hsub : ([a, b] : List Int) ⊆ out := by
    intro x hx
    simp only [List.mem_cons, List.mem_singleton, List.not_mem_nil, or_false] at hx
    rcases hx with rfl | rfl
    · exact ha
    · exact hb
  simpa using (hnd.subperm hsub).length_le

end LshForest

/-! ## Rendering of hash values -/

theorem hexDigitVal_digitChar (d : Nat) (h : d < 16) : hexDigitVal (Nat.digitChar d) = d := by
  interval_cases d <;> rfl

theorem digitChar_ne_minus (d : Nat) (h : d < 16) : Nat.digitChar d ≠ '-' := by
  interval_cases d <;> decide

theorem hexValue_toDigitsCore (fuel n : Nat) (ds : List Char) (h : n < fuel) :
    hexValue 0 (Nat.toDigitsCore 16 fuel n ds) = hexValue n ds := by
  induction fuel generalizing n ds with
  | zero => omega
  | succ fuel ih =>
    have hmod : n % 16 < 16 := Nat.mod_lt _ (by decide)
    by_cases hz : n / 16 = 0
    · have hn : n % 16 = n := Nat.mod_eq_of_lt (by omega)
      simp only [Nat.toDigitsCore, hz, if_true, hexValue, List.foldl_cons, Nat.zero_mul,
        Nat.zero_add]
      rw [hexDigitVal_digitChar _ hmod, hn]
    · have hlt : n / 16 < fuel := by omega
      simp only [Nat.toDigitsCore, hz, if_false]
      rw [ih (n / 16) _ hlt]
      have hdm : n / 16 * 16 + n % 16 = n := Nat.div_add_mod' n 16
      simp [hexValue, hexDigitVal_digitChar _ hmod, hdm]

theorem toDigitsCore_ne_minus (fuel n : Nat) (ds : List Char) (hds : ∀ c ∈ ds, c ≠ '-') :
    ∀ c ∈ Nat.toDigitsCore 16 fuel n ds, c ≠ '-' := by
  induction fuel generalizing n ds with
  | zero => simpa [Nat.toDigitsCore] using hds
  | succ fuel ih =>
    have hmod : n % 16 < 16 := Nat.mod_lt _ (by decide)
    have hds' : ∀ c ∈ Nat.digitChar (n % 16) :: ds, c ≠ '-' := by
      intro c hc
      rcases List.mem_cons.1 hc with rfl | hc
      · exact digitChar_ne_minus _ hmod
      · exact hds c hc
    by_cases hz : n / 16 = 0
    · simpa [Nat.toDigitsCore, hz] using hds'
    · simp only [Nat.toDigitsCore, hz, if_false]
      exact ih _ _ hds'

/-- The sixteen or more hexadecimal digits written by `%.16x` for a magnitude. -/
theorem fmtHex16_data (v : Int) :
    (fmtHex16 v).data =
      (if v < 0 then ['-'] else []) ++
        (List.replicate (16 - (Nat.toDigits 16 v.natAbs).length) '0' ++
          Nat.toDigits 16 v.natAbs) := by
  unfold fmtHex16
  by_cases h : v < 0 <;> simp [h]

theorem hexValue_padded (n : Nat) :
    hexValue 0 (List.replicate (16 - (Nat.toDigits 16 n).length) '0' ++ Nat.toDigits 16 n) = n := by
  have hz : ∀ k : Nat, List.foldl (fun a c => a * 16 + hexDigitVal c) 0 (List.replicate k '0') = 0 := by
    intro k
    induction k with
    | zero => rfl
    | succ k ih => simpa [List.replicate_succ, hexDigitVal] using ih
  have := hexValue_toDigitsCore (n + 1) n [] (Nat.lt_succ_self n)
  simp only [hexValue, List.foldl_nil] at this
  simp only [hexValue, List.foldl_append, hz, Nat.toDigits, this]

theorem padded_ne_minus (n : Nat) :
    ∀ c ∈ List.replicate (16 - (Nat.toDigits 16 n).length) '0' ++ Nat.toDigits 16 n, c ≠ '-' := by
  intro c hc
  rcases List.mem_append.1 hc with hc | hc
  · rw [(List.mem_replicate.1 hc).2]
    decide
  · exact toDigitsCore_ne_minus (n + 1) n [] (by simp) c hc

theorem padded_length (n : Nat) (h : n < 16 ^ 16) :
    (List.replicate (16 - (Nat.toDigits 16 n).length) '0' ++ Nat.toDigits 16 n).length = 16 := by
  have hle : (Nat.toDigits 16 n).length ≤ 16 :=
    Nat.toDigitsCore_length 16 (by decide) (n + 1) n 16 h (by decide)
  simp only [List.length_append, List.length_replicate]
  omega

theorem natAbs_lt_of_isInt64 {v : Int} (h : isInt64 v) : v.natAbs < 16 ^ 16 := by
  unfold isInt64 at h
  omega

/-- The rendering of one hash value determines the value. -/
theorem fmtHex16_data_injective {a b : Int} (h : (fmtHex16 a).data = (fmtHex16 b).data) :
    a = b := by
  rw [fmtHex16_data, fmtHex16_data] at h
  have hva := hexValue_padded a.natAbs
  have hvb := hexValue_padded b.natAbs
  by_cases ha : a < 0 <;> by_cases hb : b < 0
  · simp only [ha, hb, if_true, List.singleton_append, List.cons.injEq, true_and] at h
    rw [h] at hva
    have : a.natAbs = b.natAbs := hva.symm.trans hvb
    omega
  · simp only [ha, hb, if_true, if_false, List.singleton_append, List.nil_append] at h
    have hmem := padded_ne_minus b.natAbs '-' (by rw [← h]; exact List.mem_cons_self _ _)
    exact absurd rfl hmem
  · simp only [ha, hb, if_true, if_false, List.singleton_append, List.nil_append] at h
    have hmem := padded_ne_minus a.natAbs '-' (by rw [h]; exact List.mem_cons_self _ _)
    exact absurd rfl hmem
  · simp only [ha, hb, if_false, List.nil_append] at h
    rw [h] at hva
    have : a.natAbs = b.natAbs := hva.symm.trans hvb
    omega

theorem fmtHex16_length {v : Int} (h : isInt64 v) :
    (fmtHex16 v).data.length = if v < 0 then 17 else 16 := by
  rw [fmtHex16_data, List.length_append, padded_length _ (natAbs_lt_of_isInt64 h)]
  by_cases hv : v < 0 <;> simp [hv]

theorem fmtHex16_head (v : Int) (rest : List Char) :
    ((fmtHex16 v).data ++ rest).head? = some '-' ↔ v < 0 := by
  rw [fmtHex16_data]
  by_cases hv : v < 0
  · simp [hv]
  · simp only [hv, if_false, List.nil_append, iff_false]
    intro hhead
    have hpos : 0 < (List.replicate (16 - (Nat.toDigits 16 v.natAbs).length) '0' ++
        Nat.toDigits 16 v.natAbs).length := by
      have : 0 < (Nat.toDigits 16 v.natAbs).length := by
        unfold Nat.toDigits
        rw [Nat.toDigitsCore]
        split
        · simp
        · rw [Nat.toDigitsCore_lens_eq]
          omega
      simp only [List.length_append]
      omega
    cases hp : List.replicate (16 - (Nat.toDigits 16 v.natAbs).length) '0' ++
        Nat.toDigits 16 v.natAbs with
    | nil => simp [hp] at hpos
    | cons c cs =>
      rw [hp] at hhead
      simp only [List.cons_append, List.head?_cons, Option.some.injEq] at hhead
      exact padded_ne_minus v.natAbs c (by rw [hp]; exact List.mem_cons_self _ _) hhead

theorem renderKey_data (key : hashTableKey) :
    (renderKey key).data = key.flatMap (fun v => (fmtHex16 v).data) := by
  have hgen : ∀ (s : String) (key : hashTableKey),
      (key.foldl (fun s hashVal => s ++ fmtHex16 hashVal) s).data =
        s.data ++ key.flatMap (fun v => (fmtHex16 v).data) := by
    intro s key
    induction key generalizing s with
    | nil => simp
    | cons v rest ih => simp [ih, String.data_append, List.append_assoc]
  simpa [renderKey] using hgen "" key

/-- Bucket keys are faithful: on table keys of 64-bit integers the rendering is
injective. -/
theorem renderKey_injective (k₁ k₂ : hashTableKey) (h₁ : ∀ v ∈ k₁, isInt64 v)
    (h₂ : ∀ v ∈ k₂, isInt64 v) (h : renderKey k₁ = renderKey k₂) : k₁ = k₂ := by
  have hd : (renderKey k₁).data = (renderKey k₂).data := by rw [h]
  rw [renderKey_data, renderKey_data] at hd
  clear h
  induction k₁ generalizing k₂ with
  | nil =>
    cases k₂ with
    | nil => rfl
    | cons b t₂ =>
      have hb := fmtHex16_length (h₂ b (List.mem_cons_self _ _))
      have := congrArg List.length hd
      simp only [List.flatMap_nil, List.length_nil, List.flatMap_cons, List.length_append,
        hb] at this
      split at this <;> omega
  | cons a t₁ ih =>
    cases k₂ with
    | nil =>
      have ha := fmtHex16_length (h₁ a (List.mem_cons_self _ _))
      have := congrArg List.length hd
      simp only [List.flatMap_nil, List.length_nil, List.flatMap_cons, List.length_append,
        ha] at this
      split at this <;> omega
    | cons b t₂ =>
      simp only [List.flatMap_cons] at hd
      have ha := fmtHex16_length (h₁ a (List.mem_cons_self _ _))
      have hb := fmtHex16_length (h₂ b (List.mem_cons_self _ _))
      have hsign : a < 0 ↔ b < 0 := by
        rw [← fmtHex16_head a (t₁.flatMap (fun v => (fmtHex16 v).data)),
          ← fmtHex16_head b (t₂.flatMap (fun v => (fmtHex16 v).data)), hd]
      have hlen : (fmtHex16 a).data.length = (fmtHex16 b).data.length := by
        rw [ha, hb]
        by_cases hneg : a < 0
        · simp [hneg, hsign.1 hneg]
        · have hbn : ¬ b < 0 := fun hb' => hneg (hsign.2 hb')
          simp [hneg, hbn]
      obtain ⟨hab, hrest⟩ := List.append_inj hd hlen
      rw [fmtHex16_data_injective hab,
        ih t₂ (fun v hv => h₁ v (List.mem_cons_of_mem _ hv))
          (fun v hv => h₂ v (List.mem_cons_of_mem _ hv)) hrest]

theorem fillKeys_eq (i : Nat) (keys : List hashTableKey) (basicKeys : List basicHashTableKey)
    (h : i + keys.length ≤ basicKeys.length) :
    fillKeys i keys basicKeys =
      some (basicKeys.take i ++ keys.map renderKey ++ basicKeys.drop (i + keys.length)) := by
  induction keys generalizing i basicKeys with
  | nil => simp [fillKeys]
  | cons key rest ih =>
    simp only [List.length_cons] at h
    have hi : i < basicKeys.length := by omega
    simp only [fillKeys, hi, if_true]
    rw [ih (i + 1) _ (by simp only [List.length_set]; omega)]
    have h0 : (basicKeys.set i (renderKey key)).take i = basicKeys.take i := by
      apply List.ext_getElem?
      intro j
      rw [List.getElem?_take, List.getElem?_take]
      split
      · rw [List.getElem?_set_ne (by omega)]
      · rfl
    have h1 : (basicKeys.set i (renderKey key)).take (i + 1) =
        basicKeys.take i ++ [renderKey key] := by
      rw [List.take_succ, h0]
      simp [hi]
    have h2 : (basicKeys.set i (renderKey key)).drop (i + 1 + rest.length) =
        basicKeys.drop (i + 1 + rest.length) :=
      List.drop_set_of_lt _ _ (by omega)
    have e : i + 1 + rest.length = i + (rest.length + 1) := by omega
    rw [h1, h2, e]
    simp

namespace BasicLsh

variable {Point : Type}

/-- With as many keys as tables, `toBasicHashTableKeys` returns the rendered keys. -/
theorem toBasicHashTableKeys_eq (index : BasicLsh Point) (keys : List hashTableKey)
    (h : keys.length = index.params.l) :
    index.toBasicHashTableKeys keys = some (keys.map renderKey) := by
  unfold toBasicHashTableKeys
  rw [fillKeys_eq 0 keys _ (by simp [h])]
  simp [h]

end BasicLsh

/-! ## Buckets of the flat index -/

theorem tableInsert_bucket (table : hashTable) (hv s : basicHashTableKey) (id : Int) :
    (mapGet (tableInsert table hv id) s).getD [] =
      (mapGet table s).getD [] ++ (if s = hv then [id] else []) := by
  unfold tableInsert
  by_cases hs : s = hv
  · subst hs
    cases hg : mapGet table s <;> simp [mapGet_mapSet_self]
  · cases hg : mapGet table hv <;> simp [mapGet_mapSet_ne _ _ hs, hs]

theorem mem_zip_iff_getElem? {α β : Type} {l₁ : List α} {l₂ : List β} {a : α} {b : β} :
    (a, b) ∈ l₁.zip l₂ ↔ ∃ i : Nat, l₁[i]? = some a ∧ l₂[i]? = some b := by
  rw [List.mem_iff_getElem?]
  constructor
  · rintro ⟨i, hi⟩
    exact ⟨i, List.getElem?_zip_eq_some.1 hi⟩
  · rintro ⟨i, hi⟩
    exact ⟨i, List.getElem?_zip_eq_some.2 hi⟩

namespace BasicLsh

variable {Point : Type}

/-- Ids inserted under a bucket key in group `i`, in insertion order. -/
theorem insertAll_buckets (index : BasicLsh Point) (ins : List (Point × Int))
    (hl : index.tables.length = index.params.l)
    (hlen : ∀ p, (index.params.hash p).length = index.params.l) :
    ∃ index', index.insertAll ins = some index' ∧ index'.params = index.params ∧
      index'.tables.length = index.params.l ∧
      ∀ (i : Nat) (t : hashTable), index.tables[i]? = some t →
        ∃ t', index'.tables[i]? = some t' ∧ ∀ s : basicHashTableKey,
          (mapGet t' s).getD [] = (mapGet t s).getD [] ++
            (ins.filter (fun e =>
              decide (renderKey ((index.params.hash e.1)[i]?.getD []) = s))).map Prod.snd := by
  induction ins generalizing index with
  | nil => exact ⟨index, rfl, rfl, hl, fun i t ht => ⟨t, ht, fun s => by simp⟩⟩
  | cons e rest ih =>
    obtain ⟨p, id⟩ := e
    have hhvs := index.toBasicHashTableKeys_eq (index.params.hash p) (hlen p)
    obtain ⟨tables₁, ht₁⟩ := insertTables_isSome id index.tables
      ((index.params.hash p).map renderKey) (by simp [hl, hlen p])
    obtain ⟨hl₁, hi₁⟩ := insertTables_spec ht₁
    have h1 : index.Insert p id = some ⟨index.params, tables₁⟩ := by
      simp only [Insert, hhvs, ht₁]
    obtain ⟨index', h', hp', hl', hi'⟩ := ih ⟨index.params, tables₁⟩ (by simp [hl₁, hl]) hlen
    refine ⟨index', by simp only [insertAll, h1, h'], hp', hl', fun i t ht => ?_⟩
    obtain ⟨hv, hhv, hnew⟩ := hi₁ i t ht
    obtain ⟨t', ht', hb'⟩ := hi' i _ hnew
    refine ⟨t', ht', fun s => ?_⟩
    rw [hb' s, tableInsert_bucket]
    have hi : i < (index.params.hash p).length := by
      have := (List.getElem?_eq_some.1 ht).1
      rw [hlen p, ← hl]
      exact this
    have hhv' : hv = renderKey ((index.params.hash p)[i]?.getD []) := by
      simp only [List.getElem?_map, List.getElem?_eq_getElem hi, Option.map_some',
        Option.some.injEq] at hhv
      simp [List.getElem?_eq_getElem hi, hhv]
    simp only [List.filter_cons, hhv']
    by_cases hs : s = renderKey ((index.params.hash p)[i]?.getD [])
    · simp [hs]
    · have hs' : ¬ renderKey ((index.params.hash p)[i]?.getD []) = s := fun h => hs h.symm
      simp [hs, hs']

end BasicLsh

/-! ## Exact lookups -/

namespace treeNode

theorem indicesAt_nil (n : treeNode) : n.indicesAt [] = n.indices := by
  simp [indicesAt]

theorem indicesAt_cons (n : treeNode) (h : Int) (t : List Int) :
    n.indicesAt (h :: t) = match n.getChild h with
      | none => []
      | some c => c.indicesAt t := by
  cases hg : n.getChild h <;> simp [indicesAt, walk_cons, hg]

theorem indicesAt_fresh (k : Int) (p : List Int) : (fresh k).indicesAt p = [] := by
  cases p with
  | nil => simp [indicesAt_nil, fresh, indices]
  | cons h t => simp [indicesAt_cons, fresh, mapGet]

/-- One insertion appends the id to the ids stored at the end of its key and changes the
ids stored at no other path. -/
theorem recursiveAddFrom_indicesAt (id : Int) (key : List Int) (n n' : treeNode) (b : Bool)
    (h : recursiveAddFrom id key n = some (n', b)) (p : List Int) :
    n'.indicesAt p = n.indicesAt p ++ if p = key then [id] else [] := by
  induction key generalizing n n' b p with
  | nil =>
    obtain ⟨hk, idx, cs⟩ := n
    simp only [recursiveAddFrom, Option.some.injEq, Prod.mk.injEq] at h
    obtain ⟨rfl, -⟩ := h
    cases p with
    | nil => simp [indicesAt_nil, indices]
    | cons h' t => cases cs <;> simp [indicesAt_cons, getChild, childList, children]
  | cons k₁ rest ih =>
    obtain ⟨hk, idx, cs⟩ := n
    cases cs with
    | none => simp [recursiveAddFrom] at h
    | some cs =>
      rw [recursiveAddFrom_cons_some] at h
      cases hrec : recursiveAddFrom id rest ((mapGet cs k₁).getD (fresh k₁)) with
      | none => simp [hrec] at h
      | some res =>
        obtain ⟨next', r⟩ := res
        simp only [hrec, Option.some.injEq, Prod.mk.injEq] at h
        obtain ⟨rfl, -⟩ := h
        have ih' := ih _ _ _ hrec
        cases p with
        | nil => simp [indicesAt_nil, indices]
        | cons h' t =>
          by_cases hh : h' = k₁
          · subst hh
            have ht := ih' t
            simp only [indicesAt_cons, getChild_mk_some, mapGet_mapSet_self, List.cons.injEq,
              true_and]
            cases hg : mapGet cs h' with
            | none => simpa [hg, indicesAt_fresh] using ht
            | some c => simpa [hg] using ht
          · simp [indicesAt_cons, mapGet_mapSet_ne _ _ hh, hh]

theorem atDepth_of_walk {n x : treeNode} {p : List Int} (h : n.walk p = some x) :
    atDepth n p.length x := by
  induction p generalizing n with
  | nil =>
    simp only [walk_nil, Option.some.injEq] at h
    subst h
    exact atDepth.root _
  | cons a t ih =>
    rw [walk_cons] at h
    cases hg : n.getChild a with
    | none => simp [hg] at h
    | some c =>
      simp only [hg, Option.some_bind] at h
      exact atDepth.child n c x a t.length (mem_of_mapGet hg) (ih h)

theorem atDepth_snoc {r n c : treeNode} {d : Nat} {k : Int} (h : atDepth r d n)
    (hc : (k, c) ∈ n.childList) : atDepth r (d + 1) c := by
  induction h with
  | root r => exact atDepth.child r c c k 0 hc (atDepth.root c)
  | child r c' n k' d hmem _ ih => exact atDepth.child r c' c k' (d + 1) hmem (ih hc)

/-- In a tree shaped for keys of length `m`, a node reached by a path of length `m` has no
children. -/
theorem childList_of_shape {m : Nat} {root x : treeNode} {p : List Int}
    (hs : shapeWithin m root) (hw : root.walk p = some x) (hp : p.length = m) :
    x.childList = [] := by
  cases hx : x.childList with
  | nil => rfl
  | cons e rest =>
    obtain ⟨k, c⟩ := e
    have hd := atDepth_snoc (atDepth_of_walk hw) (k := k) (c := c) (by simp [hx])
    have := (hs _ _ hd).1
    omega

theorem bfs_leaf (x : treeNode) (hx : x.childList = []) : bfs x.size [x] [] = x.indices := by
  have hsz : x.size = 1 := by rw [size_eq, hx]; rfl
  rw [hsz]
  simp [bfs, hx]

end treeNode

namespace prefixTree

/-- Lookup at full depth in a tree shaped for keys of length `m`: the ids stored at the end
of the key, in the order stored. -/
theorem lookup_full_depth {m : Nat} (tree : prefixTree) (hs : treeNode.shapeWithin m tree.root)
    (maxLevel : Int) (key : hashTableKey) (hkey : key.length = m) (hL : (m : Int) ≤ maxLevel) :
    tree.lookup maxLevel key = tree.root.indicesAt key := by
  unfold lookup
  rw [treeNode.descend_eq_walk]
  have htake : key.take (maxLevel - ((0 : Nat) : Int)).toNat = key := by
    apply List.take_of_length_le
    omega
  rw [htake]
  unfold treeNode.indicesAt
  cases hw : tree.root.walk key with
  | none => rfl
  | some x => exact treeNode.bfs_leaf x (treeNode.childList_of_shape hs hw hkey)

theorem insertMany_indicesAt {tree tree' : prefixTree} {log : List (Int × hashTableKey)}
    (h : tree.insertMany log = some tree') (p : List Int) :
    tree'.root.indicesAt p =
      tree.root.indicesAt p ++ (log.filter (fun e => decide (e.2 = p))).map Prod.fst := by
  induction log generalizing tree with
  | nil =>
    simp only [insertMany, Option.some.injEq] at h
    subst h
    simp
  | cons e rest ih =>
    obtain ⟨id, key⟩ := e
    simp only [insertMany] at h
    cases h1 : tree.insertIntoTree id key with
    | none => simp [h1] at h
    | some t1 =>
      simp only [h1] at h
      rw [ih h]
      rw [insertIntoTree_eq] at h1
      cases hrec : treeNode.recursiveAddFrom id key tree.root with
      | none => simp [hrec] at h1
      | some r =>
        obtain ⟨n', b⟩ := r
        simp only [hrec, Option.map_some', Option.some.injEq] at h1
        subst h1
        rw [treeNode.recursiveAddFrom_indicesAt id key _ _ _ hrec p]
        by_cases hp : p = key
        · subst hp
          simp [List.filter_cons]
        · have hp' : ¬ key = p := fun h => hp h.symm
          simp [List.filter_cons, hp, hp']

end prefixTree

/-- The two query loops emit the same ids in the same order when every tree returns the
content of the bucket of its table. -/
theorem queryTrees_eq_queryTables (maxLevel : Int) (trees : List prefixTree)
    (tables : List hashTable) (keys : List hashTableKey) (st : List Int × List Int)
    (hlen : trees.length = tables.length)
    (hsame : ∀ (i : Nat) (t : prefixTree) (tb : hashTable) (key : hashTableKey),
      trees[i]? = some t → tables[i]? = some tb → keys[i]? = some key →
        t.lookup maxLevel key = (mapGet tb (renderKey key)).getD []) :
    queryTrees maxLevel trees keys st = queryTables tables (keys.map renderKey) st := by
  induction trees generalizing tables keys st with
  | nil =>
    cases tables with
    | nil => simp [queryTrees, queryTables]
    | cons tb tbs => simp at hlen
  | cons t ts ih =>
    cases tables with
    | nil => simp at hlen
    | cons tb tbs =>
      cases keys with
      | nil => simp [queryTrees, queryTables]
      | cons key keys =>
        have h0 := hsame 0 t tb key (by simp) (by simp) (by simp)
        have hrest := fun st' => ih tbs keys st' (by simpa using hlen)
          (fun i t' tb' key' h1 h2 h3 => hsame (i + 1) t' tb' key' (by simpa using h1)
            (by simpa using h2) (by simpa using h3))
        simp only [queryTrees, List.map_cons, queryTables, h0, hrest]
        cases hg : mapGet tb (renderKey key) with
        | none => simp [emitUnseen_nil]
        | some c => simp

/-! ## Group updates in any order -/

section Groups

variable {α : Type}

theorem updateAt_spec {f : Nat → α → Option α} {i : Nat} {xs xs' : List α}
    (h : updateAt f i xs = some xs') :
    xs'.length = xs.length ∧ (∀ j, j ≠ i → xs'[j]? = xs[j]?) ∧
      ∃ x x', xs[i]? = some x ∧ f i x = some x' ∧ xs'[i]? = some x' := by
  unfold updateAt at h
  cases hx : xs[i]? with
  | none => simp [hx] at h
  | some x =>
    cases hf : f i x with
    | none => simp [hx, hf] at h
    | some x' =>
      simp only [hx, hf, Option.some.injEq] at h
      subst h
      have hi : i < xs.length := (List.getElem?_eq_some.1 hx).1
      exact ⟨by simp, fun j hj => List.getElem?_set_ne (Ne.symm hj), x, x', rfl, hf,
        by simp [hi]⟩

theorem updateAt_of_none {f : Nat → α → Option α} {i : Nat} {xs : List α}
    (h : xs[i]? = none) : updateAt f i xs = none := by
  simp [updateAt, h]

theorem updateAt_of_some {f : Nat → α → Option α} {i : Nat} {xs : List α} {x : α}
    (h : xs[i]? = some x) : updateAt f i xs = (f i x).map (fun x' => xs.set i x') := by
  cases hf : f i x <;> simp [updateAt, h, hf]

/-- Updates of two groups commute. -/
theorem updateAt_comm (f : Nat → α → Option α) (i j : Nat) (xs : List α) :
    (updateAt f i xs).bind (updateAt f j) = (updateAt f j xs).bind (updateAt f i) := by
  by_cases hij : i = j
  · rw [hij]
  · have hji : j ≠ i := fun h => hij h.symm
    cases hx : xs[i]? with
    | none =>
      rw [updateAt_of_none hx]
      cases hu : updateAt f j xs with
      | none => rfl
      | some ys =>
        have hfr := (updateAt_spec hu).2.1 i hij
        rw [hx] at hfr
        simp [updateAt_of_none hfr]
    | some x =>
      cases hy : xs[j]? with
      | none =>
        rw [updateAt_of_none hy]
        cases hu : updateAt f i xs with
        | none => rfl
        | some ys =>
          have hfr := (updateAt_spec hu).2.1 j hji
          rw [hy] at hfr
          simp [updateAt_of_none hfr]
      | some y =>
        rw [updateAt_of_some hx, updateAt_of_some hy]
        cases hfx : f i x with
        | none =>
          cases hfy : f j y with
          | none => rfl
          | some y' =>
            have hget : (xs.set j y')[i]? = some x := by
              rw [List.getElem?_set_ne hji, hx]
            simp [updateAt_of_some hget, hfx]
        | some x' =>
          have hget : (xs.set i x')[j]? = some y := by
            rw [List.getElem?_set_ne hij, hy]
          cases hfy : f j y with
          | none => simp [updateAt_of_some hget, hfy]
          | some y' =>
            have hget' : (xs.set j y')[i]? = some x := by
              rw [List.getElem?_set_ne hji, hx]
            simp only [Option.map_some', Option.some_bind, updateAt_of_some hget,
              updateAt_of_some hget', hfx, hfy, Option.some.injEq]
            exact List.set_comm x' y' xs hij

theorem runGroups_cons (f : Nat → α → Option α) (i : Nat) (rest : List Nat) (xs : List α) :
    runGroups f (i :: rest) xs = (updateAt f i xs).bind (runGroups f rest) := by
  cases h : updateAt f i xs <;> simp [runGroups, h]

/-- The result of the group updates does not depend on the order of the groups. -/
theorem runGroups_perm (f : Nat → α → Option α) {order₁ order₂ : List Nat}
    (h : order₁.Perm order₂) (xs : List α) : runGroups f order₁ xs = runGroups f order₂ xs := by
  induction h generalizing xs with
  | nil => rfl
  | cons i _ ih =>
    rw [runGroups_cons, runGroups_cons]
    cases hu : updateAt f i xs with
    | none => rfl
    | some xs' => simpa using ih xs'
  | swap i j l =>
    have hfun : ∀ a : Nat, runGroups f (a :: l) =
        fun ys => (updateAt f a ys).bind (runGroups f l) :=
      fun a => funext (fun ys => runGroups_cons f a l ys)
    rw [runGroups_cons, runGroups_cons, hfun i, hfun j, ← Option.bind_assoc,
      ← Option.bind_assoc, updateAt_comm]
  | trans _ _ ih₁ ih₂ => rw [ih₁, ih₂]

theorem runGroups_range' (f : Nat → α → Option α) (pre xs : List α) :
    runGroups f (List.range' pre.length xs.length) (pre ++ xs) =
      (seqGroups f pre.length xs).map (fun r => pre ++ r) := by
  induction xs generalizing pre with
  | nil => simp [runGroups, seqGroups]
  | cons x rest ih =>
    simp only [List.length_cons, List.range'_succ, runGroups_cons, seqGroups]
    have hget : (pre ++ x :: rest)[pre.length]? = some x := by
      rw [List.getElem?_append_right (Nat.le_refl _)]
      simp
    unfold updateAt
    simp only [hget]
    cases hf : f pre.length x with
    | none => simp
    | some x' =>
      have hset : (pre ++ x :: rest).set pre.length x' = (pre ++ [x']) ++ rest := by simp
      simp only [Option.some_bind, hset]
      have := ih (pre ++ [x'])
      simp only [List.length_append, List.length_singleton] at this
      rw [this]
      cases hs : seqGroups f (pre.length + 1) rest <;> simp

/-- The group updates in the order `0, 1, ...` are the left-to-right loop. -/
theorem runGroups_range (f : Nat → α → Option α) (xs : List α) :
    runGroups f (List.range xs.length) xs = seqGroups f 0 xs := by
  have := runGroups_range' f [] xs
  simpa [List.range_eq_range'] using this

end Groups

theorem insertTrees_eq_seqGroups (id : Int) (trees : List prefixTree) (hvs : List hashTableKey)
    (j : Nat) : insertTrees id trees (hvs.drop j) = seqGroups (treeStep id hvs) j trees := by
  induction trees generalizing j with
  | nil => simp [insertTrees, seqGroups]
  | cons t ts ih =>
    by_cases hj : j < hvs.length
    · rw [List.drop_eq_getElem_cons hj]
      simp only [insertTrees, seqGroups, treeStep, List.getElem?_eq_getElem hj, ih (j + 1)]
      cases t.insertIntoTree id hvs[j] with
      | none => rfl
      | some t' => cases seqGroups (treeStep id hvs) (j + 1) ts <;> rfl
    · have hd : hvs.drop j = [] := List.drop_eq_nil_of_le (by omega)
      have hn : hvs[j]? = none := List.getElem?_eq_none (by omega)
      simp [hd, insertTrees, seqGroups, treeStep, hn]

theorem insertTables_eq_seqGroups (id : Int) (tables : List hashTable)
    (hvs : List basicHashTableKey) (j : Nat) :
    insertTables id tables (hvs.drop j) = seqGroups (tableStep id hvs) j tables := by
  induction tables generalizing j with
  | nil => simp [insertTables, seqGroups]
  | cons t ts ih =>
    by_cases hj : j < hvs.length
    · rw [List.drop_eq_getElem_cons hj]
      simp only [insertTables, seqGroups, tableStep, List.getElem?_eq_getElem hj, ih (j + 1)]
      cases seqGroups (tableStep id hvs) (j + 1) ts <;> rfl
    · have hd : hvs.drop j = [] := List.drop_eq_nil_of_le (by omega)
      have hn : hvs[j]? = none := List.getElem?_eq_none (by omega)
      simp [hd, insertTables, seqGroups, tableStep, hn]

/-! ## Facts on the example data -/

theorem exHashFin_length (p : Fin 8) : (exParamsFin.hash p).length = exParamsFin.l := rfl

theorem exHashFin_key_length (p : Fin 8) :
    ∀ key ∈ exParamsFin.hash p, (key.length : Int) = exParamsFin.m := by
  intro key hkey
  simp only [exParamsFin, exHashFin, exHash, List.mem_cons, List.mem_singleton,
    List.not_mem_nil, or_false] at hkey
  rcases hkey with h | h <;> rw [h] <;> rfl

theorem exHashFin_int64 (p : Fin 8) : ∀ key ∈ exParamsFin.hash p, ∀ v ∈ key, isInt64 v := by
  intro key hkey v hv
  have hp : (p.val : Int) < 8 := by exact_mod_cast p.isLt
  have hp0 : (0 : Int) ≤ (p.val : Int) := Int.natCast_nonneg _
  simp only [exParamsFin, exHashFin, exHash, List.mem_cons, List.mem_singleton,
    List.not_mem_nil, or_false] at hkey
  unfold isInt64
  rcases hkey with h | h <;> subst h <;>
    simp only [List.mem_cons, List.mem_singleton, List.not_mem_nil, or_false] at hv <;>
    rcases hv with h | h <;> subst h <;> omega

theorem exHash_key_length (p : Int) :
    ∀ key ∈ exParams.hash p, (key.length : Int) = exParams.m := by
  intro key hkey
  simp only [exParams, exHash, List.mem_cons, List.mem_singleton, List.not_mem_nil,
    or_false] at hkey
  rcases hkey with h | h <;> rw [h] <;> rfl

/-! ## The flat index behind map references -/

section Traverse

variable {α β : Type}

theorem traverse_eq_some_iff (f : α → Option β) (xs : List α) (ys : List β) :
    traverse f xs = some ys ↔ xs.map f = ys.map some := by
  induction xs generalizing ys with
  | nil =>
    cases ys with
    | nil => simp [traverse]
    | cons y ys => simp [traverse]
  | cons x xs ih =>
    cases hf : f x with
    | none =>
      cases ys with
      | nil => simp [traverse, hf]
      | cons y ys => simp [traverse, hf]
    | some y =>
      cases ht : traverse f xs with
      | none =>
        cases ys with
        | nil => simp [traverse, hf, ht]
        | cons y' ys' =>
          have := (ih ys').not.1 (by simp [ht])
          simp only [traverse, hf, ht, List.map_cons, List.cons.injEq, Option.some.injEq]
          constructor
          · intro h
            cases h
          · rintro ⟨-, h⟩
            exact absurd h this
      | some zs =>
        have hzs := (ih zs).1 ht
        cases ys with
        | nil => simp [traverse, hf, ht]
        | cons y' ys' =>
          simp only [traverse, hf, ht, Option.some.injEq, List.cons.injEq, List.map_cons, hzs]
          constructor
          · rintro ⟨h1, h2⟩
            exact ⟨h1, by rw [h2]⟩
          · rintro ⟨h1, h2⟩
            exact ⟨h1, List.map_injective_iff.2 (Option.some_injective _) h2⟩

theorem traverse_getElem? {f : α → Option β} {xs : List α} {ys : List β}
    (h : traverse f xs = some ys) (j : Nat) : (xs[j]?).map f = (ys[j]?).map some := by
  have := congrArg (fun l => l[j]?) ((traverse_eq_some_iff f xs ys).1 h)
  simpa [List.getElem?_map] using this

theorem traverse_length {f : α → Option β} {xs : List α} {ys : List β}
    (h : traverse f xs = some ys) : ys.length = xs.length := by
  have := congrArg List.length ((traverse_eq_some_iff f xs ys).1 h)
  simpa using this.symm

theorem traverse_of_getElem? (f : α → Option β) (xs : List α) (ys : List β)
    (h : ∀ j : Nat, (xs[j]?).map f = (ys[j]?).map some) : traverse f xs = some ys := by
  rw [traverse_eq_some_iff]
  apply List.ext_getElem?
  intro j
  simpa [List.getElem?_map] using h j

theorem runSteps_cons {σ : Type} (step : Nat → σ → Option σ) (i : Nat) (rest : List Nat)
    (s : σ) : runSteps step (i :: rest) s = (step i s).bind (runSteps step rest) := by
  cases h : step i s <;> simp [runSteps, h]

end Traverse

theorem allocTables_eq (n : Nat) (maps : List hashTable) :
    allocTables n maps = (maps ++ List.replicate n [], List.range' maps.length n) := by
  induction n generalizing maps with
  | zero => simp [allocTables]
  | succ n ih =>
    simp only [allocTables, ih, List.length_append, List.length_singleton, List.append_assoc,
      List.singleton_append, List.range'_succ, List.replicate_succ]

/-- The memory made by `NewBasicLsh` is sound and holds `l` empty tables. -/
theorem newFlatMem_spec (l : Nat) :
    flatSound (newFlatMem l) ∧ (newFlatMem l).read = some (List.replicate l []) := by
  have hm : newFlatMem l = ⟨List.replicate l [], List.range' 0 l⟩ := by
    simp [newFlatMem, allocTables_eq]
  rw [hm]
  refine ⟨⟨List.nodup_range' 0 l, fun a ha => ?_⟩, ?_⟩
  · simp only [List.mem_range'_1] at ha
    simp only [List.length_replicate]
    omega
  · apply traverse_of_getElem?
    intro j
    by_cases hj : j < l
    · simp [List.getElem?_range' _ _ hj, hj]
    · have h1 : (List.range' 0 l)[j]? = none := List.getElem?_eq_none (by simp; omega)
      have h2 : (List.replicate l ([] : hashTable))[j]? = none :=
        List.getElem?_eq_none (by simp; omega)
      simp [h1, h2]

/-- One group's goroutine on a sound memory: it writes only through its own map reference,
the table of its group gets the bucket update and every other table stays as it is. -/
theorem tableGroupRef_spec (id : Int) (hvs : List basicHashTableKey) (i : Nat) (mem : flatMem)
    (tables : List hashTable) (hs : flatSound mem) (hr : mem.read = some tables)
    (t : hashTable) (hv : basicHashTableKey) (ht : tables[i]? = some t)
    (hhv : hvs[i]? = some hv) :
    ∃ mem', tableGroupRef id hvs i mem = some mem' ∧ flatSound mem' ∧
      mem'.tables = mem.tables ∧
      mem'.read = some (tables.set i (tableInsert t hv id)) ∧
      ∀ a, mem.tables[i]? ≠ some a → mem'.maps[a]? = mem.maps[a]? := by
  have hi := traverse_getElem? hr i
  rw [ht] at hi
  cases ha : mem.tables[i]? with
  | none => simp [ha] at hi
  | some a =>
    simp only [ha, Option.map_some', Option.some.injEq] at hi
    have halt : a < mem.maps.length := hs.2 a (List.getElem?_mem ha)
    refine ⟨⟨mem.maps.set a (tableInsert t hv id), mem.tables⟩,
      by simp only [tableGroupRef, hhv, ha, hi], ⟨hs.1, by simpa using hs.2⟩, rfl, ?_, ?_⟩
    · apply traverse_of_getElem?
      intro j
      by_cases hj : j = i
      · subst hj
        have hjl : j < tables.length := (List.getElem?_eq_some.1 ht).1
        simp [ha, halt, hjl]
      · have hrj := traverse_getElem? hr j
        rw [List.getElem?_set_ne (Ne.symm hj), ← hrj]
        cases hb : mem.tables[j]? with
        | none => rfl
        | some b =>
          have hne : a ≠ b := by
            intro hab
            subst hab
            exact hj ((List.getElem?_inj (List.getElem?_eq_some.1 hb).1 hs.1 (hb.trans ha.symm)))
          simp [List.getElem?_set_ne hne]
    · intro b hb
      have hne : a ≠ b := fun hab => hb (by rw [hab])
      exact List.getElem?_set_ne hne

/-- The goroutines of the groups in any order on a sound memory do what the group updates
do on the tables as values. -/
theorem tableGroupRef_runSteps (id : Int) (hvs : List basicHashTableKey) (order : List Nat)
    (mem : flatMem) (tables tables' : List hashTable) (hs : flatSound mem)
    (hr : mem.read = some tables)
    (hv : runGroups (tableStep id hvs) order tables = some tables') :
    ∃ mem', runSteps (tableGroupRef id hvs) order mem = some mem' ∧ flatSound mem' ∧
      mem'.tables = mem.tables ∧ mem'.read = some tables' := by
  induction order generalizing mem tables with
  | nil =>
    simp only [runGroups, Option.some.injEq] at hv
    subst hv
    exact ⟨mem, rfl, hs, rfl, hr⟩
  | cons i rest ih =>
    rw [runGroups_cons] at hv
    cases hu : updateAt (tableStep id hvs) i tables with
    | none => simp [hu] at hv
    | some tables₁ =>
      simp only [hu, Option.some_bind] at hv
      obtain ⟨-, -, t, t', ht, hstep, -⟩ := updateAt_spec hu
      have hu' := hu
      rw [updateAt_of_some ht, hstep] at hu'
      simp only [Option.map_some', Option.some.injEq] at hu'
      unfold tableStep at hstep
      cases hhv : hvs[i]? with
      | none => simp [hhv] at hstep
      | some hv₀ =>
        simp only [hhv, Option.some.injEq] at hstep
        obtain ⟨mem₁, h1, hs1, ht1, hr1, -⟩ :=
          tableGroupRef_spec id hvs i mem tables hs hr t hv₀ ht hhv
        rw [hstep, hu'] at hr1
        obtain ⟨mem', h', hs', ht', hr'⟩ := ih mem₁ tables₁ hs1 hr1 hv
        exact ⟨mem', by rw [runSteps_cons, h1]; exact h', hs', by rw [ht', ht1], hr'⟩

/-! ## Trees behind node pointers -/

section AssocMore

variable {κ β γ : Type} [DecidableEq κ]

theorem mapGet_split {l : List (κ × β)} {k : κ} {v : β} (h : mapGet l k = some v) :
    ∃ l₁ l₂, l = l₁ ++ (k, v) :: l₂ ∧ ∀ w, mapSet l k w = l₁ ++ (k, w) :: l₂ := by
  induction l with
  | nil => simp [mapGet] at h
  | cons e rest ih =>
    obtain ⟨k₀, v₀⟩ := e
    by_cases hk : k₀ = k
    · subst hk
      simp only [mapGet, if_true, Option.some.injEq] at h
      subst h
      exact ⟨[], rest, rfl, fun w => by simp [mapSet]⟩
    · simp only [mapGet, hk, if_false] at h
      obtain ⟨l₁, l₂, h1, h2⟩ := ih h
      exact ⟨(k₀, v₀) :: l₁, l₂, by rw [h1]; rfl, fun w => by simp [mapSet, hk, h2 w]⟩

theorem mapSet_of_none {l : List (κ × β)} {k : κ} (h : mapGet l k = none) (w : β) :
    mapSet l k w = l ++ [(k, w)] := by
  induction l with
  | nil => rfl
  | cons e rest ih =>
    obtain ⟨k₀, v₀⟩ := e
    by_cases hk : k₀ = k
    · simp [mapGet, hk] at h
    · simp only [mapGet, hk, if_false] at h
      simp [mapSet, hk, ih h]

theorem mapGet_map (f : β → γ) (l : List (κ × β)) (k : κ) :
    mapGet (l.map (fun e => (e.1, f e.2))) k = (mapGet l k).map f := by
  induction l with
  | nil => rfl
  | cons e rest ih =>
    obtain ⟨k₀, v₀⟩ := e
    by_cases hk : k₀ = k <;> simp [mapGet, hk, ih]

theorem mapSet_map (f : β → γ) (l : List (κ × β)) (k : κ) (v : β) :
    (mapSet l k v).map (fun e => (e.1, f e.2)) = mapSet (l.map (fun e => (e.1, f e.2))) k (f v) := by
  induction l with
  | nil => rfl
  | cons e rest ih =>
    obtain ⟨k₀, v₀⟩ := e
    by_cases hk : k₀ = k <;> simp [mapSet, hk, ih]

end AssocMore

/-- A middle part of a duplicate-free list of addresses below `N` may be replaced by a
duplicate-free list whose addresses are in the old part or not below `N`. -/
theorem nodup_replace_middle (pre mid mid' suf : List Nat) (N : Nat)
    (h : (pre ++ mid ++ suf).Nodup) (hN : ∀ x ∈ pre ++ mid ++ suf, x < N)
    (hmid : mid'.Nodup) (hsub : ∀ x ∈ mid', x ∈ mid ∨ N ≤ x) :
    (pre ++ mid' ++ suf).Nodup := by
  rw [List.append_assoc, List.nodup_append] at h ⊢
  obtain ⟨hpre, hms, hdis⟩ := h
  rw [List.nodup_append] at hms
  obtain ⟨-, hsuf, hdis2⟩ := hms
  refine ⟨hpre, ?_, ?_⟩
  · rw [List.nodup_append]
    refine ⟨hmid, hsuf, ?_⟩
    intro x hx hx'
    rcases hsub x hx with h1 | h1
    · exact hdis2 h1 hx'
    · have := hN x (by simp [hx'])
      omega
  · intro x hx hx'
    rcases List.mem_append.1 hx' with h1 | h1
    · rcases hsub x h1 with h2 | h2
      · exact hdis hx (List.mem_append_left _ h2)
      · have := hN x (by simp [hx])
        omega
    · exact hdis hx (List.mem_append_right _ h1)

namespace refTree

theorem valueList_eq_map (cs : List (Int × refTree)) :
    valueList cs = cs.map (fun e => (e.1, e.2.value)) := by
  induction cs with
  | nil => rfl
  | cons e rest ih =>
    obtain ⟨k, c⟩ := e
    simp [valueList, ih]

theorem value_mk (a : Nat) (hk : Int) (idx : List Int) (cs : Option (List (Int × refTree))) :
    (mk a hk idx cs).value =
      .mk hk idx (cs.map (fun l => l.map (fun e => (e.1, e.2.value)))) := by
  cases cs with
  | none => rfl
  | some l => simp [value, valueList_eq_map]

theorem nodesList_append (l₁ l₂ : List (Int × refTree)) :
    nodesList (l₁ ++ l₂) = nodesList l₁ ++ nodesList l₂ := by
  induction l₁ with
  | nil => rfl
  | cons e rest ih =>
    obtain ⟨k, c⟩ := e
    simp [nodesList, ih]

theorem nodesList_cons (k : Int) (c : refTree) (l : List (Int × refTree)) :
    nodesList ((k, c) :: l) = nodes c ++ nodesList l := rfl

theorem nodes_mk (a : Nat) (hk : Int) (idx : List Int) (cs : Option (List (Int × refTree))) :
    (mk a hk idx cs).nodes = mk a hk idx cs :: nodesList (cs.getD []) := by
  cases cs with
  | none => rfl
  | some l => rfl

theorem self_mem_nodes (rt : refTree) : rt ∈ rt.nodes := by
  obtain ⟨a, hk, idx, cs⟩ := rt
  rw [nodes_mk]
  exact List.mem_cons_self _ _

theorem addr_mem_addrs (rt : refTree) : rt.addr ∈ rt.addrs :=
  List.mem_map_of_mem _ rt.self_mem_nodes

theorem addrs_mk (a : Nat) (hk : Int) (idx : List Int) (cs : Option (List (Int × refTree))) :
    (mk a hk idx cs).addrs = a :: (nodesList (cs.getD [])).map addr := by
  simp [addrs, nodes_mk, addr]

theorem storedIn_mk (st : nodeStore) (a : Nat) (hk : Int) (idx : List Int)
    (cs : Option (List (Int × refTree))) :
    (mk a hk idx cs).storedIn st ↔
      st[a]? = some (mk a hk idx cs).cell ∧
        ∀ n ∈ nodesList (cs.getD []), st[n.addr]? = some n.cell := by
  simp [storedIn, nodes_mk, addr]

theorem lt_of_storedIn {st : nodeStore} {rt : refTree} (h : rt.storedIn st) :
    ∀ x ∈ rt.addrs, x < st.length := by
  intro x hx
  simp only [addrs, List.mem_map] at hx
  obtain ⟨n, hn, rfl⟩ := hx
  exact (List.getElem?_eq_some.1 (h n hn)).1

/-- The store holds a tree as long as the cells at the addresses of the tree stay as they
are. -/
theorem storedIn_of_frame {st st' : nodeStore} {rt : refTree} (h : rt.storedIn st)
    (hf : ∀ x ∈ rt.addrs, st'[x]? = st[x]?) : rt.storedIn st' := by
  intro n hn
  rw [hf n.addr (List.mem_map_of_mem _ hn)]
  exact h n hn

end refTree

theorem nodup_middle {pre mid suf : List Nat} (h : (pre ++ mid ++ suf).Nodup) :
    mid.Nodup ∧ ∀ x, x ∈ pre ∨ x ∈ suf → x ∉ mid := by
  rw [List.append_assoc, List.nodup_append] at h
  obtain ⟨-, hms, hdis⟩ := h
  rw [List.nodup_append] at hms
  obtain ⟨hmid, -, hdis2⟩ := hms
  refine ⟨hmid, fun x hx hm => ?_⟩
  rcases hx with hx | hx
  · exact hdis hx (List.mem_append_left _ hm)
  · exact hdis2 hm hx

namespace refTree

theorem addr_mk (a : Nat) (hk : Int) (idx : List Int) (cs : Option (List (Int × refTree))) :
    (mk a hk idx cs).addr = a :=
  rfl

theorem cell_mk (a : Nat) (hk : Int) (idx : List Int) (cs : Option (List (Int × refTree))) :
    (mk a hk idx cs).cell = ⟨hk, idx, cs.map (fun l => l.map (fun e => (e.1, e.2.addr)))⟩ :=
  rfl

/-- On a stored tree without shared nodes, `recursiveAdd` on the store does what
`recursiveAdd` does on the tree as a value: the store then holds the new tree at the same
root address, again without shared nodes; the nodes of the new tree are nodes of the old
one or newly allocated; and no cell outside the old tree is changed. -/
theorem recursiveAddRef_spec (id : Int) (key : List Int) (rt : refTree) (st : nodeStore)
    (t' : treeNode) (b : Bool) (hst : rt.storedIn st) (hnd : rt.addrs.Nodup)
    (hv : treeNode.recursiveAddFrom id key rt.value = some (t', b)) :
    ∃ (st' : nodeStore) (rt' : refTree),
      recursiveAddRef id key rt.addr st = some (st', b) ∧ rt'.addr = rt.addr ∧
      rt'.value = t' ∧ rt'.storedIn st' ∧ rt'.addrs.Nodup ∧ st.length ≤ st'.length ∧
      (∀ x ∈ rt'.addrs, x ∈ rt.addrs ∨ st.length ≤ x) ∧
      (∀ x, x < st.length → x ∉ rt.addrs → st'[x]? = st[x]?) := by
  induction key generalizing rt st t' b with
  | nil =>
    obtain ⟨a, hk, idx, cs⟩ := rt
    rw [value_mk] at hv
    simp only [treeNode.recursiveAddFrom, Option.some.injEq, Prod.mk.injEq] at hv
    obtain ⟨rfl, rfl⟩ := hv
    obtain ⟨hroot, hrest⟩ := (storedIn_mk st a hk idx cs).1 hst
    have ha : a < st.length := (List.getElem?_eq_some.1 hroot).1
    have hnd' := hnd
    rw [addrs_mk, List.nodup_cons] at hnd'
    refine ⟨st.set a ⟨hk, idx ++ [id], cs.map (fun l => l.map (fun e => (e.1, e.2.addr)))⟩,
      mk a hk (idx ++ [id]) cs, ?_, rfl, ?_, ?_, ?_, by simp, ?_, ?_⟩
    · simp only [recursiveAddRef, addr, hroot, cell_mk]
    · rw [value_mk]
    · rw [storedIn_mk]
      refine ⟨by simp [cell_mk, ha], fun n hn => ?_⟩
      have hne : a ≠ n.addr := fun h => hnd'.1 (h ▸ List.mem_map_of_mem _ hn)
      rw [List.getElem?_set_ne hne]
      exact hrest n hn
    · rw [addrs_mk]
      rw [addrs_mk] at hnd
      exact hnd
    · intro x hx
      left
      rw [addrs_mk] at hx ⊢
      exact hx
    · intro x _ hx
      have hne : a ≠ x := fun h => hx (by rw [addrs_mk, h]; exact List.mem_cons_self _ _)
      exact List.getElem?_set_ne hne
  | cons k₁ rest ih =>
    obtain ⟨a, hk, idx, cs⟩ := rt
    obtain ⟨hroot, hrest⟩ := (storedIn_mk st a hk idx cs).1 hst
    have ha : a < st.length := (List.getElem?_eq_some.1 hroot).1
    have hlt := lt_of_storedIn hst
    rw [value_mk] at hv
    cases cs with
    | none => simp [treeNode.recursiveAddFrom] at hv
    | some l =>
      simp only [Option.map_some'] at hv
      rw [treeNode.recursiveAddFrom_cons_some, mapGet_map] at hv
      simp only [Option.getD_some] at hrest
      rw [addrs_mk] at hnd hlt
      simp only [Option.getD_some] at hnd hlt
      have hanot : a ∉ (nodesList l).map addr := (List.nodup_cons.1 hnd).1
      have hndl : ((nodesList l).map addr).Nodup := (List.nodup_cons.1 hnd).2
      have hltl : ∀ x ∈ (nodesList l).map addr, x < st.length :=
        fun x hx => hlt x (List.mem_cons_of_mem _ hx)
      cases hg : mapGet l k₁ with
      | some c =>
        obtain ⟨l₁, l₂, hl, hset⟩ := mapGet_split hg
        simp only [hg, Option.map_some', Option.getD_some, Option.isNone_some] at hv
        cases hrec : treeNode.recursiveAddFrom id rest c.value with
        | none => simp [hrec] at hv
        | some res =>
          obtain ⟨tc', r⟩ := res
          simp only [hrec, Option.some.injEq, Prod.mk.injEq] at hv
          obtain ⟨rfl, rfl⟩ := hv
          have hnl : nodesList l = nodesList l₁ ++ nodes c ++ nodesList l₂ := by
            rw [hl, nodesList_append, nodesList_cons, List.append_assoc]
          have hal : (nodesList l).map addr =
              (nodesList l₁).map addr ++ c.addrs ++ (nodesList l₂).map addr := by
            rw [hnl]
            simp [addrs]
          have hcst : c.storedIn st := fun n hn => hrest n (by rw [hnl]; simp [hn])
          rw [hal] at hndl hltl hanot
          obtain ⟨hcnd, hdis⟩ := nodup_middle hndl
          obtain ⟨st', c', hadd, haddr, hval, hst', hnd', hlen, hsub, hframe⟩ :=
            ih c st tc' r hcst hcnd hrec
          have hac : a ∉ c.addrs := fun h => hanot (by simp [h])
          have hac' : a ∉ c'.addrs := by
            intro h
            rcases hsub a h with h1 | h1
            · exact hac h1
            · omega
          have hnl' : nodesList (l₁ ++ (k₁, c') :: l₂) =
              nodesList l₁ ++ nodes c' ++ nodesList l₂ := by
            rw [nodesList_append, nodesList_cons, List.append_assoc]
          have hal' : (nodesList (l₁ ++ (k₁, c') :: l₂)).map addr =
              (nodesList l₁).map addr ++ c'.addrs ++ (nodesList l₂).map addr := by
            rw [hnl']
            simp [addrs]
          refine ⟨st', mk a hk idx (some (l₁ ++ (k₁, c') :: l₂)), ?_, rfl, ?_, ?_, ?_, hlen, ?_,
            ?_⟩
          · have hgm : mapGet (l.map (fun e => (e.1, e.2.addr))) k₁ = some c.addr := by
              rw [mapGet_map, hg]
              rfl
            show recursiveAddRef id (k₁ :: rest) a st = some (st', false || r)
            simp only [recursiveAddRef, hroot, cell_mk, Option.map_some', hgm, hadd]
          · rw [value_mk]
            simp only [Option.map_some']
            rw [← hset c', mapSet_map, hval]
          · rw [storedIn_mk]
            constructor
            · rw [hframe a ha hac, hroot, cell_mk, cell_mk, hl]
              simp [haddr]
            · intro n hn
              simp only [Option.getD_some] at hn
              rw [hnl'] at hn
              have hold : ∀ m, m ∈ nodesList l₁ ∨ m ∈ nodesList l₂ →
                  st'[m.addr]? = some m.cell := by
                intro m hm
                have hml : m ∈ nodesList l := by
                  rw [hnl]
                  rcases hm with hm | hm <;> simp [hm]
                have hmc : m.addr ∉ c.addrs :=
                  hdis m.addr (hm.imp (List.mem_map_of_mem _) (List.mem_map_of_mem _))
                rw [hframe m.addr (List.getElem?_eq_some.1 (hrest m hml)).1 hmc]
                exact hrest m hml
              rcases List.mem_append.1 hn with h1 | h1
              · rcases List.mem_append.1 h1 with h2 | h2
                · exact hold n (Or.inl h2)
                · exact hst' n h2
              · exact hold n (Or.inr h1)
          · rw [addrs_mk]
            simp only [Option.getD_some]
            rw [hal', List.nodup_cons]
            refine ⟨?_, nodup_replace_middle _ _ _ _ st.length hndl hltl hnd' hsub⟩
            intro h
            simp only [List.mem_append] at h hanot
            rcases h with (h | h) | h
            · exact hanot (Or.inl (Or.inl h))
            · exact hac' h
            · exact hanot (Or.inr h)
          · intro x hx
            rw [addrs_mk] at hx ⊢
            simp only [Option.getD_some] at hx ⊢
            rw [hal'] at hx
            rw [hal]
            simp only [List.mem_cons, List.mem_append] at hx ⊢
            rcases hx with h | (h | h) | h
            · exact Or.inl (Or.inl h)
            · exact Or.inl (Or.inr (Or.inl (Or.inl h)))
            · rcases hsub x h with h1 | h1
              · exact Or.inl (Or.inr (Or.inl (Or.inr h1)))
              · exact Or.inr h1
            · exact Or.inl (Or.inr (Or.inr h))
          · intro x hx hnot
            refine hframe x hx (fun h => hnot ?_)
            rw [addrs_mk]
            simp only [Option.getD_some]
            rw [hal]
            simp [h]
      | none =>
        simp only [hg, Option.map_none', Option.getD_none, Option.isNone_none] at hv
        cases hrec : treeNode.recursiveAddFrom id rest (treeNode.fresh k₁) with
        | none => simp [hrec] at hv
        | some res =>
          obtain ⟨tc', r⟩ := res
          simp only [hrec, Option.some.injEq, Prod.mk.injEq] at hv
          obtain ⟨rfl, rfl⟩ := hv
          have hgv : mapGet (l.map (fun e => (e.1, e.2.value))) k₁ = none := by
            rw [mapGet_map, hg]
            rfl
          have hgm : mapGet (l.map (fun e => (e.1, e.2.addr))) k₁ = none := by
            rw [mapGet_map, hg]
            rfl
          have hne : a ≠ st.length := by omega
          have hst1 : (mk st.length k₁ [] (some [])).storedIn
              ((st ++ [(⟨k₁, [], some []⟩ : nodeCell)]).set a
                ⟨hk, idx, some (mapSet (l.map (fun e => (e.1, e.2.addr))) k₁ st.length)⟩) := by
            rw [storedIn_mk]
            refine ⟨?_, fun n hn => by simp [nodesList] at hn⟩
            rw [List.getElem?_set_ne hne]
            simp [cell_mk]
          obtain ⟨st', c', hadd, haddr, hval, hst', hnd', hlen, hsub, hframe⟩ :=
            ih (mk st.length k₁ [] (some [])) _ tc' r hst1 (by simp [addrs_mk, nodesList])
              (by rw [value_mk]; exact hrec)
          simp only [List.length_set, List.length_append, List.length_singleton, addr_mk] at hlen hframe haddr hadd
          have hsub' : ∀ x ∈ c'.addrs, st.length ≤ x := by
            intro x hx
            rcases hsub x hx with h1 | h1
            · simp [addrs_mk, nodesList] at h1
              omega
            · simp only [List.length_set, List.length_append, List.length_singleton] at h1
              omega
          have hfr : ∀ x, x < st.length → x ≠ a → st'[x]? = st[x]? := by
            intro x hx hxa
            rw [hframe x (by omega) (by simp [addrs_mk, nodesList]; omega),
              List.getElem?_set_ne (Ne.symm hxa), List.getElem?_append_left hx]
          have hnl' : nodesList (l ++ [(k₁, c')]) = nodesList l ++ nodes c' := by
            rw [nodesList_append, nodesList_cons]
            simp [nodesList]
          refine ⟨st', mk a hk idx (some (l ++ [(k₁, c')])), ?_, rfl, ?_, ?_, ?_, by omega, ?_,
            ?_⟩
          · show recursiveAddRef id (k₁ :: rest) a st = some (st', true || r)
            simp only [recursiveAddRef, hroot, cell_mk, Option.map_some', hgm, hadd]
          · rw [value_mk]
            simp only [Option.map_some']
            rw [mapSet_of_none hgv, ← hval]
            simp
          · rw [storedIn_mk]
            constructor
            · rw [hframe a (by omega) (by simp [addrs_mk, nodesList]; omega),
                List.getElem?_set_self (by simp; omega), cell_mk, mapSet_of_none hgm]
              simp [haddr]
            · intro n hn
              simp only [Option.getD_some] at hn
              rw [hnl'] at hn
              rcases List.mem_append.1 hn with h1 | h1
              · have hlt1 := (List.getElem?_eq_some.1 (hrest n h1)).1
                rw [hfr n.addr hlt1 (fun h => hanot (h ▸ List.mem_map_of_mem _ h1))]
                exact hrest n h1
              · exact hst' n h1
          · rw [addrs_mk]
            simp only [Option.getD_some]
            rw [hnl', List.map_append, List.nodup_cons, List.nodup_append]
            refine ⟨?_, hndl, hnd', ?_⟩
            · intro h
              rcases List.mem_append.1 h with h1 | h1
              · exact hanot h1
              · have := hsub' a h1
                omega
            · intro x hx hx'
              have := hsub' x hx'
              have := hltl x hx
              omega
          · intro x hx
            rw [addrs_mk] at hx ⊢
            simp only [Option.getD_some] at hx ⊢
            rw [hnl', List.map_append] at hx
            simp only [List.mem_cons, List.mem_append] at hx ⊢
            rcases hx with h | h | h
            · exact Or.inl (Or.inl h)
            · exact Or.inl (Or.inr h)
            · exact Or.inr (hsub' x h)
          · intro x hx hnot
            refine hfr x hx (fun h => hnot ?_)
            rw [addrs_mk, h]
            exact List.mem_cons_self _ _

end refTree

theorem split_at_getElem? {α : Type} {xs : List α} {i : Nat} {x : α} (h : xs[i]? = some x) :
    ∃ pre post, xs = pre ++ x :: post ∧ pre.length = i ∧ ∀ y, xs.set i y = pre ++ y :: post := by
  induction xs generalizing i with
  | nil => simp at h
  | cons a rest ih =>
    cases i with
    | zero =>
      simp only [List.getElem?_cons_zero, Option.some.injEq] at h
      subst h
      exact ⟨[], rest, rfl, rfl, fun y => rfl⟩
    | succ i =>
      simp only [List.getElem?_cons_succ] at h
      obtain ⟨pre, post, h1, h2, h3⟩ := ih h
      exact ⟨a :: pre, post, by rw [h1]; rfl, by simp [h2], fun y => by simp [h3 y]⟩

theorem set_eq_self_of_getElem? {α : Type} {xs : List α} {i : Nat} {x : α}
    (h : xs[i]? = some x) : xs.set i x = xs := by
  obtain ⟨pre, post, h1, -, h3⟩ := split_at_getElem? h
  rw [h3 x, ← h1]

namespace refTree

theorem nodes_length_pos (rt : refTree) : 0 < rt.nodes.length := by
  obtain ⟨a, hk, idx, cs⟩ := rt
  rw [nodes_mk]
  simp

theorem nodes_of_mem {l : List (Int × refTree)} {e : Int × refTree} (h : e ∈ l) :
    (∀ n ∈ e.2.nodes, n ∈ nodesList l) ∧ e.2.nodes.length ≤ (nodesList l).length := by
  obtain ⟨l₁, l₂, rfl⟩ := List.append_of_mem h
  obtain ⟨k, c⟩ := e
  rw [nodesList_append, nodesList_cons]
  constructor
  · intro n hn
    simp [hn]
  · simp only [List.length_append]
    omega

/-- Reading below the root pointer of a stored tree gives the tree as a value, when the fuel
covers the nodes of the tree. -/
theorem readTree_spec (fuel : Nat) (st : nodeStore) (rt : refTree) (hst : rt.storedIn st)
    (hf : rt.nodes.length ≤ fuel) : readTree fuel st rt.addr = some rt.value := by
  induction fuel generalizing rt with
  | zero =>
    have := rt.nodes_length_pos
    omega
  | succ fuel ih =>
    obtain ⟨a, hk, idx, cs⟩ := rt
    obtain ⟨hroot, hrest⟩ := (storedIn_mk st a hk idx cs).1 hst
    rw [nodes_mk] at hf
    cases cs with
    | none =>
      simp only [readTree, addr_mk, hroot, cell_mk, Option.map_none']
      rw [value_mk]
      rfl
    | some l =>
      simp only [Option.getD_some, List.length_cons] at hrest hf
      have htr : traverse (fun e => (readTree fuel st e.2).map (fun t => (e.1, t)))
          (l.map (fun e => (e.1, e.2.addr))) = some (l.map (fun e => (e.1, e.2.value))) := by
        rw [traverse_eq_some_iff, List.map_map, List.map_map]
        refine List.map_congr_left (fun e he => ?_)
        obtain ⟨h1, h2⟩ := nodes_of_mem he
        have := ih e.2 (fun n hn => hrest n (h1 n hn)) (by omega)
        simp [this]
      simp only [readTree, addr_mk, hroot, cell_mk, Option.map_some', htr]
      rw [value_mk]
      rfl

theorem nodes_length_le {st : nodeStore} {rt : refTree} (hst : rt.storedIn st)
    (hnd : rt.addrs.Nodup) : rt.nodes.length ≤ st.length := by
  have hsub : rt.addrs ⊆ List.range st.length := by
    intro x hx
    exact List.mem_range.2 (lt_of_storedIn hst x hx)
  have := (List.subperm_of_subset hnd hsub).length_le
  simpa [addrs] using this

end refTree

section ForestMemory

theorem treesOf_length {slots : List treeSlot} {rts : List refTree}
    (h : slots.map treeSlot.root = rts.map refTree.addr) :
    rts.length = slots.length ∧ (treesOf slots rts).length = slots.length := by
  have : slots.length = rts.length := by
    have := congrArg List.length h
    simpa using this
  simp [treesOf, this]

theorem treesOf_getElem? (slots : List treeSlot) (rts : List refTree) (i : Nat) :
    (treesOf slots rts)[i]? =
      (slots[i]?).bind (fun slot => (rts[i]?).map (fun rt => ⟨slot.count, rt.value⟩)) := by
  rw [treesOf, List.getElem?_zipWith]
  cases slots[i]? <;> cases rts[i]? <;> rfl

theorem treesOf_set (slots : List treeSlot) (rts : List refTree) (i : Nat) (slot : treeSlot)
    (rt : refTree) (h : rts.length = slots.length) :
    treesOf (slots.set i slot) (rts.set i rt) =
      (treesOf slots rts).set i ⟨slot.count, rt.value⟩ := by
  apply List.ext_getElem?
  intro j
  rw [treesOf_getElem?, List.getElem?_set, List.getElem?_set, List.getElem?_set,
    treesOf_getElem?]
  have hl : (treesOf slots rts).length = slots.length := by simp [treesOf, h]
  by_cases hij : i = j
  · subst hij
    by_cases hi : i < slots.length
    · simp [hi, h, hl]
    · simp [hi, h, hl]
  · simp [hij]

/-- The trees read from a memory that holds the trees `rts`. -/
theorem forestHolds_read {mem : forestMem} {rts : List refTree} (h : forestHolds mem rts) :
    mem.read = some (treesOf mem.trees rts) := by
  obtain ⟨hroots, hstored, hnd⟩ := h
  apply traverse_of_getElem?
  intro j
  rw [treesOf_getElem?]
  cases hs : mem.trees[j]? with
  | none => rfl
  | some slot =>
    have h1 : (mem.trees.map treeSlot.root)[j]? = some slot.root := by simp [hs]
    rw [hroots, List.getElem?_map] at h1
    cases hr : rts[j]? with
    | none => simp [hr] at h1
    | some rt =>
      simp only [hr, Option.map_some', Option.some.injEq] at h1
      have hmem : rt ∈ rts := List.mem_iff_getElem?.2 ⟨j, hr⟩
      have hst := hstored rt hmem
      have hnd1 : rt.addrs.Nodup := by
        obtain ⟨pre, post, rfl, -, -⟩ := split_at_getElem? hr
        simp only [List.flatMap_append, List.flatMap_cons] at hnd
        rw [← List.append_assoc] at hnd
        exact (nodup_middle hnd).1
      simp only [Option.map_some', Option.some_bind, ← h1,
        refTree.readTree_spec _ _ rt hst (refTree.nodes_length_le hst hnd1)]

/-- The goroutine of group `i` on a memory that holds trees without shared nodes does on
the trees as values what the group update does, and the memory holds the new trees, again
without shared nodes. -/
theorem treeGroupRef_spec (id : Int) (hvs : List hashTableKey) (i : Nat) (mem : forestMem)
    (rts : List refTree) (trees' : List prefixTree) (hh : forestHolds mem rts)
    (hv : updateAt (treeStep id hvs) i (treesOf mem.trees rts) = some trees') :
    ∃ (mem' : forestMem) (rts' : List refTree), treeGroupRef id hvs i mem = some mem' ∧
      forestHolds mem' rts' ∧ treesOf mem'.trees rts' = trees' ∧
      mem'.trees.length = mem.trees.length := by
  obtain ⟨hroots, hstored, hnd⟩ := hh
  obtain ⟨hlen, -⟩ := treesOf_length hroots
  cases hx : (treesOf mem.trees rts)[i]? with
  | none => rw [updateAt_of_none hx] at hv; cases hv
  | some x =>
    rw [updateAt_of_some hx] at hv
    rw [treesOf_getElem?] at hx
    cases hs : mem.trees[i]? with
    | none => simp [hs] at hx
    | some slot =>
      cases hr : rts[i]? with
      | none => simp [hs, hr] at hx
      | some rt =>
        simp only [hs, hr, Option.some_bind, Option.map_some', Option.some.injEq] at hx
        subst hx
        have haddr : slot.root = rt.addr := by
          have h1 : (mem.trees.map treeSlot.root)[i]? = some slot.root := by simp [hs]
          rw [hroots, List.getElem?_map, hr] at h1
          simpa using h1.symm
        cases hhv : hvs[i]? with
        | none => simp [treeStep, hhv] at hv
        | some hv' =>
          simp only [treeStep, hhv, prefixTree.insertIntoTree_eq] at hv
          cases hrec : treeNode.recursiveAddFrom id hv' rt.value with
          | none => simp [hrec] at hv
          | some res =>
            obtain ⟨t', b⟩ := res
            simp only [hrec, Option.map_some', Option.some.injEq] at hv
            obtain ⟨pre, post, hsplit, hprelen, hset⟩ := split_at_getElem? hr
            have hnd2 : (pre.flatMap refTree.addrs ++ rt.addrs ++
                post.flatMap refTree.addrs).Nodup := by
              rw [hsplit] at hnd
              simpa [List.flatMap_append, List.flatMap_cons] using hnd
            obtain ⟨hrtnd, hdis⟩ := nodup_middle hnd2
            have hmem : rt ∈ rts := List.mem_iff_getElem?.2 ⟨i, hr⟩
            obtain ⟨st', rt', hadd, haddr', hval, hst', hnd', hlen', hsub, hframe⟩ :=
              refTree.recursiveAddRef_spec id hv' rt mem.nodes t' b (hstored rt hmem) hrtnd hrec
            have hother : ∀ o, o ∈ pre ∨ o ∈ post → o.storedIn st' := by
              intro o ho
              have ho' : o ∈ rts := by
                rw [hsplit]
                rcases ho with ho | ho <;> simp [ho]
              refine refTree.storedIn_of_frame (hstored o ho') (fun x hx => ?_)
              refine hframe x (refTree.lt_of_storedIn (hstored o ho') x hx) (hdis x ?_)
              rcases ho with ho | ho
              · exact Or.inl (List.mem_flatMap.2 ⟨o, ho, hx⟩)
              · exact Or.inr (List.mem_flatMap.2 ⟨o, ho, hx⟩)
            have hall : ∀ x ∈ pre.flatMap refTree.addrs ++ rt.addrs ++
                post.flatMap refTree.addrs, x < mem.nodes.length := by
              intro x hx
              have hx' : x ∈ rts.flatMap refTree.addrs := by
                rw [hsplit]
                simpa [List.flatMap_append, List.flatMap_cons] using hx
              obtain ⟨o, ho, hxo⟩ := List.mem_flatMap.1 hx'
              exact refTree.lt_of_storedIn (hstored o ho) x hxo
            refine ⟨⟨st', mem.trees.set i ⟨if b then slot.count + 1 else slot.count, slot.root⟩⟩,
              rts.set i rt', ?_, ⟨?_, ?_, ?_⟩, ?_, by simp⟩
            · simp only [treeGroupRef, hhv, hs, haddr, hadd]
              cases b
              · simp [set_eq_self_of_getElem? hs, ← haddr]
              · simp [haddr]
            · simp only [List.map_set]
              rw [haddr', ← haddr]
              have h1 : (mem.trees.map treeSlot.root)[i]? = some slot.root := by simp [hs]
              rw [set_eq_self_of_getElem? h1, hroots]
              have h2 : (rts.map refTree.addr)[i]? = some slot.root := by simp [hr, haddr]
              rw [set_eq_self_of_getElem? h2]
            · intro o ho
              rw [hset rt'] at ho
              simp only [List.mem_append, List.mem_cons] at ho
              rcases ho with ho | rfl | ho
              · exact hother o (Or.inl ho)
              · exact hst'
              · exact hother o (Or.inr ho)
            · rw [hset rt']
              simp only [List.flatMap_append, List.flatMap_cons]
              rw [← List.append_assoc]
              exact nodup_replace_middle _ _ _ _ mem.nodes.length hnd2 hall hnd' hsub
            · rw [treesOf_set _ _ _ _ _ hlen, hval, ← hv]
  
theorem treeGroupRef_runSteps (id : Int) (hvs : List hashTableKey) (order : List Nat)
    (mem : forestMem) (rts : List refTree) (trees' : List prefixTree)
    (hh : forestHolds mem rts)
    (hv : runGroups (treeStep id hvs) order (treesOf mem.trees rts) = some trees') :
    ∃ (mem' : forestMem) (rts' : List refTree),
      runSteps (treeGroupRef id hvs) order mem = some mem' ∧
      forestHolds mem' rts' ∧ treesOf mem'.trees rts' = trees' ∧
      mem'.trees.length = mem.trees.length := by
  induction order generalizing mem rts with
  | nil =>
    simp only [runGroups, Option.some.injEq] at hv
    exact ⟨mem, rts, rfl, hh, hv, rfl⟩
  | cons i rest ih =>
    rw [runGroups_cons] at hv
    cases hu : updateAt (treeStep id hvs) i (treesOf mem.trees rts) with
    | none => simp [hu] at hv
    | some trees₁ =>
      rw [hu, Option.some_bind] at hv
      obtain ⟨mem₁, rts₁, h1, h2, h3, h4⟩ := treeGroupRef_spec id hvs i mem rts trees₁ hh hu
      rw [← h3] at hv
      obtain ⟨mem', rts', h5, h6, h7, h8⟩ := ih mem₁ rts₁ h2 hv
      exact ⟨mem', rts', by rw [runSteps_cons, h1]; exact h5, h6, h7, by rw [h8, h4]⟩

end ForestMemory

section Reachable

variable {Point : Type}

theorem allocRoots_eq (n : Nat) (st : nodeStore) :
    allocRoots n st = (st ++ List.replicate n (⟨0, [], some []⟩ : nodeCell),
      (List.range' st.length n).map (fun a => (⟨0, a⟩ : treeSlot))) := by
  induction n generalizing st with
  | zero => simp [allocRoots]
  | succ n ih =>
    simp only [allocRoots, ih, List.length_append, List.length_singleton, List.append_assoc,
      List.singleton_append, List.replicate_succ, List.range'_succ, List.map_cons]

/-- The memory after `NewLshForest` holds `l` one-node trees at different addresses, which
read as the trees of the new forest. -/
theorem newForestMem_spec (l : Nat) :
    ∃ rts, forestHolds (newForestMem l) rts ∧
      treesOf (newForestMem l).trees rts = List.replicate l prefixTree.empty := by
  have hmem : newForestMem l = ⟨List.replicate l (⟨0, [], some []⟩ : nodeCell),
      (List.range' 0 l).map (fun a => (⟨0, a⟩ : treeSlot))⟩ := by
    simp [newForestMem, allocRoots_eq]
  rw [hmem]
  refine ⟨(List.range' 0 l).map (fun a => refTree.mk a 0 [] (some [])), ⟨?_, ?_, ?_⟩, ?_⟩
  · simp [List.map_map, Function.comp_def, refTree.addr_mk]
  · intro rt hrt
    obtain ⟨a, ha, rfl⟩ := List.mem_map.1 hrt
    rw [refTree.storedIn_mk]
    have ha' : a < l := by simpa using (List.mem_range'_1.1 ha).2
    refine ⟨?_, fun n hn => by simp [refTree.nodesList] at hn⟩
    simp [List.getElem?_replicate, ha', refTree.cell_mk]
  · have : ((List.range' 0 l).map (fun a => refTree.mk a 0 [] (some []))).flatMap refTree.addrs
        = List.range' 0 l := by
      generalize List.range' 0 l = xs
      induction xs with
      | nil => rfl
      | cons x rest ih =>
        simp only [List.map_cons, List.flatMap_cons, ih, refTree.addrs_mk, Option.getD_some,
          refTree.nodesList, List.map_nil, List.singleton_append]
    rw [this]
    exact List.nodup_range' 0 l
  · have hv : ∀ a : Nat, (⟨0, (refTree.mk a 0 [] (some [])).value⟩ : prefixTree) =
        prefixTree.empty := fun a => by
      rw [refTree.value_mk]
      rfl
    simp [treesOf, List.zipWith_map_left, List.zipWith_map_right, hv]

/-- On trees whose nodes have children maps, the group updates of valid groups succeed in
any order, also with repeated groups. -/
theorem runGroups_treeStep_made (id : Int) (hvs : List hashTableKey) (order : List Nat)
    (trees : List prefixTree) (hm : ∀ t ∈ trees, t.root.made) (hl : trees.length ≤ hvs.length)
    (ho : ∀ j ∈ order, j < trees.length) :
    ∃ trees', runGroups (treeStep id hvs) order trees = some trees' ∧
      trees'.length = trees.length ∧ ∀ t ∈ trees', t.root.made := by
  induction order generalizing trees with
  | nil => exact ⟨trees, rfl, rfl, hm⟩
  | cons i rest ih =>
    have hi : i < trees.length := ho i (List.mem_cons_self _ _)
    have ht : trees[i]? = some trees[i] := List.getElem?_eq_getElem hi
    have hhv : hvs[i]? = some hvs[i] := List.getElem?_eq_getElem (by omega)
    obtain ⟨t', h1, h2⟩ :=
      prefixTree.insertIntoTree_made trees[i] id hvs[i] (hm _ (List.getElem_mem hi))
    have hu : updateAt (treeStep id hvs) i trees = some (trees.set i t') := by
      rw [updateAt_of_some ht]
      simp [treeStep, hhv, h1]
    have hm' : ∀ t ∈ trees.set i t', t.root.made := by
      intro t ht
      rcases List.mem_or_eq_of_mem_set ht with h | h
      · exact hm t h
      · rw [h]
        exact h2
    obtain ⟨trees', h3, h4, h5⟩ := ih (trees.set i t') hm' (by simpa using hl)
      (fun j hj => by simpa using ho j (List.mem_cons_of_mem _ hj))
    exact ⟨trees', by rw [runGroups_cons, hu]; exact h3, by simpa using h4, h5⟩

theorem runGroups_tableStep_isSome (id : Int) (hvs : List basicHashTableKey) (order : List Nat)
    (tables : List hashTable) (hl : tables.length ≤ hvs.length)
    (ho : ∀ j ∈ order, j < tables.length) :
    ∃ tables', runGroups (tableStep id hvs) order tables = some tables' ∧
      tables'.length = tables.length := by
  induction order generalizing tables with
  | nil => exact ⟨tables, rfl, rfl⟩
  | cons i rest ih =>
    have hi : i < tables.length := ho i (List.mem_cons_self _ _)
    have ht : tables[i]? = some tables[i] := List.getElem?_eq_getElem hi
    have hhv : hvs[i]? = some hvs[i] := List.getElem?_eq_getElem (by omega)
    have hu : updateAt (tableStep id hvs) i tables =
        some (tables.set i (tableInsert tables[i] hvs[i] id)) := by
      rw [updateAt_of_some ht]
      simp [tableStep, hhv]
    obtain ⟨tables', h3, h4⟩ := ih (tables.set i (tableInsert tables[i] hvs[i] id))
      (by simpa using hl) (fun j hj => by simpa using ho j (List.mem_cons_of_mem _ hj))
    exact ⟨tables', by rw [runGroups_cons, hu]; exact h3, by simpa using h4⟩

/-- The method `LshForest.Insert` performs the group updates from left to right. -/
theorem forest_Insert_eq_runGroups (index : LshForest Point) (p : Point) (id : Int) :
    index.Insert p id =
      (runGroups (treeStep id (index.params.hash p)) (List.range index.trees.length)
        index.trees).map (fun trees => (⟨index.params, trees⟩ : LshForest Point)) := by
  rw [runGroups_range, ← insertTrees_eq_seqGroups, List.drop_zero]
  unfold LshForest.Insert
  cases insertTrees id index.trees (index.params.hash p) <;> rfl

/-- The method `BasicLsh.Insert` performs the group updates from left to right. -/
theorem flat_Insert_eq_runGroups (index : BasicLsh Point) (p : Point) (id : Int)
    (hvs : List basicHashTableKey)
    (hhvs : index.toBasicHashTableKeys (index.params.hash p) = some hvs) :
    index.Insert p id =
      (runGroups (tableStep id hvs) (List.range index.tables.length) index.tables).map
        (fun tables => (⟨index.params, tables⟩ : BasicLsh Point)) := by
  rw [runGroups_range, ← insertTables_eq_seqGroups, List.drop_zero]
  simp only [BasicLsh.Insert, hhvs]
  cases insertTables id index.tables hvs <;> rfl

/-- The method `LshForest.Insert` on the memory does what it does on the trees as values. -/
theorem forestMem_Insert_spec (params : lshParams Point) (mem : forestMem)
    (rts : List refTree) (forest forest' : LshForest Point) (p : Point) (id : Int)
    (hh : forestHolds mem rts) (ht : treesOf mem.trees rts = forest.trees)
    (hp : forest.params = params) (hv : forest.Insert p id = some forest') :
    ∃ (mem' : forestMem) (rts' : List refTree), mem.Insert params p id = some mem' ∧
      forestHolds mem' rts' ∧ treesOf mem'.trees rts' = forest'.trees ∧
      forest'.params = params := by
  rw [forest_Insert_eq_runGroups] at hv
  cases hrun : runGroups (treeStep id (forest.params.hash p)) (List.range forest.trees.length)
      forest.trees with
  | none => simp [hrun] at hv
  | some trees' =>
    simp only [hrun, Option.map_some', Option.some.injEq] at hv
    subst hv
    have hl : mem.trees.length = forest.trees.length := by
      rw [← ht, (treesOf_length hh.1).2]
    rw [hp, ← hl, ← ht] at hrun
    obtain ⟨mem', rts', h1, h2, h3, -⟩ := treeGroupRef_runSteps id _ _ mem rts trees' hh hrun
    exact ⟨mem', rts', h1, h2, h3, hp⟩

theorem forestMem_insertAll_spec (params : lshParams Point) (ins : List (Point × Int))
    (mem : forestMem) (rts : List refTree) (forest forest' : LshForest Point)
    (hh : forestHolds mem rts) (ht : treesOf mem.trees rts = forest.trees)
    (hp : forest.params = params) (hv : forest.insertAll ins = some forest') :
    ∃ (mem' : forestMem) (rts' : List refTree), mem.insertAll params ins = some mem' ∧
      forestHolds mem' rts' ∧ treesOf mem'.trees rts' = forest'.trees ∧
      forest'.params = params := by
  induction ins generalizing mem rts forest with
  | nil =>
    simp only [LshForest.insertAll, Option.some.injEq] at hv
    subst hv
    exact ⟨mem, rts, rfl, hh, ht, hp⟩
  | cons e rest ih =>
    obtain ⟨p, id⟩ := e
    cases h1 : forest.Insert p id with
    | none => simp [LshForest.insertAll, h1] at hv
    | some forest₁ =>
      simp only [LshForest.insertAll, h1] at hv
      obtain ⟨mem₁, rts₁, h2, h3, h4, h5⟩ :=
        forestMem_Insert_spec params mem rts forest forest₁ p id hh ht hp h1
      obtain ⟨mem', rts', h6, h7, h8, h9⟩ := ih mem₁ rts₁ forest₁ h3 h4 h5 hv
      exact ⟨mem', rts', by simp only [forestMem.insertAll, h2]; exact h6, h7, h8, h9⟩

/-- The method `BasicLsh.Insert` on the memory does what it does on the tables as values. -/
theorem flatMem_Insert_spec (params : lshParams Point) (mem : flatMem)
    (flat flat' : BasicLsh Point) (p : Point) (id : Int)
    (hs : flatSound mem) (hr : mem.read = some flat.tables)
    (hp : flat.params = params) (hv : flat.Insert p id = some flat') :
    ∃ mem' : flatMem, mem.Insert params p id = some mem' ∧ flatSound mem' ∧
      mem'.read = some flat'.tables ∧ flat'.params = params := by
  cases hk : flat.toBasicHashTableKeys (flat.params.hash p) with
  | none => simp [BasicLsh.Insert, hk] at hv
  | some hvs =>
    rw [flat_Insert_eq_runGroups flat p id hvs hk] at hv
    cases hrun : runGroups (tableStep id hvs) (List.range flat.tables.length) flat.tables with
    | none => simp [hrun] at hv
    | some tables' =>
      simp only [hrun, Option.map_some', Option.some.injEq] at hv
      subst hv
      have hl : flat.tables.length = mem.tables.length := traverse_length hr
      rw [hl] at hrun
      obtain ⟨mem', h1, h2, -, h4⟩ := tableGroupRef_runSteps id hvs _ mem _ tables' hs hr hrun
      refine ⟨mem', ?_, h2, h4, hp⟩
      rw [BasicLsh.toBasicHashTableKeys, hp] at hk
      simp only [flatMem.Insert, hk]
      exact h1

theorem flatMem_insertAll_spec (params : lshParams Point) (ins : List (Point × Int))
    (mem : flatMem) (flat flat' : BasicLsh Point)
    (hs : flatSound mem) (hr : mem.read = some flat.tables)
    (hp : flat.params = params) (hv : flat.insertAll ins = some flat') :
    ∃ mem' : flatMem, mem.insertAll params ins = some mem' ∧ flatSound mem' ∧
      mem'.read = some flat'.tables ∧ flat'.params = params := by
  induction ins generalizing mem flat with
  | nil =>
    simp only [BasicLsh.insertAll, Option.some.injEq] at hv
    subst hv
    exact ⟨mem, rfl, hs, hr, hp⟩
  | cons e rest ih =>
    obtain ⟨p, id⟩ := e
    cases h1 : flat.Insert p id with
    | none => simp [BasicLsh.insertAll, h1] at hv
    | some flat₁ =>
      simp only [BasicLsh.insertAll, h1] at hv
      obtain ⟨mem₁, h2, h3, h4, h5⟩ := flatMem_Insert_spec params mem flat flat₁ p id hs hr hp h1
      obtain ⟨mem', h6, h7, h8, h9⟩ := ih mem₁ flat₁ h3 h4 h5 hv
      exact ⟨mem', by simp only [flatMem.insertAll, h2]; exact h6, h7, h8, h9⟩

end Reachable

section GroupSteps

variable {Point : Type}

/-- One goroutine of `BasicLsh.Insert` on a sound memory: as read through the slots, table
`i` gets the id appended to the bucket of the key of group `i`, and every other table stays
as it is. -/
theorem tableGroupRef_frame (id : Int) (hvs : List basicHashTableKey) (i : Nat) (mem : flatMem)
    (tables : List hashTable) (hs : flatSound mem) (hr : mem.read = some tables)
    (hi : i < tables.length) (hl : tables.length ≤ hvs.length) :
    ∃ (m₂ : flatMem) (ts₂ : List hashTable) (t₁ t₂ : hashTable) (hv : basicHashTableKey),
      tableGroupRef id hvs i mem = some m₂ ∧ m₂.read = some ts₂ ∧
      ts₂.length = tables.length ∧ (∀ j, j ≠ i → ts₂[j]? = tables[j]?) ∧
      tables[i]? = some t₁ ∧ ts₂[i]? = some t₂ ∧ hvs[i]? = some hv ∧
      ∀ s : basicHashTableKey,
        (mapGet t₂ s).getD [] = (mapGet t₁ s).getD [] ++ if s = hv then [id] else [] := by
  have ht : tables[i]? = some tables[i] := List.getElem?_eq_getElem hi
  have hhv : hvs[i]? = some hvs[i] := List.getElem?_eq_getElem (by omega)
  obtain ⟨m₂, h1, -, -, h4, -⟩ := tableGroupRef_spec id hvs i mem tables hs hr _ _ ht hhv
  refine ⟨m₂, _, tables[i], tableInsert tables[i] hvs[i] id, hvs[i], h1, h4, by simp,
    fun j hj => ?_, ht, by simp [hi], hhv, fun s => tableInsert_bucket _ _ _ _⟩
  rw [List.getElem?_set_ne (Ne.symm hj)]

/-- One goroutine of `LshForest.Insert` on a memory that holds trees without shared nodes:
as read through the root pointers, tree `i` gets the id below every prefix of the key of
group `i` and its count grows when the key is new, and every other tree stays as it is. -/
theorem treeGroupRef_frame (id : Int) (hvs : List hashTableKey) (i : Nat) (mem : forestMem)
    (rts : List refTree) (hh : forestHolds mem rts)
    (hm : ∀ t ∈ treesOf mem.trees rts, t.root.made)
    (hi : i < (treesOf mem.trees rts).length)
    (hl : (treesOf mem.trees rts).length ≤ hvs.length) :
    ∃ (m₂ : forestMem) (ts₂ : List prefixTree) (t₁ t₂ : prefixTree) (hv : hashTableKey),
      treeGroupRef id hvs i mem = some m₂ ∧ m₂.read = some ts₂ ∧
      ts₂.length = (treesOf mem.trees rts).length ∧
      (∀ j, j ≠ i → ts₂[j]? = (treesOf mem.trees rts)[j]?) ∧
      (treesOf mem.trees rts)[i]? = some t₁ ∧ ts₂[i]? = some t₂ ∧ hvs[i]? = some hv ∧
      (∀ path : List Int,
        (t₂.root.idsAt path).Perm (t₁.root.idsAt path ++ if path <+: hv then [id] else [])) ∧
      t₂.count = t₁.count + (if (t₁.root.walk hv).isSome then 0 else 1) := by
  obtain ⟨ts₂, h1, -, -⟩ := runGroups_treeStep_made id hvs [i] _ hm hl
    (fun j hj => by
      rw [List.mem_singleton] at hj
      rw [hj]
      exact hi)
  rw [runGroups_cons] at h1
  cases hu : updateAt (treeStep id hvs) i (treesOf mem.trees rts) with
  | none => simp [hu] at h1
  | some ts =>
    simp only [hu, Option.some_bind, runGroups, Option.some.injEq] at h1
    subst h1
    obtain ⟨m₂, rts₂, h2, h3, h4, -⟩ := treeGroupRef_spec id hvs i mem rts ts hh hu
    obtain ⟨h5, h6, t₁, t₂, h7, h8, h9⟩ := updateAt_spec hu
    cases hhv : hvs[i]? with
    | none => simp [treeStep, hhv] at h8
    | some hv =>
      simp only [treeStep, hhv] at h8
      refine ⟨m₂, ts, t₁, t₂, hv, h2, ?_, h5, h6, h7, h9, rfl,
        fun path => prefixTree.insertIntoTree_idsAt h8 path,
        (prefixTree.insertIntoTree_count_walk h8).1⟩
      rw [forestHolds_read h3, h4]

end GroupSteps

/-! ## The claims -/

/-- C1. Self-recall for `LshForest.Query`: in a forest with `l >= 1` trees whose hash
function returns `l` table keys for every point, after any sequence of `Insert` calls that
contains `Insert(p, id)` (the calls all succeed), `Query(p)` returns and the ids it emits
include `id`. The length of the keys is not needed for this. -/
theorem C1_query_self_recall {Point : Type} (params : lshParams Point) (hl : 1 ≤ params.l)
    (hlen : ∀ p, (params.hash p).length = params.l) (ins : List (Point × Int))
    (p : Point) (id : Int) (hmem : (p, id) ∈ ins) :
    ∃ index out, (NewLshForest params).insertAll ins = some index ∧
      index.Query p = some out ∧ id ∈ out := by
  obtain ⟨index, hins, hpar, -, hq⟩ :=
    LshForest.self_recall_level params hl hlen ins p id hmem
  obtain ⟨out, hout, hid⟩ := hq params.m
  exact ⟨index, out, hins, by simpa [LshForest.Query, hpar] using hout, hid⟩

/-- C1 at the example data: id 10, inserted for point 4, is among the ids of `Query(4)`. -/
theorem C1_query_self_recall_witness :
    1 ≤ exParams.l ∧ (∀ p, (exParams.hash p).length = exParams.l) ∧ (4, 10) ∈ exInserts ∧
      ∃ index out, (NewLshForest exParams).insertAll exInserts = some index ∧
        index.Query 4 = some out ∧ (10 : Int) ∈ out :=
  ⟨by decide, fun _ => rfl, by decide,
    C1_query_self_recall exParams (by decide) (fun _ => rfl) exInserts 4 10 (by decide)⟩

/-- C2. Self-recall for `BasicLsh.Query`: in a `BasicLsh` with `l >= 1` tables whose hash
function returns `l` table keys for every point, after any sequence of `Insert` calls that
contains `Insert(p, id)` (the calls all succeed), `Query(p)` returns and the ids it emits
include `id`. -/
theorem C2_basic_query_self_recall {Point : Type} (params : lshParams Point) (hl : 1 ≤ params.l)
    (hlen : ∀ p, (params.hash p).length = params.l) (ins : List (Point × Int))
    (p : Point) (id : Int) (hmem : (p, id) ∈ ins) :
    ∃ index out, (NewBasicLsh params).insertAll ins = some index ∧
      index.Query p = some out ∧ id ∈ out := by
  obtain ⟨index, hins, hpar, hlt, hholds, -⟩ :=
    BasicLsh.insertAll_holds (NewBasicLsh params) ins (by simp [NewBasicLsh]) hlen
  have hpar' : index.params = params := hpar
  have hlt' : index.tables.length = params.l := hlt
  obtain ⟨hvs, hhvs, hvl⟩ := index.toBasicHashTableKeys_length (index.params.hash p)
    (by rw [hpar', hlen p])
  obtain ⟨out, hq, -, hout⟩ := queryTables_spec index.tables hvs ([], []) emitInv_start
    (by rw [hlt', hvl, hpar'])
  refine ⟨index, out, hins, by simp only [BasicLsh.Query, hhvs, hq], (hout id).2 (Or.inr ?_)⟩
  have h0 : 0 < index.tables.length := by omega
  obtain ⟨hv, b, hhv, hb, hid⟩ := hholds p id hmem hvs hhvs 0 _ (List.getElem?_eq_getElem h0)
  exact ⟨(index.tables[0], hv), mem_zip_of_getElem? (List.getElem?_eq_getElem h0) hhv, b, hb, hid⟩

/-- C2 at the example data: id 11, inserted for point 5, is among the ids of `Query(5)`. -/
theorem C2_basic_query_self_recall_witness :
    1 ≤ exParams.l ∧ (∀ p, (exParams.hash p).length = exParams.l) ∧ (5, 11) ∈ exInserts ∧
      ∃ index out, (NewBasicLsh exParams).insertAll exInserts = some index ∧
        index.Query 5 = some out ∧ (11 : Int) ∈ out :=
  ⟨by decide, fun _ => rfl, by decide,
    C2_basic_query_self_recall exParams (by decide) (fun _ => rfl) exInserts 5 11 (by decide)⟩

/-- C3. Self-recall for `LshForest.QueryKnn`: in a forest with `l >= 1` trees and `m >= 0`
whose hash function returns `l` table keys for every point, after any sequence of `Insert`
calls that contains `Insert(p, id)`, `QueryKnn(p, k)` returns for every integer `k` and the
ids it emits include `id`. -/
theorem C3_queryKnn_self_recall {Point : Type} (params : lshParams Point) (hl : 1 ≤ params.l)
    (hm : 0 ≤ params.m) (hlen : ∀ p, (params.hash p).length = params.l)
    (ins : List (Point × Int)) (p : Point) (id : Int) (hmem : (p, id) ∈ ins) (k : Int) :
    ∃ index out, (NewLshForest params).insertAll ins = some index ∧
      index.QueryKnn p k = some out ∧ id ∈ out := by
  obtain ⟨index, hins, hpar, hlen', hq⟩ :=
    LshForest.self_recall_level params hl hlen ins p id hmem
  obtain ⟨out, L, h, -, hL, -, -⟩ :=
    LshForest.knnLoop_spec index k (params.hash p) (by rw [hlen', hlen p]) params.m.toNat
  obtain ⟨out', hout', hid⟩ := hq (L : Int)
  rw [hL] at hout'
  simp only [Option.some.injEq] at hout'
  subst hout'
  refine ⟨index, out, hins, ?_, hid⟩
  simp only [LshForest.QueryKnn, hpar, not_lt.2 hm, if_false, h]

/-- C3 at the example data: id 12, inserted for point 4, is among the ids of
`QueryKnn(4, 3)`. -/
theorem C3_queryKnn_self_recall_witness :
    1 ≤ exParams.l ∧ 0 ≤ exParams.m ∧ (∀ p, (exParams.hash p).length = exParams.l) ∧
      (4, 12) ∈ exInserts ∧
      ∃ index out, (NewLshForest exParams).insertAll exInserts = some index ∧
        index.QueryKnn 4 3 = some out ∧ (12 : Int) ∈ out :=
  ⟨by decide, by decide, fun _ => rfl, by decide,
    C3_queryKnn_self_recall exParams (by decide) (by decide) (fun _ => rfl) exInserts 4 12
      (by decide) 3⟩

/-- C4. Per-call deduplication in the forest: for every forest state, every `maxLevel` and
every list of table keys, a list returned by `queryHelper` contains no id twice; hence the
ids emitted by one `Query` call and by one `QueryKnn` call contain no id twice. -/
theorem C4_forest_dedup {Point : Type} (index : LshForest Point) (maxLevel : Int)
    (tableKeys : List hashTableKey) (q : Point) (k : Int) :
    (∀ out, index.queryHelper maxLevel tableKeys = some out → out.Nodup) ∧
      (∀ out, index.Query q = some out → out.Nodup) ∧
      (∀ out, index.QueryKnn q k = some out → out.Nodup) := by
  refine ⟨fun out h => LshForest.queryHelper_nodup index _ _ out h,
    fun out h => LshForest.queryHelper_nodup index _ _ out h, fun out h => ?_⟩
  unfold LshForest.QueryKnn at h
  by_cases hm : index.params.m < 0
  · simp only [hm, if_true, Option.some.injEq] at h
    exact h ▸ List.nodup_nil
  · simp only [hm, if_false] at h
    exact LshForest.knnLoop_nodup index k _ _ out h

/-- C4 at the example forest, where id 10 is stored twice in a node of each tree. -/
theorem C4_forest_dedup_witness :
    exForest.queryHelper 1 (exHash 5) = some [11, 10, 12] ∧ ([11, 10, 12] : List Int).Nodup ∧
      exForest.Query 4 = some [10, 12] ∧ ([10, 12] : List Int).Nodup ∧
      exForest.QueryKnn 4 3 = some [10, 12, 11] ∧ ([10, 12, 11] : List Int).Nodup :=
  ⟨by decide, (C4_forest_dedup exForest 1 (exHash 5) 4 3).1 [11, 10, 12] (by decide),
    by decide, (C4_forest_dedup exForest 1 (exHash 5) 4 3).2.1 [10, 12] (by decide),
    by decide, (C4_forest_dedup exForest 1 (exHash 5) 4 3).2.2 [10, 12, 11] (by decide)⟩

/-- C5. Per-call deduplication in the flat index: for every `BasicLsh` state (including
buckets that hold the same id several times) and every query point, the ids emitted by one
`BasicLsh.Query` call contain no id twice. -/
theorem C5_basic_dedup {Point : Type} (index : BasicLsh Point) (q : Point) (out : List Int)
    (h : index.Query q = some out) : out.Nodup := by
  unfold BasicLsh.Query at h
  cases hh : index.toBasicHashTableKeys (index.params.hash q) with
  | none => simp [hh] at h
  | some hvs =>
    simp only [hh] at h
    exact queryTables_nodup index.tables hvs ([], []) emitInv_start out h

/-- C5 at the example flat index, where id 10 occurs twice in a bucket of each table. -/
theorem C5_basic_dedup_witness :
    exBasic.Query 4 = some [10, 12] ∧ ([10, 12] : List Int).Nodup :=
  ⟨by decide, C5_basic_dedup exBasic 4 [10, 12] (by decide)⟩

/-- C6. Monotonic relaxation of `prefixTree.lookup`: for every tree (in particular every
tree built by inserts), every table key and all integers `levelA >= levelB`, every id
occurs in `lookup(levelB, key)` at least as often as in `lookup(levelA, key)`. -/
theorem C6_lookup_monotone (tree : prefixTree) (key : hashTableKey) (levelA levelB : Int)
    (h : levelB ≤ levelA) (x : Int) :
    List.count x (tree.lookup levelA key) ≤ List.count x (tree.lookup levelB key) := by
  have hd : prefixTree.depthUsed levelB key ≤ prefixTree.depthUsed levelA key := by
    simp only [prefixTree.depthUsed]
    omega
  obtain ⟨s, hs⟩ := List.take_prefix_take_left key hd
  have hsub := treeNode.idsAt_append_subperm tree.root
    (key.take (prefixTree.depthUsed levelB key)) s
  rw [hs] at hsub
  rw [(prefixTree.lookup_perm_idsAt tree levelA key).count_eq,
    (prefixTree.lookup_perm_idsAt tree levelB key).count_eq]
  exact hsub.count_le x

/-- C6 at the example tree for the levels 2 and 1. -/
theorem C6_lookup_monotone_witness :
    (1 : Int) ≤ 2 ∧
      List.count 10 (exTree0.lookup 2 [4, 0]) ≤ List.count 10 (exTree0.lookup 1 [4, 0]) :=
  ⟨by decide, C6_lookup_monotone exTree0 [4, 0] 2 1 (by decide) 10⟩

/-- C7. Count invariant: in a prefix tree built from the fresh tree by `insertIntoTree`
calls whose keys all have the same length `m >= 1`, `count` equals the number of distinct
full table keys inserted, and a further `insertIntoTree(id, key)` with a key of length `m`
increases `count` by exactly 1 if that key was never inserted before and leaves it
unchanged if it was, whatever the id. -/
theorem C7_count_invariant (m : Nat) (hm : 1 ≤ m) (log : List (Int × hashTableKey))
    (hlog : ∀ e ∈ log, e.2.length = m) :
    ∃ tree, prefixTree.empty.insertMany log = some tree ∧
      tree.count = (((log.map Prod.snd).toFinset.card : Nat) : Int) ∧
      ∀ (id : Int) (key : hashTableKey), key.length = m →
        ∃ tree', tree.insertIntoTree id key = some tree' ∧
          tree'.count = tree.count + (if key ∈ log.map Prod.snd then 0 else 1) := by
  have hstart : ∀ key : hashTableKey, key.length = m →
      ((prefixTree.empty.root.walk key).isSome ↔ key ∈ ([] : List hashTableKey)) := by
    intro key hk
    cases key with
    | nil => simp at hk; omega
    | cons a t => simp [prefixTree.empty, treeNode.walk_fresh_cons]
  obtain ⟨tree, h, hp, hc, hmade⟩ := prefixTree.insertMany_count m prefixTree.empty [] log
    hstart (by simp [prefixTree.empty]) (treeNode.made_fresh 0) hlog
  simp only [List.nil_append] at hp hc
  refine ⟨tree, h, hc, fun id key hk => ?_⟩
  obtain ⟨t1, h1, -⟩ := prefixTree.insertIntoTree_made tree id key hmade
  refine ⟨t1, h1, ?_⟩
  rw [(prefixTree.insertIntoTree_count_walk h1).1]
  by_cases hmem : key ∈ log.map Prod.snd
  · simp [hmem, (hp key hk).2 hmem]
  · have : ¬ (tree.root.walk key).isSome = true := fun h => hmem ((hp key hk).1 h)
    simp [hmem, this]

/-- C7 at the example insertions, whose keys have length 2. -/
theorem C7_count_invariant_witness :
    1 ≤ 2 ∧ (∀ e ∈ exLog, e.2.length = 2) ∧
      ∃ tree, prefixTree.empty.insertMany exLog = some tree ∧
        tree.count = (((exLog.map Prod.snd).toFinset.card : Nat) : Int) ∧
        ∀ (id : Int) (key : hashTableKey), key.length = 2 →
          ∃ tree', tree.insertIntoTree id key = some tree' ∧
            tree'.count = tree.count + (if key ∈ exLog.map Prod.snd then 0 else 1) :=
  ⟨by decide, by decide, C7_count_invariant 2 (by decide) exLog (by decide)⟩

/-- C8. Lower bound of `QueryKnn`: in a forest built by inserts (hash function returning `l`
keys per point, `m >= 0`), for every query point and every integer `k`, `QueryKnn(q, k)`
returns and emits at least `min(k, N)` distinct ids, where `N` is the number of distinct
ids stored anywhere in the forest. -/
theorem C8_queryKnn_lower_bound {Point : Type} (params : lshParams Point) (hm : 0 ≤ params.m)
    (hlen : ∀ p, (params.hash p).length = params.l) (ins : List (Point × Int))
    (q : Point) (k : Int) :
    ∃ index out, (NewLshForest params).insertAll ins = some index ∧
      index.QueryKnn q k = some out ∧
      min k (index.storedIds.toFinset.card : Int) ≤ (out.toFinset.card : Int) := by
  obtain ⟨index, hins, hpar, hlen', -⟩ :=
    LshForest.built_spec params ins (fun e _ => (hlen e.1).ge)
  obtain ⟨out, hq, -, hb⟩ := LshForest.QueryKnn_lower_bound index q k (by rw [hpar]; exact hm)
    (by rw [hpar, hlen', hlen q])
  exact ⟨index, out, hins, hq, hb⟩

/-- C8 at the example data for the query point 7 and `k = 2`. -/
theorem C8_queryKnn_lower_bound_witness :
    0 ≤ exParams.m ∧ (∀ p, (exParams.hash p).length = exParams.l) ∧
      ∃ index out, (NewLshForest exParams).insertAll exInserts = some index ∧
        index.QueryKnn 7 2 = some out ∧
        min 2 (index.storedIds.toFinset.card : Int) ≤ (out.toFinset.card : Int) :=
  ⟨by decide, fun _ => rfl,
    C8_queryKnn_lower_bound exParams (by decide) (fun _ => rfl) exInserts 7 2⟩

/-- C9. Prefix-match characterisation of `prefixTree.lookup`: in a tree built from the
fresh tree by inserts of pairs `(id_i, key_i)` (in particular with all keys of length `m`),
for every query key of length `m` and every integer `maxLevel`, the list returned by
`lookup(maxLevel, key)` is, as a multiset, the list of those `id_i` whose `key_i` agrees
with `key` on the first `min(max(maxLevel, 0), m)` components; in particular it is empty
when no inserted key shares that prefix and is all ids when `maxLevel <= 0`. -/
theorem C9_lookup_prefix_match (m : Nat) (log : List (Int × hashTableKey))
    (key : hashTableKey) (hkey : key.length = m) (maxLevel : Int) :
    ∃ tree, prefixTree.empty.insertMany log = some tree ∧
      (tree.lookup maxLevel key).Perm
        ((log.filter (fun e => decide (e.2.take (min (max maxLevel 0).toNat m) =
          key.take (min (max maxLevel 0).toNat m)))).map Prod.fst) ∧
      ((∀ e ∈ log, e.2.take (min (max maxLevel 0).toNat m) ≠
          key.take (min (max maxLevel 0).toNat m)) → tree.lookup maxLevel key = []) ∧
      (maxLevel ≤ 0 → (tree.lookup maxLevel key).Perm (log.map Prod.fst)) := by
  obtain ⟨tree, h, -⟩ := prefixTree.insertMany_made prefixTree.empty log (treeNode.made_fresh 0)
  have hd : prefixTree.depthUsed maxLevel key = min (max maxLevel 0).toNat m := by
    have : (max maxLevel 0).toNat = maxLevel.toNat := by omega
    rw [prefixTree.depthUsed, hkey, this]
  have hmain : (tree.lookup maxLevel key).Perm
      ((log.filter (fun e => decide (e.2.take (min (max maxLevel 0).toNat m) =
        key.take (min (max maxLevel 0).toNat m)))).map Prod.fst) := by
    have hperm := prefixTree.lookup_perm_built h maxLevel key
    rw [hd] at hperm
    refine hperm.trans (List.Perm.of_eq ?_)
    unfold prefixTree.idsUnder
    congr 1
    apply List.filter_congr
    intro e he
    have hlen : (key.take (min (max maxLevel 0).toNat m)).length =
        min (max maxLevel 0).toNat m := by
      rw [List.length_take, hkey]
      omega
    rw [decide_eq_decide, List.prefix_iff_eq_take, hlen]
    exact eq_comm
  refine ⟨tree, h, hmain, ?_, ?_⟩
  · intro hno
    have hnil : (log.filter (fun e => decide (e.2.take (min (max maxLevel 0).toNat m) =
        key.take (min (max maxLevel 0).toNat m)))) = [] := by
      rw [List.filter_eq_nil_iff]
      intro e he
      simpa using hno e he
    rw [hnil] at hmain
    simpa using hmain
  · intro hle
    have hz : min (max maxLevel 0).toNat m = 0 := by omega
    simpa [hz] using hmain

/-- C9 at the example insertions for the query key `[4, 1]` and `maxLevel = 1`. -/
theorem C9_lookup_prefix_match_witness :
    ([4, 1] : hashTableKey).length = 2 ∧
      ∃ tree, prefixTree.empty.insertMany exLog = some tree ∧
        (tree.lookup 1 [4, 1]).Perm
          ((exLog.filter (fun e => decide (e.2.take (min (max (1 : Int) 0).toNat 2) =
            ([4, 1] : hashTableKey).take (min (max (1 : Int) 0).toNat 2)))).map Prod.fst) ∧
        ((∀ e ∈ exLog, e.2.take (min (max (1 : Int) 0).toNat 2) ≠
            ([4, 1] : hashTableKey).take (min (max (1 : Int) 0).toNat 2)) →
          tree.lookup 1 [4, 1] = []) ∧
        ((1 : Int) ≤ 0 → (tree.lookup 1 [4, 1]).Perm (exLog.map Prod.fst)) :=
  ⟨rfl, C9_lookup_prefix_match 2 exLog [4, 1] rfl 1⟩

/-- C10. Trie shape invariant: in every tree of a forest obtained from `NewLshForest` by
`Insert` calls whose points get `l` table keys, all of length `m`, no node lies at depth
greater than `m`, every node at depth less than `m` has an empty id list, and every node
with a non-empty id list is at depth exactly `m`. -/
theorem C10_trie_shape {Point : Type} (params : lshParams Point) (m : Nat)
    (ins : List (Point × Int)) (hlen : ∀ e ∈ ins, (params.hash e.1).length = params.l)
    (hkeys : ∀ e ∈ ins, ∀ key ∈ params.hash e.1, key.length = m) :
    ∃ index, (NewLshForest params).insertAll ins = some index ∧
      ∀ tree ∈ index.trees, ∀ (d : Nat) (n : treeNode), treeNode.atDepth tree.root d n →
        d ≤ m ∧ (d < m → n.indices = []) ∧ (n.indices ≠ [] → d = m) := by
  obtain ⟨index, hins, -, hlen', htrees⟩ :=
    LshForest.built_spec params ins (fun e he => (hlen e he).ge)
  refine ⟨index, hins, fun tree htree d n hn => ?_⟩
  obtain ⟨i, hi⟩ := List.mem_iff_getElem?.1 htree
  have hi' : i < params.l := by
    rcases List.getElem?_eq_some.1 hi with ⟨h, -⟩
    omega
  obtain ⟨t, ht, hbuilt⟩ := htrees i hi'
  rw [hi] at ht
  simp only [Option.some.injEq] at ht
  subst ht
  have hlog : ∀ e ∈ logAt params.hash i ins, e.2.length = m := by
    intro e he
    simp only [logAt, List.mem_map] at he
    obtain ⟨⟨p, id⟩, hmem, rfl⟩ := he
    have hlt : i < (params.hash p).length := by rw [hlen (p, id) hmem]; exact hi'
    simp only [List.getElem?_eq_getElem hlt, Option.getD_some]
    exact hkeys (p, id) hmem _ (List.getElem_mem _)
  have hshape := prefixTree.insertMany_shape hbuilt hlog
    (by simpa [prefixTree.empty] using treeNode.shapeWithin_fresh 0 m)
  obtain ⟨h1, h2⟩ := hshape d n hn
  refine ⟨h1, h2, fun hne => ?_⟩
  by_contra hdm
  exact hne (h2 (by omega))

/-- C10 at the example data, whose keys have length 2. -/
theorem C10_trie_shape_witness :
    (∀ e ∈ exInserts, (exParams.hash e.1).length = exParams.l) ∧
      (∀ e ∈ exInserts, ∀ key ∈ exParams.hash e.1, key.length = 2) ∧
      ∃ index, (NewLshForest exParams).insertAll exInserts = some index ∧
        ∀ tree ∈ index.trees, ∀ (d : Nat) (n : treeNode), treeNode.atDepth tree.root d n →
          d ≤ 2 ∧ (d < 2 → n.indices = []) ∧ (n.indices ≠ [] → d = 2) :=
  have hkeys : ∀ e ∈ exInserts, ∀ key ∈ exParams.hash e.1, key.length = 2 := by
    intro e _ key hkey
    simp only [exParams, exHash, List.mem_cons, List.mem_singleton, List.not_mem_nil,
      or_false] at hkey
    rcases hkey with h | h <;> rw [h] <;> rfl
  ⟨fun _ _ => rfl, hkeys, C10_trie_shape exParams 2 exInserts (fun _ _ => rfl) hkeys⟩

/-- C11. Flat-index bucket keys are faithful: on table keys of 64-bit signed integers the
string built from the `%.16x` renderings is injective, and for two lists of `l` such table
keys `toBasicHashTableKeys` returns bucket keys that are equal in a group if and only if
the table keys of that group are equal. -/
theorem C11_bucket_keys_faithful {Point : Type} (index : BasicLsh Point)
    (k₁ k₂ : hashTableKey) (h₁ : ∀ v ∈ k₁, isInt64 v) (h₂ : ∀ v ∈ k₂, isInt64 v)
    (keysP keysQ : List hashTableKey) (hP : keysP.length = index.params.l)
    (hQ : keysQ.length = index.params.l) (h64P : ∀ key ∈ keysP, ∀ v ∈ key, isInt64 v)
    (h64Q : ∀ key ∈ keysQ, ∀ v ∈ key, isInt64 v) :
    (renderKey k₁ = renderKey k₂ ↔ k₁ = k₂) ∧
      ∃ hvsP hvsQ, index.toBasicHashTableKeys keysP = some hvsP ∧
        index.toBasicHashTableKeys keysQ = some hvsQ ∧
        ∀ i, i < index.params.l → (hvsP[i]? = hvsQ[i]? ↔ keysP[i]? = keysQ[i]?) := by
  refine ⟨⟨fun h => renderKey_injective k₁ k₂ h₁ h₂ h, fun h => by rw [h]⟩,
    keysP.map renderKey, keysQ.map renderKey, index.toBasicHashTableKeys_eq keysP hP,
    index.toBasicHashTableKeys_eq keysQ hQ, fun i hi => ?_⟩
  have hiP : i < keysP.length := by omega
  have hiQ : i < keysQ.length := by omega
  simp only [List.getElem?_map, List.getElem?_eq_getElem hiP, List.getElem?_eq_getElem hiQ,
    Option.map_some', Option.some.injEq]
  exact ⟨fun h => renderKey_injective _ _ (h64P _ (List.getElem_mem _))
    (h64Q _ (List.getElem_mem _)) h, fun h => by rw [h]⟩

/-- C11 at two table keys with negative components and at the keys of the points 4
and 5. -/
theorem C11_bucket_keys_faithful_witness :
    (renderKey [1, -1] = renderKey [-1, 1] ↔ ([1, -1] : hashTableKey) = [-1, 1]) ∧
      ∃ hvsP hvsQ, exBasic.toBasicHashTableKeys (exHash 4) = some hvsP ∧
        exBasic.toBasicHashTableKeys (exHash 5) = some hvsQ ∧
        ∀ i, i < exBasic.params.l → (hvsP[i]? = hvsQ[i]? ↔ (exHash 4)[i]? = (exHash 5)[i]?) :=
  C11_bucket_keys_faithful exBasic [1, -1] [-1, 1] (by decide) (by decide) (exHash 4) (exHash 5)
    rfl rfl (by decide) (by decide)

/-- C12. Exactness of `BasicLsh.Query`: after any sequence of `Insert` calls on a fresh
`BasicLsh` (hash function returning `l` table keys of 64-bit integers per point), `Query(q)`
returns, and the ids it emits are exactly the inserted ids whose point shares the table
key of `q` in some group. -/
theorem C12_basic_query_exact {Point : Type} (params : lshParams Point)
    (hlen : ∀ p, (params.hash p).length = params.l)
    (h64 : ∀ p, ∀ key ∈ params.hash p, ∀ v ∈ key, isInt64 v) (ins : List (Point × Int))
    (q : Point) :
    ∃ index out, (NewBasicLsh params).insertAll ins = some index ∧
      index.Query q = some out ∧
      ∀ x, x ∈ out ↔ ∃ e ∈ ins, e.2 = x ∧
        ∃ i, i < params.l ∧ (params.hash e.1)[i]? = (params.hash q)[i]? := by
  obtain ⟨index, hins, hpar, hlt, hbuckets⟩ :=
    BasicLsh.insertAll_buckets (NewBasicLsh params) ins (by simp [NewBasicLsh]) hlen
  have hpar' : index.params = params := hpar
  have hlt' : index.tables.length = params.l := hlt
  have hhvs := index.toBasicHashTableKeys_eq (index.params.hash q) (by rw [hpar', hlen q])
  rw [hpar'] at hhvs
  obtain ⟨out, hq, -, hout⟩ := queryTables_spec index.tables ((params.hash q).map renderKey)
    ([], []) emitInv_start (by simp [hlt', hlen q])
  have hbucket : ∀ i, i < params.l → ∃ t', index.tables[i]? = some t' ∧
      ∀ s : basicHashTableKey, (mapGet t' s).getD [] =
        (ins.filter (fun e => decide (renderKey ((params.hash e.1)[i]?.getD []) = s))).map
          Prod.snd := by
    intro i hi
    obtain ⟨t', ht', hb⟩ := hbuckets i [] (by simp [NewBasicLsh, hi])
    exact ⟨t', ht', fun s => by simpa [mapGet] using hb s⟩
  refine ⟨index, out, hins, by simp only [BasicLsh.Query, hpar', hhvs, hq], fun x => ?_⟩
  rw [hout x]
  simp only [List.not_mem_nil, false_or]
  constructor
  · rintro ⟨⟨tb, hv⟩, hz, bkt, hbkt, hx⟩
    obtain ⟨i, hi1, hi2⟩ := mem_zip_iff_getElem?.1 hz
    have hi : i < params.l := by
      rw [← hlt']
      exact (List.getElem?_eq_some.1 hi1).1
    have hiq : i < (params.hash q).length := by rw [hlen q]; exact hi
    obtain ⟨t', ht', hb⟩ := hbucket i hi
    rw [hi1] at ht'
    simp only [Option.some.injEq] at ht'
    subst ht'
    simp only [List.getElem?_map, List.getElem?_eq_getElem hiq, Option.map_some',
      Option.some.injEq] at hi2
    have hmem : x ∈ (mapGet tb hv).getD [] := by simp [hbkt, hx]
    rw [hb hv] at hmem
    simp only [List.mem_map, List.mem_filter, decide_eq_true_eq] at hmem
    obtain ⟨e, ⟨he, hkey⟩, hex⟩ := hmem
    have hie : i < (params.hash e.1).length := by rw [hlen e.1]; exact hi
    refine ⟨e, he, hex, i, hi, ?_⟩
    rw [List.getElem?_eq_getElem hie, List.getElem?_eq_getElem hiq]
    simp only [List.getElem?_eq_getElem hie, Option.getD_some, ← hi2] at hkey
    rw [renderKey_injective _ _ (h64 e.1 _ (List.getElem_mem _))
      (h64 q _ (List.getElem_mem _)) hkey]
  · rintro ⟨e, he, hex, i, hi, hkey⟩
    have hiq : i < (params.hash q).length := by rw [hlen q]; exact hi
    have hie : i < (params.hash e.1).length := by rw [hlen e.1]; exact hi
    obtain ⟨t', ht', hb⟩ := hbucket i hi
    have hmem : x ∈ (mapGet t' (renderKey (params.hash q)[i])).getD [] := by
      rw [hb]
      simp only [List.mem_map, List.mem_filter, decide_eq_true_eq]
      refine ⟨e, ⟨he, ?_⟩, hex⟩
      rw [hkey, List.getElem?_eq_getElem hiq]
      rfl
    cases hg : mapGet t' (renderKey (params.hash q)[i]) with
    | none => simp [hg] at hmem
    | some bkt =>
      refine ⟨(t', renderKey (params.hash q)[i]), mem_zip_iff_getElem?.2 ⟨i, ht', ?_⟩, bkt, hg,
        by simpa [hg] using hmem⟩
      simp [List.getElem?_eq_getElem hiq]

/-- C12 at the example insertions on eight points for the query point 5. -/
theorem C12_basic_query_exact_witness :
    ∃ index out, (NewBasicLsh exParamsFin).insertAll exInsertsFin = some index ∧
      index.Query 5 = some out ∧
      ∀ x, x ∈ out ↔ ∃ e ∈ exInsertsFin, e.2 = x ∧
        ∃ i, i < exParamsFin.l ∧ (exParamsFin.hash e.1)[i]? = (exParamsFin.hash 5)[i]? :=
  C12_basic_query_exact exParamsFin exHashFin_length exHashFin_int64 exInsertsFin 5

/-- C13. The doc comment of `QueryKnn` promises the top-k, but the code emits every
candidate of the first level that has at least `k` of them: after `Insert(4, 10)` and
`Insert(4, 12)` on a fresh forest, `QueryKnn(4, 1)` emits the two ids 10 and 12. -/
theorem C13_queryKnn_exceeds_k :
    ((NewLshForest exParams).insertAll [(4, 10), (4, 12)]).bind
        (fun index => index.QueryKnn 4 1) = some [10, 12] ∧
      ¬ (([10, 12] : List Int).length ≤ 1) := by
  decide

/-- C14. Whole-index teardown: after `Delete()` on a forest built by inserts (hash function
returning `l` keys per point), the root of every tree has no ids and no children, `lookup`
returns the empty list at every level and key, and `Query(q)` and `QueryKnn(q, k)` return
and emit no id for every `q` and `k`. -/
theorem C14_delete_teardown {Point : Type} (params : lshParams Point)
    (hlen : ∀ p, (params.hash p).length = params.l) (ins : List (Point × Int)) :
    ∃ index, (NewLshForest params).insertAll ins = some index ∧
      (∀ tree ∈ index.Delete.trees, tree.root.indices = [] ∧ tree.root.childList = [] ∧
        ∀ (maxLevel : Int) (key : hashTableKey), tree.lookup maxLevel key = []) ∧
      ∀ (q : Point) (k : Int),
        index.Delete.Query q = some [] ∧ index.Delete.QueryKnn q k = some [] := by
  obtain ⟨index, hins, hpar, hlen', -⟩ :=
    LshForest.built_spec params ins (fun e _ => (hlen e.1).ge)
  have hbare : ∀ tree ∈ index.Delete.trees, tree.root.indices = [] ∧
      tree.root.childList = [] ∧
      ∀ (maxLevel : Int) (key : hashTableKey), tree.lookup maxLevel key = [] := by
    intro tree ht
    obtain ⟨hi, hc⟩ := (LshForest.Delete_trees index).2.2 tree ht
    have hc' : tree.root.childList = [] := by simp [treeNode.childList, hc]
    exact ⟨hi, hc', fun maxLevel key => prefixTree.lookup_of_bare tree hi hc' maxLevel key⟩
  refine ⟨index, hins, hbare, fun q k => ?_⟩
  refine (LshForest.queries_of_empty_lookups index.Delete
    (fun t ht maxLevel key => (hbare t ht).2.2 maxLevel key) q k).2.2 ?_
  rw [(LshForest.Delete_trees index).1, hlen']
  show params.l ≤ (index.params.hash q).length
  rw [hpar]
  exact (hlen q).ge

/-- C14 at the example insertions. -/
theorem C14_delete_teardown_witness :
    ∃ index, (NewLshForest exParams).insertAll exInserts = some index ∧
      (∀ tree ∈ index.Delete.trees, tree.root.indices = [] ∧ tree.root.childList = [] ∧
        ∀ (maxLevel : Int) (key : hashTableKey), tree.lookup maxLevel key = []) ∧
      ∀ (q : Int) (k : Int),
        index.Delete.Query q = some [] ∧ index.Delete.QueryKnn q k = some [] :=
  C14_delete_teardown exParams (fun _ => rfl) exInserts

/-- C15. Fresh index: `NewBasicLsh` creates exactly `l` hash tables, each empty, and
`NewLshForest` creates exactly `l` trees, each with count 0 and a root with no ids and an
empty children map, for every `l >= 0`; `Query` on a freshly constructed index emits no
id, and it returns when the hash function gives `l` keys for the query point. -/
theorem C15_fresh_index {Point : Type} (params : lshParams Point) (q : Point) :
    ((NewBasicLsh params).tables.length = params.l ∧
        ∀ table ∈ (NewBasicLsh params).tables, table = []) ∧
      ((NewLshForest params).trees.length = params.l ∧
        ∀ tree ∈ (NewLshForest params).trees,
          tree.count = 0 ∧ tree.root.indices = [] ∧ tree.root.children = some []) ∧
      (∀ out, (NewBasicLsh params).Query q = some out → out = []) ∧
      (∀ out, (NewLshForest params).Query q = some out → out = []) ∧
      ((params.hash q).length = params.l →
        (NewBasicLsh params).Query q = some [] ∧ (NewLshForest params).Query q = some []) := by
  have hfresh : ∀ tree ∈ (NewLshForest params).trees,
      tree.count = 0 ∧ tree.root.indices = [] ∧ tree.root.children = some [] := by
    intro tree ht
    simp only [NewLshForest, List.mem_replicate] at ht
    rw [ht.2]
    exact ⟨rfl, rfl, rfl⟩
  have hlook : ∀ t ∈ (NewLshForest params).trees, ∀ (maxLevel : Int) (key : hashTableKey),
      t.lookup maxLevel key = [] := by
    intro t ht maxLevel key
    obtain ⟨-, hi, hc⟩ := hfresh t ht
    exact prefixTree.lookup_of_bare t hi (by simp [treeNode.childList, hc]) maxLevel key
  have hforest := LshForest.queries_of_empty_lookups (NewLshForest params) hlook q 0
  have hbasic : ∀ (hvs : List basicHashTableKey) (n : Nat) (st : List Int × List Int),
      (∀ out, queryTables (List.replicate n []) hvs st = some out → out = st.2) ∧
      (n ≤ hvs.length → queryTables (List.replicate n []) hvs st = some st.2) := by
    intro hvs n
    induction n generalizing hvs with
    | zero => intro st; simp [queryTables]
    | succ n ih =>
      intro st
      cases hvs with
      | nil => simp [List.replicate_succ, queryTables]
      | cons hv hvs =>
        simp only [List.replicate_succ, queryTables, mapGet, List.length_cons,
          Nat.add_le_add_iff_right]
        exact ih hvs st
  refine ⟨⟨by simp [NewBasicLsh], fun table ht => ?_⟩, ⟨by simp [NewLshForest], hfresh⟩,
    fun out h => ?_, hforest.1, fun hq => ⟨?_, ?_⟩⟩
  · simp only [NewBasicLsh, List.mem_replicate] at ht
    exact ht.2
  · unfold BasicLsh.Query at h
    cases hh : (NewBasicLsh params).toBasicHashTableKeys ((NewBasicLsh params).params.hash q) with
    | none => simp [hh] at h
    | some hvs =>
      simp only [hh] at h
      exact (hbasic hvs params.l ([], [])).1 out h
  · obtain ⟨hvs, hh, hvl⟩ := (NewBasicLsh params).toBasicHashTableKeys_length
      ((NewBasicLsh params).params.hash q) (le_of_eq hq)
    simp only [BasicLsh.Query, hh]
    exact (hbasic hvs params.l ([], [])).2 (le_of_eq hvl.symm)
  · exact (hforest.2.2 (by simp [NewLshForest, hq])).1

/-- C15 at the example parameters for the query point 4. -/
theorem C15_fresh_index_witness :
    (NewBasicLsh exParams).tables.length = 2 ∧ (NewLshForest exParams).trees.length = 2 ∧
      (NewBasicLsh exParams).Query 4 = some [] ∧ (NewLshForest exParams).Query 4 = some [] :=
  ⟨(C15_fresh_index exParams 4).1.1, (C15_fresh_index exParams 4).2.1.1,
    ((C15_fresh_index exParams 4).2.2.2.2 rfl).1, ((C15_fresh_index exParams 4).2.2.2.2 rfl).2⟩

/-- C16. Adaptive-depth selection in `QueryKnn`: in a forest with `m >= 0` (and a key for
every tree), the ids emitted by `QueryKnn(q, k)` are exactly `queryHelper(L, hash(q))` for
a level `L` in `0..m` such that the candidates at `L` number at least `k` or `L = 0`, and
such that at every level `L'` with `L < L' <= m` the candidates number fewer than `k`:
`L` is the largest level with at least `k` candidates, or 0 if no level has. -/
theorem C16_queryKnn_adaptive_depth {Point : Type} (index : LshForest Point) (q : Point)
    (k : Int) (hm : 0 ≤ index.params.m)
    (hlen : index.trees.length ≤ (index.params.hash q).length) :
    ∃ (out : List Int) (L : Nat), index.QueryKnn q k = some out ∧
      (L : Int) ≤ index.params.m ∧
      index.queryHelper (L : Int) (index.params.hash q) = some out ∧
      (k ≤ (out.length : Int) ∨ L = 0) ∧
      ∀ L' : Nat, L < L' → (L' : Int) ≤ index.params.m →
        ∃ c, index.queryHelper (L' : Int) (index.params.hash q) = some c ∧
          (c.length : Int) < k := by
  obtain ⟨out, L, h, hL, hq, hor, hrest⟩ :=
    LshForest.knnLoop_spec index k (index.params.hash q) hlen index.params.m.toNat
  refine ⟨out, L, by simp only [LshForest.QueryKnn, not_lt.2 hm, if_false, h], by omega, hq,
    hor, fun L' h1 h2 => ?_⟩
  obtain ⟨c, hc, -, -⟩ := LshForest.queryHelper_spec index (L' : Int) (index.params.hash q) hlen
  exact ⟨c, hc, hrest L' h1 (by omega) c hc⟩

/-- C16 at the example forest for the query point 4 and `k = 3`. -/
theorem C16_queryKnn_adaptive_depth_witness :
    ∃ (out : List Int) (L : Nat), exForest.QueryKnn 4 3 = some out ∧
      (L : Int) ≤ exForest.params.m ∧
      exForest.queryHelper (L : Int) (exForest.params.hash 4) = some out ∧
      ((3 : Int) ≤ (out.length : Int) ∨ L = 0) ∧
      ∀ L' : Nat, L < L' → (L' : Int) ≤ exForest.params.m →
        ∃ c, exForest.queryHelper (L' : Int) (exForest.params.hash 4) = some c ∧
          (c.length : Int) < 3 :=
  C16_queryKnn_adaptive_depth exForest 4 3 (by decide) (by decide)

/-- C17. Group independence of `Insert`, on memory in which the tables are reached through
map references and the tree nodes through pointers. In the memory built by `NewBasicLsh`
resp. `NewLshForest` and any sequence of `Insert` calls, and after any goroutines of the
current `Insert` call have already run, the goroutine of group `i` changes only table/tree
`i` as read through the slots: the id is appended to the bucket of that group's key resp.
stored below every prefix of that group's key (the count growing when the key is new), and
every other table/tree reads as before. Hence the goroutines commute: two orders of the
same groups end in memories that read the same, and every order of all `l` groups reads as
the result of `Insert`, which is the left-to-right update. -/
theorem C17_group_independence {Point : Type} (params : lshParams Point)
    (hlen : ∀ p, (params.hash p).length = params.l)
    (ins : List (Point × Int)) (p : Point) (id : Int) :
    ∃ (fmem : flatMem) (tmem : forestMem) (flat : BasicLsh Point) (forest : LshForest Point),
      ((newFlatMem params.l).insertAll params ins = some fmem ∧
        (NewBasicLsh params).insertAll ins = some flat ∧ fmem.read = some flat.tables ∧
        flat.toBasicHashTableKeys (params.hash p) = some ((params.hash p).map renderKey)) ∧
      ((newForestMem params.l).insertAll params ins = some tmem ∧
        (NewLshForest params).insertAll ins = some forest ∧
        tmem.read = some forest.trees) ∧
      (∀ (done : List Nat) (i : Nat), (∀ j ∈ done, j < params.l) → i < params.l →
        ∃ (m₁ m₂ : flatMem) (ts₁ ts₂ : List hashTable) (t₁ t₂ : hashTable)
          (hv : basicHashTableKey),
          runSteps (tableGroupRef id ((params.hash p).map renderKey)) done fmem = some m₁ ∧
          m₁.read = some ts₁ ∧
          tableGroupRef id ((params.hash p).map renderKey) i m₁ = some m₂ ∧
          m₂.read = some ts₂ ∧
          ts₂.length = ts₁.length ∧ (∀ j, j ≠ i → ts₂[j]? = ts₁[j]?) ∧
          ts₁[i]? = some t₁ ∧ ts₂[i]? = some t₂ ∧
          ((params.hash p).map renderKey)[i]? = some hv ∧
          ∀ s : basicHashTableKey,
            (mapGet t₂ s).getD [] = (mapGet t₁ s).getD [] ++ if s = hv then [id] else []) ∧
      (∀ (done : List Nat) (i : Nat), (∀ j ∈ done, j < params.l) → i < params.l →
        ∃ (m₁ m₂ : forestMem) (ts₁ ts₂ : List prefixTree) (t₁ t₂ : prefixTree)
          (hv : hashTableKey),
          runSteps (treeGroupRef id (params.hash p)) done tmem = some m₁ ∧
          m₁.read = some ts₁ ∧
          treeGroupRef id (params.hash p) i m₁ = some m₂ ∧ m₂.read = some ts₂ ∧
          ts₂.length = ts₁.length ∧ (∀ j, j ≠ i → ts₂[j]? = ts₁[j]?) ∧
          ts₁[i]? = some t₁ ∧ ts₂[i]? = some t₂ ∧ (params.hash p)[i]? = some hv ∧
          (∀ path : List Int, (t₂.root.idsAt path).Perm
            (t₁.root.idsAt path ++ if path <+: hv then [id] else [])) ∧
          t₂.count = t₁.count + (if (t₁.root.walk hv).isSome then 0 else 1)) ∧
      (∀ order₁ order₂ : List Nat, order₁.Perm order₂ →
        (∀ j ∈ order₁, j < params.l) →
        ∃ (f₁ f₂ : flatMem) (t₁ t₂ : forestMem) (tables : List hashTable)
          (trees : List prefixTree),
          runSteps (tableGroupRef id ((params.hash p).map renderKey)) order₁ fmem = some f₁ ∧
          runSteps (tableGroupRef id ((params.hash p).map renderKey)) order₂ fmem = some f₂ ∧
          f₁.read = some tables ∧ f₂.read = some tables ∧
          runSteps (treeGroupRef id (params.hash p)) order₁ tmem = some t₁ ∧
          runSteps (treeGroupRef id (params.hash p)) order₂ tmem = some t₂ ∧
          t₁.read = some trees ∧ t₂.read = some trees) ∧
      ∃ (flat' : BasicLsh Point) (forest' : LshForest Point) (f : flatMem) (t : forestMem),
        flat.Insert p id = some flat' ∧ forest.Insert p id = some forest' ∧
        fmem.Insert params p id = some f ∧ tmem.Insert params p id = some t ∧
        runSteps (tableGroupRef id ((params.hash p).map renderKey)) (List.range params.l)
          fmem = some f ∧
        runSteps (treeGroupRef id (params.hash p)) (List.range params.l) tmem = some t ∧
        f.read = some flat'.tables ∧ t.read = some forest'.trees := by
  -- the flat index, as values and in memory
  obtain ⟨flat, hfi, hfp, hfl, -, -⟩ :=
    BasicLsh.insertAll_holds (NewBasicLsh params) ins (by simp [NewBasicLsh]) hlen
  change flat.params = params at hfp
  change flat.tables.length = params.l at hfl
  obtain ⟨fmem, hfm, hfs, hfr, -⟩ := flatMem_insertAll_spec params ins (newFlatMem params.l)
    (NewBasicLsh params) flat (newFlatMem_spec params.l).1 (newFlatMem_spec params.l).2 rfl hfi
  have hkeys : flat.toBasicHashTableKeys (params.hash p) =
      some ((params.hash p).map renderKey) :=
    BasicLsh.toBasicHashTableKeys_eq flat (params.hash p) (by rw [hfp]; exact hlen p)
  have hkl : flat.tables.length ≤ ((params.hash p).map renderKey).length := by
    rw [List.length_map, hlen p, hfl]
  -- the forest, as values and in memory
  obtain ⟨forest, hti, htp, htl, htrees⟩ :=
    LshForest.built_spec params ins (fun e _ => (hlen e.1).ge)
  have hmade : ∀ t ∈ forest.trees, t.root.made := by
    intro t ht
    obtain ⟨i, hi⟩ := List.mem_iff_getElem?.1 ht
    have hil : i < params.l := by
      rw [← htl]
      exact (List.getElem?_eq_some.1 hi).1
    obtain ⟨t', h1, h2⟩ := htrees i hil
    obtain ⟨t'', h3, h4⟩ := prefixTree.insertMany_made prefixTree.empty
      (logAt params.hash i ins) (treeNode.made_fresh 0)
    rw [hi, Option.some.injEq] at h1
    rw [h2, Option.some.injEq] at h3
    rw [h1, h3]
    exact h4
  obtain ⟨rts₀, hh₀, ht₀⟩ := newForestMem_spec params.l
  obtain ⟨tmem, rts, htm, hth, htt, -⟩ := forestMem_insertAll_spec params ins
    (newForestMem params.l) rts₀ (NewLshForest params) forest hh₀ ht₀ rfl hti
  have htl' : forest.trees.length ≤ (params.hash p).length := by rw [hlen p, htl]
  refine ⟨fmem, tmem, flat, forest,
    ⟨hfm, hfi, hfr, hkeys⟩, ⟨htm, hti, by rw [forestHolds_read hth, htt]⟩, ?_, ?_, ?_, ?_⟩
  · intro done i hdone hi
    obtain ⟨ts₁, h1, h2⟩ := runGroups_tableStep_isSome id ((params.hash p).map renderKey) done
      flat.tables hkl (fun j hj => by rw [hfl]; exact hdone j hj)
    obtain ⟨m₁, h3, h4, -, h6⟩ := tableGroupRef_runSteps id _ done fmem _ ts₁ hfs hfr h1
    obtain ⟨m₂, ts₂, t₁, t₂, hv, h7⟩ := tableGroupRef_frame id
      ((params.hash p).map renderKey) i m₁ ts₁ h4 h6 (by rw [h2, hfl]; exact hi)
      (by rw [h2]; exact hkl)
    exact ⟨m₁, m₂, ts₁, ts₂, t₁, t₂, hv, h3, h6, h7⟩
  · intro done i hdone hi
    obtain ⟨ts₁, h1, h2, hm₁⟩ := runGroups_treeStep_made id (params.hash p) done
      forest.trees hmade htl' (fun j hj => by rw [htl]; exact hdone j hj)
    rw [← htt] at h1
    obtain ⟨m₁, rts₁, h3, h4, h5, -⟩ :=
      treeGroupRef_runSteps id _ done tmem rts ts₁ hth h1
    subst h5
    obtain ⟨m₂, ts₂, t₁, t₂, hv, h7⟩ := treeGroupRef_frame id (params.hash p) i m₁ rts₁ h4
      hm₁ (by rw [h2, htl]; exact hi) (by rw [h2]; exact htl')
    exact ⟨m₁, m₂, _, ts₂, t₁, t₂, hv, h3, forestHolds_read h4, h7⟩
  · intro order₁ order₂ hperm ho
    obtain ⟨tables, h1, -⟩ := runGroups_tableStep_isSome id ((params.hash p).map renderKey)
      order₁ flat.tables hkl (fun j hj => by rw [hfl]; exact ho j hj)
    have h1' := h1
    rw [runGroups_perm _ hperm] at h1'
    obtain ⟨f₁, h2, -, -, h3⟩ := tableGroupRef_runSteps id _ order₁ fmem _ tables hfs hfr h1
    obtain ⟨f₂, h4, -, -, h5⟩ :=
      tableGroupRef_runSteps id _ order₂ fmem _ tables hfs hfr h1'
    obtain ⟨trees, h6, -, -⟩ := runGroups_treeStep_made id (params.hash p) order₁
      forest.trees hmade htl' (fun j hj => by rw [htl]; exact ho j hj)
    rw [← htt] at h6
    have h6' := h6
    rw [runGroups_perm _ hperm] at h6'
    obtain ⟨t₁, r₁, h7, h8, h9, -⟩ :=
      treeGroupRef_runSteps id _ order₁ tmem rts trees hth h6
    obtain ⟨t₂, r₂, h10, h11, h12, -⟩ :=
      treeGroupRef_runSteps id _ order₂ tmem rts trees hth h6'
    exact ⟨f₁, f₂, t₁, t₂, tables, trees, h2, h4, h3, h5, h7, h10,
      by rw [forestHolds_read h8, h9], by rw [forestHolds_read h11, h12]⟩
  · obtain ⟨tables', h1, -⟩ := runGroups_tableStep_isSome id ((params.hash p).map renderKey)
      (List.range flat.tables.length) flat.tables hkl (fun j hj => List.mem_range.1 hj)
    have hfI : flat.Insert p id = some ⟨flat.params, tables'⟩ := by
      rw [flat_Insert_eq_runGroups flat p id _ (by rw [hfp]; exact hkeys), h1]
      rfl
    obtain ⟨trees', h2, -, -⟩ := runGroups_treeStep_made id (params.hash p)
      (List.range forest.trees.length) forest.trees hmade htl'
      (fun j hj => List.mem_range.1 hj)
    have htI : forest.Insert p id = some ⟨forest.params, trees'⟩ := by
      rw [forest_Insert_eq_runGroups, htp, h2]
      rfl
    obtain ⟨f, h3, -, h4, -⟩ := flatMem_Insert_spec params fmem flat _ p id hfs hfr hfp hfI
    obtain ⟨t, r, h5, h6, h7, -⟩ :=
      forestMem_Insert_spec params tmem rts forest _ p id hth htt htp htI
    have hfml : fmem.tables.length = params.l := by
      rw [← traverse_length hfr, hfl]
    have html : tmem.trees.length = params.l := by
      rw [← (treesOf_length hth.1).2, htt, htl]
    refine ⟨_, _, f, t, hfI, htI, h3, h5, ?_, ?_, h4, by rw [forestHolds_read h6, h7]⟩
    · rw [← h3, flatMem.Insert]
      rw [BasicLsh.toBasicHashTableKeys, hfp] at hkeys
      simp only [hkeys, hfml]
    · rw [← h5, forestMem.Insert, html]

/-- C17 at the example parameters after the example insertions, for the insertion of point
6 under id 9. -/
theorem C17_group_independence_witness :
    (∀ p : Int, (exParams.hash p).length = exParams.l) ∧
      ∃ (fmem : flatMem) (tmem : forestMem),
        (newFlatMem exParams.l).insertAll exParams exInserts = some fmem ∧
        (newForestMem exParams.l).insertAll exParams exInserts = some tmem ∧
        ∃ (f₁ f₂ : flatMem) (t₁ t₂ : forestMem),
          runSteps (tableGroupRef 9 ((exHash 6).map renderKey)) [1, 0] fmem = some f₁ ∧
          runSteps (tableGroupRef 9 ((exHash 6).map renderKey)) [0, 1] fmem = some f₂ ∧
          f₁.read = f₂.read ∧
          runSteps (treeGroupRef 9 (exHash 6)) [1, 0] tmem = some t₁ ∧
          runSteps (treeGroupRef 9 (exHash 6)) [0, 1] tmem = some t₂ ∧
          t₁.read = t₂.read := by
  have hlen : ∀ p : Int, (exParams.hash p).length = exParams.l := fun _ => rfl
  obtain ⟨fmem, tmem, flat, forest, ⟨h1, -, -, -⟩, ⟨h3, -, -⟩, -, -, h4, -⟩ :=
    C17_group_independence exParams hlen exInserts 6 9
  obtain ⟨f₁, f₂, t₁, t₂, tables, trees, h5, h6, h7, h8, h9, h10, h11, h12⟩ :=
    h4 [1, 0] [0, 1] (List.Perm.swap 0 1 []) (by decide)
  exact ⟨hlen, fmem, tmem, h1, h3, f₁, f₂, t₁, t₂, h5, h6, by rw [h7, h8], h9, h10,
    by rw [h11, h12]⟩

/-- C18. Flat index and forest agree on exact queries: for the same hash function (`l` keys
of length `m >= 0` of 64-bit integers per point) and the same sequence of `Insert` calls on
a fresh `BasicLsh` and a fresh `LshForest`, `BasicLsh.Query(q)` and `LshForest.Query(q)`
return and emit the same ids in the same order, for every query point `q`. -/
theorem C18_flat_and_forest_agree {Point : Type} (params : lshParams Point)
    (hlen : ∀ p, (params.hash p).length = params.l)
    (hkeys : ∀ p, ∀ key ∈ params.hash p, (key.length : Int) = params.m)
    (h64 : ∀ p, ∀ key ∈ params.hash p, ∀ v ∈ key, isInt64 v) (ins : List (Point × Int))
    (q : Point) :
    ∃ flat forest out, (NewBasicLsh params).insertAll ins = some flat ∧
      (NewLshForest params).insertAll ins = some forest ∧
      flat.Query q = some out ∧ forest.Query q = some out := by
  obtain ⟨flat, hfins, hfpar, hflt, hbuckets⟩ :=
    BasicLsh.insertAll_buckets (NewBasicLsh params) ins (by simp [NewBasicLsh]) hlen
  have hfpar' : flat.params = params := hfpar
  have hflt' : flat.tables.length = params.l := hflt
  obtain ⟨forest, hins, hpar, hlen', htrees⟩ :=
    LshForest.built_spec params ins (fun e _ => (hlen e.1).ge)
  have hhvs := flat.toBasicHashTableKeys_eq (flat.params.hash q) (by rw [hfpar', hlen q])
  rw [hfpar'] at hhvs
  obtain ⟨out, hq, -, -⟩ := LshForest.queryHelper_spec forest params.m (params.hash q)
    (by rw [hlen', hlen q])
  refine ⟨flat, forest, out, hfins, hins, ?_, by simpa [LshForest.Query, hpar] using hq⟩
  simp only [BasicLsh.Query, hfpar', hhvs]
  rw [← hq]
  symm
  apply queryTrees_eq_queryTables params.m forest.trees flat.tables (params.hash q) ([], [])
    (by rw [hlen', hflt'])
  intro i t tb key ht htb hkey
  have hi : i < params.l := by
    rw [← hlen']
    exact (List.getElem?_eq_some.1 ht).1
  have hiq : i < (params.hash q).length := by rw [hlen q]; exact hi
  have hkmem : key ∈ params.hash q := List.getElem?_mem hkey
  obtain ⟨t₀, ht₀, hbuilt⟩ := htrees i hi
  rw [ht] at ht₀
  simp only [Option.some.injEq] at ht₀
  subst ht₀
  obtain ⟨tb₀, htb₀, hb⟩ := hbuckets i [] (by simp [NewBasicLsh, hi])
  rw [htb] at htb₀
  simp only [Option.some.injEq] at htb₀
  subst htb₀
  have hlog : ∀ e ∈ logAt params.hash i ins, e.2.length = params.m.toNat := by
    intro e he
    simp only [logAt, List.mem_map] at he
    obtain ⟨⟨p, id⟩, -, rfl⟩ := he
    have hlt : i < (params.hash p).length := by rw [hlen p]; exact hi
    simp only [List.getElem?_eq_getElem hlt, Option.getD_some]
    have := hkeys p _ (List.getElem_mem hlt)
    omega
  have hshape := prefixTree.insertMany_shape hbuilt hlog
    (by simpa [prefixTree.empty] using treeNode.shapeWithin_fresh 0 params.m.toNat)
  have hklen := hkeys q key hkmem
  rw [prefixTree.lookup_full_depth t hshape params.m key (by omega) (by omega),
    prefixTree.insertMany_indicesAt hbuilt key, hb (renderKey key)]
  simp only [prefixTree.empty, treeNode.indicesAt_fresh, List.nil_append, mapGet,
    Option.getD_none, logAt, List.filter_map, List.map_map]
  have hfilter : ins.filter ((fun e : Int × hashTableKey => decide (e.2 = key)) ∘
        fun e : Point × Int => (e.2, (params.hash e.1)[i]?.getD [])) =
      ins.filter (fun e => decide (renderKey ((params.hash e.1)[i]?.getD []) = renderKey key)) := by
    apply List.filter_congr
    intro e _
    have hlt : i < (params.hash e.1).length := by rw [hlen e.1]; exact hi
    simp only [Function.comp_apply, List.getElem?_eq_getElem hlt, Option.getD_some,
      decide_eq_decide]
    exact ⟨fun h => by rw [h], fun h => renderKey_injective _ _
      (h64 e.1 _ (List.getElem_mem hlt)) (h64 q key hkmem) h⟩
  rw [hfilter]
  rfl

/-- C18 at the example insertions on eight points for the query point 4. -/
theorem C18_flat_and_forest_agree_witness :
    ∃ flat forest out, (NewBasicLsh exParamsFin).insertAll exInsertsFin = some flat ∧
      (NewLshForest exParamsFin).insertAll exInsertsFin = some forest ∧
      flat.Query 4 = some out ∧ forest.Query 4 = some out :=
  C18_flat_and_forest_agree exParamsFin exHashFin_length exHashFin_key_length exHashFin_int64
    exInsertsFin 4

/-- C19. No out-of-range access: provided the hash function returns exactly `l` table keys
for every point, `Insert`, `Query` and `QueryKnn` on a `BasicLsh` and an `LshForest` built
by inserts return (no failure at all, hence no index out of bounds), `Query` and
`QueryKnn` also return after `Delete()`, `recursiveAdd` started at level 0 never indexes
the table key out of range on any node, and it returns after exactly `len(tableKey)`
recursive calls, for every table key length. -/
theorem C19_no_out_of_range {Point : Type} (params : lshParams Point)
    (hlen : ∀ p, (params.hash p).length = params.l) (ins : List (Point × Int)) :
    ∃ flat forest, (NewBasicLsh params).insertAll ins = some flat ∧
      (NewLshForest params).insertAll ins = some forest ∧
      (∀ p id, (∃ flat', flat.Insert p id = some flat') ∧
        ∃ forest', forest.Insert p id = some forest') ∧
      (∀ q, (∃ out, flat.Query q = some out) ∧ ∃ out, forest.Query q = some out) ∧
      (∀ q k, ∃ out, forest.QueryKnn q k = some out) ∧
      (∀ q k, (∃ out, forest.Delete.Query q = some out) ∧
        ∃ out, forest.Delete.QueryKnn q k = some out) ∧
      (∀ (id : Int) (key : hashTableKey) (fuel : Nat) (node : treeNode),
        treeNode.recursiveAddLevel id key fuel 0 node ≠ .error .indexOutOfRange) ∧
      (∀ (id : Int) (key : hashTableKey) (node : treeNode), node.made →
        ∃ node' flag,
          treeNode.recursiveAddLevel id key key.length 0 node = .ok (node', flag, key.length)) ∧
      (∀ (id : Int) (key : hashTableKey) (fuel : Nat) (node : treeNode)
        (r : treeNode × Bool × Nat),
        treeNode.recursiveAddLevel id key fuel 0 node = .ok r →
          r.2.2 = key.length ∧ key.length ≤ fuel) := by
  obtain ⟨flat, hfins, hfpar, hflt, -, -⟩ :=
    BasicLsh.insertAll_holds (NewBasicLsh params) ins (by simp [NewBasicLsh]) hlen
  have hfpar' : flat.params = params := hfpar
  have hflt' : flat.tables.length = params.l := hflt
  obtain ⟨forest, hins, hpar, hlen', -⟩ :=
    LshForest.built_spec params ins (fun e _ => (hlen e.1).ge)
  have hkeysLen : ∀ q, forest.trees.length ≤ (forest.params.hash q).length := by
    intro q
    rw [hlen', hpar, hlen q]
  refine ⟨flat, forest, hfins, hins, fun p id => ⟨?_, ?_⟩, fun q => ⟨?_, ?_⟩, fun q k => ?_,
    fun q k => ?_, fun id key fuel node => ?_, fun id key node hmade => ?_,
    fun id key fuel node r h => ?_⟩
  · obtain ⟨flat', h', -⟩ := BasicLsh.Insert_spec flat p id (by rw [hflt', hfpar'])
      (by rw [hfpar', hlen p])
    exact ⟨flat', h'⟩
  · exact LshForest.built_Insert params ins p id (fun e _ => (hlen e.1).ge) (hlen p).ge forest
      hins
  · obtain ⟨hvs, hh, hvl⟩ := flat.toBasicHashTableKeys_length (flat.params.hash q)
      (by rw [hfpar', hlen q])
    obtain ⟨out, hq, -, -⟩ := queryTables_spec flat.tables hvs ([], []) emitInv_start
      (by rw [hflt', hvl, hfpar'])
    exact ⟨out, by simp only [BasicLsh.Query, hh, hq]⟩
  · obtain ⟨out, hq, -, -⟩ := LshForest.queryHelper_spec forest forest.params.m
      (forest.params.hash q) (hkeysLen q)
    exact ⟨out, hq⟩
  · by_cases hm : forest.params.m < 0
    · exact ⟨[], by simp only [LshForest.QueryKnn, hm, if_true]⟩
    · obtain ⟨out, L, h, -⟩ := LshForest.knnLoop_spec forest k (forest.params.hash q)
        (hkeysLen q) forest.params.m.toNat
      exact ⟨out, by simp only [LshForest.QueryKnn, hm, if_false, h]⟩
  · have hlook : ∀ t ∈ forest.Delete.trees, ∀ (maxLevel : Int) (key : hashTableKey),
        t.lookup maxLevel key = [] := by
      intro t ht maxLevel key
      obtain ⟨hi, hc⟩ := (LshForest.Delete_trees forest).2.2 t ht
      exact prefixTree.lookup_of_bare t hi (by simp [treeNode.childList, hc]) maxLevel key
    have hq := (LshForest.queries_of_empty_lookups forest.Delete hlook q k).2.2 (by
      rw [(LshForest.Delete_trees forest).1]
      exact hkeysLen q)
    exact ⟨⟨[], hq.1⟩, ⟨[], hq.2⟩⟩
  · exact treeNode.recursiveAddLevel_in_range id key fuel 0 node (Nat.zero_le _)
  · obtain ⟨node', flag, hrec, -⟩ := treeNode.recursiveAddFrom_made id key node hmade
    refine ⟨node', flag, ?_⟩
    rw [treeNode.recursiveAddLevel_eq id key key.length 0 node (Nat.zero_le _) (by omega)]
    simp [hrec]
  · obtain ⟨-, h2, h3⟩ := treeNode.recursiveAddLevel_steps id key fuel 0 node r h
    exact ⟨by omega, by omega⟩

/-- C19 at the example insertions. -/
theorem C19_no_out_of_range_witness :
    ∃ flat forest, (NewBasicLsh exParams).insertAll exInserts = some flat ∧
      (NewLshForest exParams).insertAll exInserts = some forest ∧
      (∀ p id, (∃ flat', flat.Insert p id = some flat') ∧
        ∃ forest', forest.Insert p id = some forest') ∧
      (∀ q, (∃ out, flat.Query q = some out) ∧ ∃ out, forest.Query q = some out) ∧
      (∀ q k, ∃ out, forest.QueryKnn q k = some out) :=
  match C19_no_out_of_range exParams (fun _ => rfl) exInserts with
  | ⟨flat, forest, h1, h2, h3, h4, h5, _⟩ => ⟨flat, forest, h1, h2, h3, h4, h5⟩

/-- C20. Use after teardown: after `Delete()` on a forest built by inserts with `l >= 1`
and keys of length `m >= 1`, `Insert(p, id)` fails (so it adds nothing), the failure of
`recursiveAdd` on every root being the write into the nil children map, whereas `Query`
and `QueryKnn` return and emit nothing; and `Delete()` leaves the count of every tree at
its value before. -/
theorem C20_use_after_delete {Point : Type} (params : lshParams Point) (hl : 1 ≤ params.l)
    (hm : 1 ≤ params.m) (hlen : ∀ p, (params.hash p).length = params.l)
    (hkeys : ∀ p, ∀ key ∈ params.hash p, (key.length : Int) = params.m)
    (ins : List (Point × Int)) (p : Point) (id : Int) (q : Point) (k : Int) :
    ∃ index, (NewLshForest params).insertAll ins = some index ∧
      index.Delete.Insert p id = none ∧
      (∀ tree ∈ index.Delete.trees, ∀ key ∈ params.hash p,
        treeNode.recursiveAddLevel id key key.length 0 tree.root = .error .nilMapWrite) ∧
      index.Delete.Query q = some [] ∧ index.Delete.QueryKnn q k = some [] ∧
      index.Delete.trees.map prefixTree.count = index.trees.map prefixTree.count := by
  obtain ⟨index, hins, hpar, hlen', -⟩ :=
    LshForest.built_spec params ins (fun e _ => (hlen e.1).ge)
  obtain ⟨hdl, hdc, hdr⟩ := LshForest.Delete_trees index
  have hne : ∀ key ∈ params.hash p, key ≠ [] := by
    intro key hkey hnil
    have := hkeys p key hkey
    rw [hnil] at this
    simp only [List.length_nil, Nat.cast_zero] at this
    omega
  have hlook : ∀ t ∈ index.Delete.trees, ∀ (maxLevel : Int) (key : hashTableKey),
      t.lookup maxLevel key = [] := by
    intro t ht maxLevel key
    obtain ⟨hi, hc⟩ := hdr t ht
    exact prefixTree.lookup_of_bare t hi (by simp [treeNode.childList, hc]) maxLevel key
  have hq := (LshForest.queries_of_empty_lookups index.Delete hlook q k).2.2 (by
    rw [hdl, hlen']
    show params.l ≤ (index.params.hash q).length
    rw [hpar]
    exact (hlen q).ge)
  refine ⟨index, hins, ?_, ?_, hq.1, hq.2, hdc⟩
  · refine LshForest.Delete_Insert_none index p id (by omega) (fun key hkey => ?_)
    rw [hpar] at hkey
    exact hne key (List.getElem?_mem hkey)
  · intro tree ht key hkey
    obtain ⟨hi, hc⟩ := hdr tree ht
    rw [treeNode.recursiveAddLevel_eq id key key.length 0 tree.root (Nat.zero_le _) (by omega)]
    generalize tree.root = root at hc
    obtain ⟨hk, idx, cs⟩ := root
    simp only [treeNode.children] at hc
    subst hc
    cases key with
    | nil => exact absurd rfl (hne [] hkey)
    | cons a rest => simp [treeNode.recursiveAddFrom]

/-- C20 at the example insertions, for `Insert(4, 1)` after `Delete()`. -/
theorem C20_use_after_delete_witness :
    ∃ index, (NewLshForest exParams).insertAll exInserts = some index ∧
      index.Delete.Insert 4 1 = none ∧
      (∀ tree ∈ index.Delete.trees, ∀ key ∈ exParams.hash 4,
        treeNode.recursiveAddLevel 1 key key.length 0 tree.root = .error .nilMapWrite) ∧
      index.Delete.Query 4 = some [] ∧ index.Delete.QueryKnn 4 3 = some [] ∧
      index.Delete.trees.map prefixTree.count = index.trees.map prefixTree.count :=
  C20_use_after_delete exParams (by decide) (by decide) (fun _ => rfl) exHash_key_length
    exInserts 4 1 4 3

end Lsh
